import Mathlib

/-!
Verification of the dictionary-XML-to-Markdown renderer
(`src/mac_dict_to_md/parse.py`).

The element tree of `xml.etree.ElementTree` is embedded as the inductive
type `Elem`: tag, attribute association list, direct text, child list and
tail text.  Python's `None` text/tail is represented by the empty string:
every code path under verification guards text and tail with truthiness
(`if elem.text:`, `(elem.text or "")`), so `None` and `""` behave
identically.

Python `str` whitespace (used by `str.split()`, `str.strip()` and the
regex class `\s`) is modelled by `pySpace`, listing the whitespace
characters of Unicode plus the ASCII separators Python adds.  Python
`str.isdigit` / regex `\d` are modelled on the ASCII range `'0'..'9'`
(`pyDigit`); the exotic Unicode digit variants are outside the scope of
this embedding and every theorem below is stated within it.
-/

/-- Whitespace in the sense of Python `str.isspace` / regex `\s`. -/
def pySpace (c : Char) : Bool :=
  c = ' ' ∨ c = '\t' ∨ c = '\n' ∨ c = '\r' ∨ c = '\x0b' ∨ c = '\x0c' ∨
  c = '\x1c' ∨ c = '\x1d' ∨ c = '\x1e' ∨ c = '\x1f' ∨ c = '\x85' ∨
  c = '\xa0' ∨ c = ' ' ∨ (0x2000 ≤ c.toNat ∧ c.toNat ≤ 0x200a) ∨
  c = ' ' ∨ c = ' ' ∨ c = ' ' ∨ c = ' ' ∨ c = '　'

/-- ASCII decimal digit, modelling Python `str.isdigit` / regex `\d`
on the character range relevant to this program. -/
def pyDigit (c : Char) : Bool :=
  '0' ≤ c ∧ c ≤ '9'

/-- Drop leading whitespace from a character list (Python `str.lstrip`). -/
def lstripL (cs : List Char) : List Char :=
  cs.dropWhile pySpace

/-- Drop trailing whitespace from a character list (Python `str.rstrip`). -/
def rstripL (cs : List Char) : List Char :=
  (cs.reverse.dropWhile pySpace).reverse

/-- Drop whitespace from both ends (Python `str.strip`). -/
def stripL (cs : List Char) : List Char :=
  rstripL (lstripL cs)

/-- Split a character list on runs of whitespace, discarding empty
pieces (Python `str.split()` with no argument).  The first argument
accumulates the current word in reverse. -/
def wordsAux (acc : List Char) : List Char → List (List Char)
  | [] => if acc.isEmpty then [] else [acc.reverse]
  | c :: cs =>
    if pySpace c then
      if acc.isEmpty then wordsAux [] cs else acc.reverse :: wordsAux [] cs
    else
      wordsAux (c :: acc) cs

/-- Python `str.split()` on a character list. -/
def wordsL (cs : List Char) : List (List Char) :=
  wordsAux [] cs

/-- Python `str.strip()` on strings. -/
def pyStrip (s : String) : String :=
  ⟨stripL s.data⟩

/-- Python `str.lstrip()` on strings. -/
def pyLstrip (s : String) : String :=
  ⟨lstripL s.data⟩

/-- Python `str.rstrip()` on strings. -/
def pyRstrip (s : String) : String :=
  ⟨rstripL s.data⟩

/-- Python `str.split()` on strings. -/
def pySplit (s : String) : List String :=
  (wordsL s.data).map (fun w => ⟨w⟩)

/-- Python `sep.join(l)`. -/
def strJoinSep (sep : String) : List String → String
  | [] => ""
  | [x] => x
  | x :: xs => x ++ sep ++ strJoinSep sep xs

/-- Source `normalize_whitespace`: collapse whitespace runs into single
spaces (`" ".join(text.split())`). -/
def normalize_whitespace (text : String) : String :=
  strJoinSep " " (pySplit text)

/-- An `xml.etree.ElementTree.Element`: tag, attributes, direct text,
children, tail text. -/
inductive Elem : Type where
  | mk (tag : String) (attrs : List (String × String)) (text : String)
       (children : List Elem) (tail : String)

/-- Tag of an element. -/
def Elem.tag : Elem → String
  | .mk t _ _ _ _ => t

/-- Attribute association list of an element. -/
def Elem.attrs : Elem → List (String × String)
  | .mk _ a _ _ _ => a

/-- Direct text of an element (empty string for Python `None`). -/
def Elem.text : Elem → String
  | .mk _ _ t _ _ => t

/-- Child list of an element. -/
def Elem.children : Elem → List Elem
  | .mk _ _ _ c _ => c

/-- Tail text of an element (empty string for Python `None`). -/
def Elem.tail : Elem → String
  | .mk _ _ _ _ t => t

/-- Python `elem.get(key, default)`: first matching attribute value. -/
def Elem.getAttr (e : Elem) (key default : String) : String :=
  match e.attrs.lookup key with
  | some v => v
  | none => default

/-- Source `get_class`: split the `class` attribute on whitespace. -/
def get_class (e : Elem) : List String :=
  pySplit (e.getAttr "class" "")

/-- Source `has_class`: membership in the class token list. -/
def has_class (e : Elem) (cls : String) : Bool :=
  cls ∈ get_class e

mutual
/-- Python `Element.itertext()`, joined: the element's text followed by
each child's itertext and tail, recursively. -/
def itertext : Elem → String
  | .mk _ _ t cs _ => t ++ itertextList cs

/-- `itertext` over a child list. -/
def itertextList : List Elem → String
  | [] => ""
  | c :: cs => itertext c ++ c.tail ++ itertextList cs
end

/-- Source `get_all_text`: `"".join(elem.itertext()).strip()`. -/
def get_all_text (e : Elem) : String :=
  pyStrip (itertext e)

/-- Source `get_direct_text`: `(elem.text or "").strip()`. -/
def get_direct_text (e : Elem) : String :=
  pyStrip e.text

mutual
/-- Python `Element.iter()`: the element followed by its children's
iterations, in document order. -/
def iterElems : Elem → List Elem
  | .mk t a x cs tl => .mk t a x cs tl :: iterElemsList cs

/-- `iterElems` over a child list. -/
def iterElemsList : List Elem → List Elem
  | [] => []
  | c :: cs => iterElems c ++ iterElemsList cs
end

/-- Source `find_first_by_class` with `direct_only=False`: first element
in document order carrying the class. -/
def find_first_by_class (e : Elem) (cls : String) : Option Elem :=
  (iterElems e).find? (fun x => has_class x cls)

/-- Source `find_first_by_class` with `direct_only=True`: first direct
child carrying the class. -/
def find_first_direct (e : Elem) (cls : String) : Option Elem :=
  e.children.find? (fun x => has_class x cls)

/-- Source `SUPERSCRIPT`: digit character to superscript character. -/
def SUPERSCRIPT : List (String × String) :=
  [("0", "⁰"), ("1", "¹"), ("2", "²"), ("3", "³"), ("4", "⁴"),
   ("5", "⁵"), ("6", "⁶"), ("7", "⁷"), ("8", "⁸"), ("9", "⁹")]

/-- Source `SUBSCRIPT`: digit character to subscript character. -/
def SUBSCRIPT : List (String × String) :=
  [("0", "₀"), ("1", "₁"), ("2", "₂"), ("3", "₃"), ("4", "₄"),
   ("5", "₅"), ("6", "₆"), ("7", "₇"), ("8", "₈"), ("9", "₉")]

/-- Python `dict.get(k, default)` over an association list. -/
def dictGet (m : List (String × String)) (k default : String) : String :=
  match m.lookup k with
  | some v => v
  | none => default

/-- Per-character superscript encoding:
`"".join(SUPERSCRIPT.get(c, c) for c in text)`. -/
def supEncode (text : String) : String :=
  String.join (text.data.map (fun c => dictGet SUPERSCRIPT ⟨[c]⟩ ⟨[c]⟩))

/-- Per-character subscript encoding:
`"".join(SUBSCRIPT.get(c, c) for c in text)`. -/
def subEncode (text : String) : String :=
  String.join (text.data.map (fun c => dictGet SUBSCRIPT ⟨[c]⟩ ⟨[c]⟩))

/-- Source `UNICODE_FRACTIONS`: (numerator, denominator) pairs with a
precomposed Unicode character. -/
def UNICODE_FRACTIONS : List ((Nat × Nat) × String) :=
  [((1, 2), "½"), ((1, 3), "⅓"), ((2, 3), "⅔"), ((1, 4), "¼"),
   ((3, 4), "¾"), ((1, 5), "⅕"), ((2, 5), "⅖"), ((3, 5), "⅗"),
   ((4, 5), "⅘"), ((1, 6), "⅙"), ((5, 6), "⅚"), ((1, 7), "⅐"),
   ((1, 8), "⅛"), ((3, 8), "⅜"), ((5, 8), "⅝"), ((7, 8), "⅞"),
   ((1, 9), "⅑"), ((1, 10), "⅒")]

/-- Python `int(s)` for a string consisting only of ASCII digits: fails
(`ValueError`) exactly on the empty string, otherwise the decimal value.
In `format_fraction` the argument is always a filtered digit string. -/
def pyIntDigits (s : String) : Option Nat :=
  if s.data = [] then none
  else if s.data.all pyDigit then
    some (s.data.foldl (fun n c => 10 * n + (c.toNat - '0'.toNat)) 0)
  else none

/-- Digit filtering used in `format_fraction`:
`"".join(c for c in text if c.isdigit())` over a child's `itertext`. -/
def digitsOf (child : Elem) : String :=
  ⟨(itertext child).data.filter pyDigit⟩

/-- Numerator digit string of a fraction container: the digits of the
last direct child carrying class `nu` (the loop reassigns on each
match), or `""`. -/
def frac_numerator (e : Elem) : String :=
  e.children.foldl
    (fun acc c =>
      if "nu" ∈ get_class c then digitsOf c
      else acc)
    ""

/-- Denominator digit string of a fraction container: digits of the last
direct child carrying class `dn` but not `nu` (the source dispatches
with `elif`). -/
def frac_denominator (e : Elem) : String :=
  e.children.foldl
    (fun acc c =>
      if "nu" ∈ get_class c then acc
      else if "dn" ∈ get_class c then digitsOf c
      else acc)
    ""

/-- Source `format_fraction`: try the Unicode fraction table on the
parsed `(numerator, denominator)` pair, fall back to
superscript/fraction-slash/subscript. -/
def format_fraction (e : Elem) : String :=
  let numerator := frac_numerator e
  let denominator := frac_denominator e
  let fallback := supEncode numerator ++ "⁄" ++ subEncode denominator
  match pyIntDigits numerator, pyIntDigits denominator with
  | some n, some d =>
    match UNICODE_FRACTIONS.lookup (n, d) with
    | some ch => ch
    | none => fallback
  | _, _ => fallback

example :
    format_fraction
      (.mk "span" [("class", "frac")] ""
        [.mk "span" [("class", "nu")] "1" [] "",
         .mk "span" [("class", "dn")] "2" [] ""] "") = "½" := by
  decide

example :
    format_fraction
      (.mk "span" [("class", "frac")] ""
        [.mk "span" [("class", "nu")] "5" [] "",
         .mk "span" [("class", "dn")] "7" [] ""] "") = "⁵⁄₇" := by
  decide

/-- Namespaced tags skipped by the inline renderer (pronunciation and
structural markers). -/
def skipTags : List String :=
  ["\x7bhttp://www.apple.com/DTDs/DictionaryService-1.0.rng\x7dprn",
   "\x7bhttp://www.apple.com/DTDs/DictionaryService-1.0.rng\x7ddef",
   "\x7bhttp://www.apple.com/DTDs/DictionaryService-1.0.rng\x7dpos"]

/-- Post-processing shared by the non-`continue` dispatch branches:
append a newline for `x_blk` elements, then the tail if non-empty. -/
def afterChild (c : Elem) (result : List String) : List String :=
  let result := if "x_blk" ∈ get_class c then result ++ ["\n"] else result
  if c.tail ≠ "" then result ++ [c.tail] else result

/-- Styled piece for the italic/bold branches: emitted only when the
normalized text is non-empty. -/
def styledPieces (mark t : String) : List String :=
  if t = "" then [] else [mark ++ t ++ mark]

/-- Python `s.endswith((" ", "\n", "\t"))`: the last character is a
space, newline or tab. -/
def endsWithSTN (s : String) : Bool :=
  match s.data.getLast? with
  | some c => c = ' ' ∨ c = '\n' ∨ c = '\t'
  | none => false

/-- The guarded trim before superscript/subscript content:
`if result and result[-1].endswith((" ", "\n", "\t")):
result[-1] = result[-1].rstrip()`. -/
def trimLastWs (result : List String) : List String :=
  match result.getLast? with
  | some last =>
    if endsWithSTN last then result.dropLast ++ [pyRstrip last] else result
  | none => result

/-- Superscript/homograph/subscript branch: trim the preceding piece,
append the encoded text, append the tail with leading whitespace
stripped, and skip the normal tail processing (`continue`). -/
def supStylePieces (enc : String → String) (result : List String)
    (c : Elem) : List String :=
  let result := trimLastWs result
  let t := normalize_whitespace (get_all_text c)
  let result := result ++ [enc t]
  if c.tail ≠ "" then result ++ [pyLstrip c.tail] else result

/-- Display text of a cross-reference link: the node's stripped direct
text plus `get_all_text` of every non-homograph child, normalized. -/
def linkWordText (c : Elem) : String :=
  normalize_whitespace
    (c.children.foldl
      (fun acc k => if has_class k "ty_hom" then acc else acc ++ get_all_text k)
      (pyStrip c.text))

/-- Homograph number of a cross-reference link: stripped text of the
last `ty_hom` child, or `""`. -/
def linkHomNum (c : Elem) : String :=
  c.children.foldl
    (fun acc k => if has_class k "ty_hom" then pyStrip (get_all_text k) else acc)
    ""

/-- The `<a>` branch of the inline renderer: Markdown link with optional
superscript homograph, degrading to plain text without a title and to
nothing without display text. -/
def renderLink (c : Elem) : List String :=
  let title := c.getAttr "title" ""
  let word_text := linkWordText c
  let hom_num := linkHomNum c
  let link_text :=
    if hom_num ≠ "" then word_text ++ supEncode hom_num else word_text
  let filename :=
    if hom_num ≠ "" then title ++ "_" ++ hom_num ++ ".md" else title ++ ".md"
  if title ≠ "" ∧ link_text ≠ "" then
    ["[" ++ link_text ++ "](" ++ filename ++ ")"]
  else if link_text ≠ "" then [link_text]
  else []

/-- One iteration of the child loop of `format_inline_content`: the
class-priority dispatch.  `ficC` is the recursively rendered content of
the child `c` (passed explicitly so that the mutual recursion below is
structural and computable by the kernel). -/
def renderChildWith (ficC : String) (result : List String) (c : Elem) :
    List String :=
  let classes := get_class c
  if c.tag ∈ skipTags then
    (if c.tail ≠ "" then result ++ [c.tail] else result)
  else if "ex" ∈ classes then
    afterChild c (result ++
      styledPieces "*" (normalize_whitespace ficC))
  else if "bold" ∈ classes then
    afterChild c (result ++
      styledPieces "**" (normalize_whitespace ficC))
  else if "f" ∈ classes then
    afterChild c (result ++
      styledPieces "**" (normalize_whitespace ficC))
  else if "ge" ∈ classes then
    afterChild c (result ++
      styledPieces "*" (normalize_whitespace ficC))
  else if "sy" ∈ classes then
    afterChild c (result ++
      styledPieces "*" (normalize_whitespace ficC))
  else if "tx" ∈ classes then
    afterChild c (result ++
      styledPieces "**" (normalize_whitespace ficC))
  else if "sup" ∈ classes then
    supStylePieces supEncode result c
  else if "ty_hom" ∈ classes then
    supStylePieces supEncode result c
  else if "subEnt" ∈ classes then
    supStylePieces subEncode result c
  else if "reg" ∈ classes then
    afterChild c (result ++
      styledPieces "*" (normalize_whitespace ficC))
  else if "ff" ∈ classes then
    afterChild c (result ++
      styledPieces "**" (normalize_whitespace ficC))
  else if "v" ∈ classes then
    afterChild c (result ++
      styledPieces "**" (normalize_whitespace ficC))
  else if "lbl" ∈ classes then
    afterChild c (result ++ [normalize_whitespace ficC])
  else if "gg" ∈ classes then
    afterChild c (result ++
      (let t := normalize_whitespace (get_all_text c)
       if t = "" then [] else [t]))
  else if "frac" ∈ classes then
    afterChild c (result ++ [format_fraction c])
  else if "nu" ∈ classes ∨ "dn" ∈ classes then
    afterChild c result
  else if c.tag = "a" then
    afterChild c (result ++ renderLink c)
  else
    afterChild c (result ++ [ficC])

mutual
/-- Source `format_inline_content`: recursive inline renderer. -/
def format_inline_content : Elem → String
  | .mk _ _ t cs _ =>
    String.join (renderChildren (if t ≠ "" then [t] else []) cs)

/-- The child loop of `format_inline_content`, threading the `result`
piece list. -/
def renderChildren (result : List String) : List Elem → List String
  | [] => result
  | c :: cs => renderChildren (renderChildWith (format_inline_content c) result c) cs
end

/-- One iteration of the child loop, with the child's recursive
rendering filled in. -/
def renderChild (result : List String) (c : Elem) : List String :=
  renderChildWith (format_inline_content c) result c

/-- Source `HANDLED_CLASSES`: class tokens with explicit formatting
rules (the set literal, as a list). -/
def HANDLED_CLASSES : List String :=
  ["hg", "hw", "prx", "ph", "gp", "hsb", "syl_txt",
   "sg", "se1", "se2", "msDict", "posg", "pos", "gg", "x_xdh",
   "df", "eg", "ex", "f", "fg", "ge", "lg", "reg", "bold", "l", "lbl",
   "sn", "sj", "work", "tx", "q", "sy", "subEnt", "sup",
   "frac", "nu", "dn",
   "subEntryBlock", "subEntry", "etym", "note", "dg", "date", "la", "ff",
   "trans", "pr",
   "t_respell", "t_IPA", "t_first", "t_subsense", "t_core", "t_phrases",
   "t_phrasalVerbs", "t_derivatives", "ty_label",
   "x_xh0", "x_xd0", "x_xd1", "x_xd1sub", "x_xdh", "x_xdt",
   "x_xo0", "x_xo1", "x_xo2", "x_xoh", "x_xoLblBlk",
   "hasSn", "entry", "x_blk", "xr", "xrg", "xrlabelGroup", "xrlabel",
   "v", "vg"]

/-- Python `s.startswith(p)` (character-list prefix test). -/
def pyStartsWith (s p : String) : Bool :=
  p.data.isPrefixOf s.data

/-- The class-tracking half of source `track_element`, acting on the
insertion-ordered key list of the `unhandled_classes` dict.  The stored
values (source file name and XML snippet) play no role in which classes
get recorded and are not modelled. -/
def track_element_classes (m : List String) (e : Elem) : List String :=
  (get_class e).foldl
    (fun acc cls =>
      if cls ∉ HANDLED_CLASSES ∧ ¬pyStartsWith cls "tg_" ∧ cls ∉ acc then
        acc ++ [cls]
      else acc)
    m

/-- Leftmost index of `needle` in `hay` (Python `str.find`, with `none`
for Python's `-1`). -/
def findSubAux (needle : List Char) : List Char → Nat → Option Nat
  | [], i => if needle.isEmpty then some i else none
  | c :: cs, i =>
    if needle.isPrefixOf (c :: cs) then some i else findSubAux needle cs (i + 1)

/-- Python `hay.find(needle)` on strings. -/
def pyFind (hay needle : String) : Option Nat :=
  findSubAux needle.data hay.data 0

/-- Python `s[n:]` (drop the first `n` characters). -/
def strDrop (s : String) (n : Nat) : String :=
  ⟨s.data.drop n⟩

/-- Python `s.startswith(p)`. -/
def strStarts (s p : String) : Bool :=
  p.data.isPrefixOf s.data

/-- Python `len(s)` (character count). -/
def strLen (s : String) : Nat :=
  s.data.length

/-- The label part of the fall-through note branch: a bold label when
one is present and its stripped normalized text is non-empty. -/
def notePartsA (lblOpt : Option Elem) : List String :=
  match lblOpt with
  | some lbl =>
    let lblText := pyStrip (normalize_whitespace (get_all_text lbl))
    if lblText ≠ "" then ["**" ++ lblText ++ "**"] else []
  | none => []

/-- The content part of the fall-through note branch: the normalized
note rendering, with a duplicated leading label text stripped off. -/
def noteContent (note : Elem) (lblOpt : Option Elem) : String :=
  let content := normalize_whitespace (format_inline_content note)
  match lblOpt with
  | some lbl =>
    let lblText := pyStrip (normalize_whitespace (get_all_text lbl))
    if strStarts content lblText then
      pyStrip (strDrop content (strLen lblText))
    else content
  | none => content

/-- The fall-through branch of source `format_note` ("Standard handling
for notes without x_blk"): bold label, content with a duplicated
leading label stripped, joined on one blockquote line. -/
def noteStd (note : Elem) (lblOpt : Option Elem) : String :=
  let parts := notePartsA lblOpt
  let content := noteContent note lblOpt
  let parts := if content ≠ "" then parts ++ [content] else parts
  if parts ≠ [] then "> " ++ strJoinSep " " parts else ""

/-- Source `format_note`: blockquote rendering of a note element, with
the two-line special case for labels carrying `x_blk` whose text is
found in the rendered content directly before the block newline. -/
def format_note (note : Elem) : String :=
  let lblOpt := find_first_by_class note "lbl"
  match lblOpt with
  | some lbl =>
    if has_class lbl "x_blk" then
      let lblText := pyStrip (normalize_whitespace (get_all_text lbl))
      let raw := format_inline_content note
      if lblText ≠ "" then
        match pyFind raw lblText with
        | some i =>
          let afterLbl := strDrop raw (i + strLen lblText)
          if strStarts afterLbl "\n" then
            let rest := pyStrip (normalize_whitespace (strDrop afterLbl 1))
            if rest ≠ "" then
              "> **" ++ lblText ++ "**" ++ "\n" ++ "> " ++ rest
            else "> **" ++ lblText ++ "**"
          else noteStd note lblOpt
        | none => noteStd note lblOpt
      else noteStd note lblOpt
    else noteStd note lblOpt
  | none => noteStd note lblOpt

/-- Source `format_header`: heading line built from the title attribute,
optional homograph superscript, pronunciation and variant group. -/
def format_header (root : Elem) : String :=
  let word :=
    root.getAttr
      "\x7bhttp://www.apple.com/DTDs/DictionaryService-1.0.rng\x7dtitle" ""
  let word := if word = "" then root.getAttr "d:title" "" else word
  let homograph :=
    match find_first_by_class root "hw" with
    | some hw =>
      match find_first_by_class hw "ty_hom" with
      | some hom =>
        let hom_num := pyStrip (get_all_text hom)
        dictGet SUPERSCRIPT hom_num hom_num
      | none => ""
    | none => ""
  let parts : List String :=
    if word ≠ "" then ["# " ++ word ++ homograph] else []
  let parts :=
    match find_first_by_class root "prx" with
    | some prx =>
      let p := normalize_whitespace (get_all_text prx)
      if p ≠ "" then parts ++ [p] else parts
    | none => parts
  let parts :=
    match find_first_by_class root "hg" with
    | some hg =>
      match find_first_direct hg "vg" with
      | some vg =>
        let v := normalize_whitespace (format_inline_content vg)
        if v ≠ "" then parts ++ [v] else parts
      | none => parts
    | none => parts
  if parts ≠ [] then strJoinSep " " parts else ""

/-- The sentence punctuation class `[.,;:!?]` of the cleanup regexes. -/
def punct6 (c : Char) : Bool :=
  c = '.' ∨ c = ',' ∨ c = ';' ∨ c = ':' ∨ c = '!' ∨ c = '?'

/-- Lowercase ASCII letter `[a-z]`. -/
def lowerAZ (c : Char) : Bool :=
  'a' ≤ c ∧ c ≤ 'z'

/-- Scanner for `re.sub(r"\s+(P)", r"\1", ...)` with `P` a character
class: delete every maximal whitespace run that is immediately followed
by a `P` character.  `pend` holds the current whitespace run in
reverse. -/
def delWsBeforeAux (P : Char → Bool) (pend : List Char) :
    List Char → List Char
  | [] => pend.reverse
  | c :: cs =>
    if pySpace c then delWsBeforeAux P (c :: pend) cs
    else if P c then c :: delWsBeforeAux P [] cs
    else pend.reverse ++ (c :: delWsBeforeAux P [] cs)

/-- Pass 1 of `clean_punctuation`:
`re.sub(r"\s+([.,;:!?])", r"\1", content)`. -/
def delWsBeforePunct (cs : List Char) : List Char :=
  delWsBeforeAux punct6 [] cs

/-- The lookahead `[a-z]{2,4}\)` starting at the head of the list:
two to four lowercase letters followed by a closing parenthesis
(the file-extension carve-out of pass 2). -/
def extParen (l : List Char) : Bool :=
  (decide ((l.take 2).length = 2) ∧ (l.take 2).all lowerAZ ∧ l.get? 2 = some ')')
  ∨ (decide ((l.take 3).length = 3) ∧ (l.take 3).all lowerAZ ∧ l.get? 3 = some ')')
  ∨ (decide ((l.take 4).length = 4) ∧ (l.take 4).all lowerAZ ∧ l.get? 4 = some ')')

/-- Firing condition of pass 2 at a punctuation character whose suffix
is `l`: `(?![a-z]{2,4}\))(?=[^\s\d.,;:!?])`. -/
def r2fires : List Char → Bool
  | [] => false
  | d :: rest =>
    ¬pySpace d ∧ ¬pyDigit d ∧ ¬punct6 d ∧ ¬extParen (d :: rest)

/-- Pass 2 of `clean_punctuation`:
`re.sub(r"([.,;:!?])(?![a-z]{2,4}\))(?=[^\s\d.,;:!?])", r"\1 ", content)`. -/
def insSpaceAfterPunct : List Char → List Char
  | [] => []
  | c :: cs =>
    if punct6 c ∧ r2fires cs then c :: ' ' :: insSpaceAfterPunct cs
    else c :: insSpaceAfterPunct cs

mutual
/-- Pass 3 of `clean_punctuation`:
`re.sub(r"\s*\|\s*", " | ", content)`.  `pend` holds the pending
whitespace run in reverse; on a pipe the run is replaced by a single
space. -/
def pipeNormAux (pend : List Char) : List Char → List Char
  | [] => pend.reverse
  | c :: cs =>
    if pySpace c then pipeNormAux (c :: pend) cs
    else if c = '|' then ' ' :: '|' :: pipeTail cs
    else pend.reverse ++ (c :: pipeNormAux [] cs)

/-- Continuation of pass 3 after a pipe: consume the trailing
whitespace run, emit the single trailing space, resume scanning. -/
def pipeTail : List Char → List Char
  | [] => [' ']
  | c :: cs =>
    if pySpace c then pipeTail cs
    else if c = '|' then ' ' :: ' ' :: '|' :: pipeTail cs
    else ' ' :: c :: pipeNormAux [] cs
end

/-- Pass 3 entry point. -/
def pipeNorm (cs : List Char) : List Char :=
  pipeNormAux [] cs

/-- Pass 4 of `clean_punctuation`: `re.sub(r" +", " ", content)`.  The
flag records whether the previous character was a plain space. -/
def collapseAux (inRun : Bool) : List Char → List Char
  | [] => []
  | c :: cs =>
    if c = ' ' then
      (if inRun then collapseAux true cs else ' ' :: collapseAux true cs)
    else c :: collapseAux false cs

/-- Pass 4 entry point. -/
def collapseSpaces (cs : List Char) : List Char :=
  collapseAux false cs

/-- Pass 5 of `clean_punctuation`: `re.sub(r"'\s+", "'", content)`.
The flag records whether whitespace is being deleted after an
apostrophe. -/
def delWsAfterAposAux (skipping : Bool) : List Char → List Char
  | [] => []
  | c :: cs =>
    if skipping ∧ pySpace c then delWsAfterAposAux true cs
    else c :: delWsAfterAposAux (c = '\'') cs

/-- Pass 5 entry point. -/
def delWsAfterApos (cs : List Char) : List Char :=
  delWsAfterAposAux false cs

/-- The apostrophe class of passes 5 and 6. -/
def aposP (c : Char) : Bool :=
  c = '\''

/-- Pass 6 of `clean_punctuation`:
`re.sub(r"\s+'", "'", content)`. -/
def delWsBeforeApos (cs : List Char) : List Char :=
  delWsBeforeAux aposP [] cs

/-- The six regex passes of `clean_punctuation` on one line's content,
followed by the final `strip`. -/
def cleanContent (cs : List Char) : List Char :=
  stripL (delWsBeforeApos (delWsAfterApos (collapseSpaces (pipeNorm
    (insSpaceAfterPunct (delWsBeforePunct cs))))))

/-- One line of `clean_punctuation`: preserve the leading whitespace
(indentation) verbatim, clean the rest. -/
def lineClean (l : List Char) : List Char :=
  l.takeWhile pySpace ++ cleanContent (l.dropWhile pySpace)

/-- Python `text.split("\n")` on a character list. -/
def splitNl : List Char → List (List Char)
  | [] => [[]]
  | c :: cs =>
    if c = '\n' then [] :: splitNl cs
    else
      match splitNl cs with
      | h :: t => (c :: h) :: t
      | [] => [[c]]

/-- Source `clean_punctuation`: split into lines, clean each line
preserving its indentation, rejoin with newlines. -/
def clean_punctuation (text : String) : String :=
  ⟨List.intercalate ['\n'] ((splitNl text.data).map lineClean)⟩

example : clean_punctuation "hello ." = "hello." := by decide
example : clean_punctuation "one , two" = "one, two" := by decide
example : clean_punctuation "    indented text ." = "    indented text." := by decide
example : clean_punctuation "it' s" = "it's" := by decide
example : clean_punctuation "a|b" = "a | b" := by decide
example : clean_punctuation "(file.tmp)x" = "(file.tmp)x" := by decide
example : clean_punctuation "a.b" = "a. b" := by decide

/-! Small helper lemmas about strings viewed as character lists. -/

/-- String append acts as list append on the underlying data. -/
theorem strData_append (s u : String) : (s ++ u).data = s.data ++ u.data :=
  rfl

/-- Strings are equal iff their character lists are equal. -/
theorem strEq_of_data {s u : String} (h : s.data = u.data) : s = u := by
  cases s; cases u; exact congrArg String.mk h

/-- Appending the empty string on the right. -/
theorem strAppend_empty (s : String) : s ++ "" = s :=
  strEq_of_data (by simp [strData_append])

/-- Appending the empty string on the left. -/
theorem strEmpty_append (s : String) : "" ++ s = s :=
  strEq_of_data (by simp [strData_append])

/-- String append is associative. -/
theorem strAppend_assoc (a b c : String) : a ++ b ++ c = a ++ (b ++ c) :=
  strEq_of_data (by simp [strData_append])

/-- Folding append over a list, starting from an arbitrary string. -/
theorem strFoldl_init (l : List String) :
    ∀ s, l.foldl (· ++ ·) s = s ++ l.foldl (· ++ ·) "" := by
  induction l with
  | nil => intro s; simp [strAppend_empty]
  | cons a l ih =>
    intro s
    simp only [List.foldl_cons]
    rw [ih (s ++ a), ih ("" ++ a), strEmpty_append, strAppend_assoc]

/-- `String.join` of a cons. -/
theorem strJoin_cons (s : String) (l : List String) :
    String.join (s :: l) = s ++ String.join l := by
  show (s :: l).foldl (· ++ ·) "" = s ++ l.foldl (· ++ ·) ""
  rw [List.foldl_cons, strEmpty_append, strFoldl_init]

/-- `String.join` distributes over list append. -/
theorem strJoin_append (l₁ l₂ : List String) :
    String.join (l₁ ++ l₂) = String.join l₁ ++ String.join l₂ := by
  induction l₁ with
  | nil => simp [String.join]
  | cons a l ih => simp [strJoin_cons, ih, String.append_assoc]

/-- Generic association list fact: a successful lookup comes from a
member pair. -/
theorem lookup_mem {α β : Type} [BEq α] [LawfulBEq α] {l : List (α × β)}
    {k : α} {v : β} (h : l.lookup k = some v) : (k, v) ∈ l := by
  induction l with
  | nil => simp [List.lookup] at h
  | cons p l ih =>
    obtain ⟨a, b⟩ := p
    rw [List.lookup] at h
    cases hbeq : k == a with
    | true =>
      simp [hbeq] at h
      have hka : k = a := eq_of_beq hbeq
      subst hka
      subst h
      exact List.mem_cons_self _ _
    | false =>
      simp [hbeq] at h
      exact List.mem_cons_of_mem _ (ih h)

/-! Claim C1: the common-vulgar-fraction table. -/

/-- Every character in the Unicode fraction table is a single
precomposed code point. -/
theorem unicodeFractions_single (k : Nat × Nat) (ch : String)
    (h : UNICODE_FRACTIONS.lookup k = some ch) : ch.data.length = 1 := by
  have hm := lookup_mem h
  simp only [UNICODE_FRACTIONS, List.mem_cons, List.not_mem_nil, or_false,
    Prod.mk.injEq] at hm
  rcases hm with
      ⟨-, rfl⟩ | ⟨_, rfl⟩ | ⟨-, rfl⟩ | ⟨_, rfl⟩ | ⟨-, rfl⟩ | ⟨_, rfl⟩ | ⟨-, rfl⟩ | ⟨_, rfl⟩ | ⟨-, rfl⟩ | ⟨_, rfl⟩ | ⟨-, rfl⟩ | ⟨_, rfl⟩ | ⟨-, rfl⟩ | ⟨_, rfl⟩ | ⟨-, rfl⟩ | ⟨_, rfl⟩ | ⟨-, rfl⟩ | ⟨_, rfl⟩ <;> rfl

/-- Claim C1, counterexample: the pair (1, 7) — sevenths — is absent
from the claim's enumeration of the table (halves, thirds, quarters,
fifths, sixths, eighths, ninths, tenths and the extra
two-thirds/three-quarters/three-eighths/five-eighths/seven-eighths), so
by the claim it should render as the 3-part
superscript/fraction-slash/subscript string "¹⁄₇"; the code instead
returns the single precomposed character "⅐". -/
theorem claim1_counterexample :
    format_fraction
      (.mk "span" [("class", "frac")] ""
        [.mk "span" [("class", "nu")] "1" [] "",
         .mk "span" [("class", "dn")] "7" [] ""] "") = "⅐" ∧
    ("⅐" : String) ≠ supEncode "1" ++ "⁄" ++ subEncode "7" := by
  refine ⟨by decide, by decide⟩

/-- Claim C1 as amended: with sevenths (1, 7) included in the table,
for every fraction container node whose numerator and denominator digit
strings parse as the pair (n, d): if (n, d) is in the table the
formatter returns exactly the designated single precomposed Unicode
character, and otherwise it returns the superscript encoding of the
numerator digits, a fraction slash, and the subscript encoding of the
denominator digits. -/
theorem claim1_fraction_table (e : Elem) (n d : Nat)
    (hn : pyIntDigits (frac_numerator e) = some n)
    (hd : pyIntDigits (frac_denominator e) = some d) :
    (∀ ch, UNICODE_FRACTIONS.lookup (n, d) = some ch →
      format_fraction e = ch ∧ ch.data.length = 1) ∧
    (UNICODE_FRACTIONS.lookup (n, d) = none →
      format_fraction e =
        supEncode (frac_numerator e) ++ "⁄" ++ subEncode (frac_denominator e)) := by
  constructor
  · intro ch hch
    refine ⟨?_, unicodeFractions_single _ _ hch⟩
    simp [format_fraction, hn, hd, hch]
  · intro hnone
    simp [format_fraction, hn, hd, hnone]

/-- Witness for C1: the tabled pair (1, 2) yields the single character
"½", and the untabled pair (5, 7) yields the 3-part fallback "⁵⁄₇". -/
theorem claim1_fraction_table_witness :
    (format_fraction
      (.mk "span" [("class", "frac")] ""
        [.mk "span" [("class", "nu")] "1" [] "",
         .mk "span" [("class", "dn")] "2" [] ""] "") = "½" ∧
     ("½" : String).data.length = 1) ∧
    format_fraction
      (.mk "span" [("class", "frac")] ""
        [.mk "span" [("class", "nu")] "5" [] "",
         .mk "span" [("class", "dn")] "7" [] ""] "") = "⁵⁄₇" := by
  constructor
  · exact (claim1_fraction_table _ 1 2 (by decide) (by decide)).1 "½" (by decide)
  · have h := (claim1_fraction_table
      (.mk "span" [("class", "frac")] ""
        [.mk "span" [("class", "nu")] "5" [] "",
         .mk "span" [("class", "dn")] "7" [] ""] "") 5 7
      (by decide) (by decide)).2 (by decide)
    rw [h]; decide

/-! Claim C8: malformed fraction digits degrade, they do not raise. -/

/-- Claim C8: when the numerator or the denominator digit string of a
fraction container is empty (missing or non-numeric content), the
formatter still returns the superscript/fraction-slash/subscript
fallback, with the empty part contributing nothing; the conversion
cannot raise (the embedding is a total function). -/
theorem claim8_malformed_fraction (e : Elem)
    (h : frac_numerator e = "" ∨ frac_denominator e = "") :
    format_fraction e =
      supEncode (frac_numerator e) ++ "⁄" ++ subEncode (frac_denominator e) ∧
    (frac_numerator e = "" →
      format_fraction e = "⁄" ++ subEncode (frac_denominator e)) ∧
    (frac_denominator e = "" →
      format_fraction e = supEncode (frac_numerator e) ++ "⁄") := by
  have hfall : format_fraction e =
      supEncode (frac_numerator e) ++ "⁄" ++ subEncode (frac_denominator e) := by
    rcases h with h | h <;>
      simp [format_fraction, h, pyIntDigits]
  refine ⟨hfall, ?_, ?_⟩
  · intro h0
    rw [hfall, h0]
    exact congrArg (· ++ subEncode (frac_denominator e)) (strEmpty_append "⁄")
  · intro h0
    rw [hfall, h0]
    exact strAppend_empty _

/-- Witness for C8: a fraction node with an empty numerator renders as
the fallback with the numerator part omitted. -/
theorem claim8_malformed_fraction_witness :
    format_fraction
      (.mk "span" [("class", "frac")] ""
        [.mk "span" [("class", "nu")] "" [] "",
         .mk "span" [("class", "dn")] "2" [] ""] "") = "⁄₂" := by
  have h := (claim8_malformed_fraction
    (.mk "span" [("class", "frac")] ""
      [.mk "span" [("class", "nu")] "" [] "",
       .mk "span" [("class", "dn")] "2" [] ""] "")
    (Or.inl (by decide))).2.1 (by decide)
  rw [h]; decide

/-! Claim C9: `tg_`-prefixed class tokens are never tracked. -/

/-- Claim C9: for every element and every class token beginning with
`tg_`, the unhandled-class tracker leaves membership of that token in
the unhandled-classes map unchanged — even though such tokens are not
members of the handled-class registry. -/
theorem claim9_tg_untracked (m : List String) (e : Elem) (cls : String)
    (h : pyStartsWith cls "tg_" = true) :
    (cls ∈ track_element_classes m e ↔ cls ∈ m) ∧ cls ∉ HANDLED_CLASSES := by
  constructor
  · have key : ∀ (l acc : List String),
        (cls ∈ l.foldl
          (fun acc2 c =>
            if c ∉ HANDLED_CLASSES ∧ ¬pyStartsWith c "tg_" ∧ c ∉ acc2 then
              acc2 ++ [c]
            else acc2) acc ↔ cls ∈ acc) := by
      intro l
      induction l with
      | nil => intro acc; exact Iff.rfl
      | cons c l ih =>
        intro acc
        rw [List.foldl_cons]
        by_cases hc : c ∉ HANDLED_CLASSES ∧ ¬pyStartsWith c "tg_" ∧ c ∉ acc
        · rw [if_pos hc, ih]
          constructor
          · intro hmem
            rcases List.mem_append.1 hmem with h1 | h1
            · exact h1
            · exfalso
              have : cls = c := List.mem_singleton.1 h1
              subst this
              exact hc.2.1 h
          · intro hmem
            exact List.mem_append_left _ hmem
        · rw [if_neg hc, ih]
    exact key (get_class e) m
  · intro hmem
    have hall : ∀ x ∈ HANDLED_CLASSES, pyStartsWith x "tg_" = false := by decide
    rw [hall cls hmem] at h
    exact Bool.false_ne_true h

/-- Witness for C9: the token `tg_se2` carried by an element is not
recorded in an initially empty map, and is not a handled class. -/
theorem claim9_tg_untracked_witness :
    ("tg_se2" ∉
      track_element_classes [] (.mk "span" [("class", "tg_se2")] "" [] "")) ∧
    "tg_se2" ∉ HANDLED_CLASSES :=
  ⟨fun hm => by
    simpa using
      (claim9_tg_untracked [] (.mk "span" [("class", "tg_se2")] "" [] "")
        "tg_se2" (by decide)).1.mp hm,
   (claim9_tg_untracked [] (.mk "span" [("class", "tg_se2")] "" [] "")
     "tg_se2" (by decide)).2⟩

/-! Claim C10: the header homograph is a whole-string table lookup. -/

/-- A homograph string of two or more characters misses every key of
the superscript table (all keys are single characters), so the
string-level `dict.get` returns it unchanged. -/
theorem dictGet_sup_of_long (h : String) (hh : 2 ≤ h.data.length) :
    dictGet SUPERSCRIPT h h = h := by
  cases hl : SUPERSCRIPT.lookup h with
  | none => simp [dictGet, hl]
  | some v =>
    exfalso
    have hm := lookup_mem hl
    simp only [SUPERSCRIPT, List.mem_cons, List.not_mem_nil, or_false,
      Prod.mk.injEq] at hm
    rcases hm with ⟨rfl, -⟩ | ⟨rfl, -⟩ | ⟨rfl, -⟩ | ⟨rfl, -⟩ | ⟨rfl, -⟩ |
      ⟨rfl, -⟩ | ⟨rfl, -⟩ | ⟨rfl, -⟩ | ⟨rfl, -⟩ | ⟨rfl, -⟩ <;>
      exact absurd hh (by decide)

/-- Joining a single piece. -/
theorem strJoinSep_single (s x : String) :
    strJoinSep s [x] = x :=
  rfl

/-- Claim C10: in the entry header the homograph suffix is looked up in
the superscript table as a whole string, so only a single-digit
homograph is converted; a multi-digit homograph (e.g. "12") is appended
unchanged — unlike the cross-reference link formatter, which encodes
"12" per character as "¹²". -/
theorem claim10_header_homograph (root hw hom : Elem) (w h : String)
    (hword : root.getAttr
      "\x7bhttp://www.apple.com/DTDs/DictionaryService-1.0.rng\x7dtitle" "" = w)
    (hwne : w ≠ "")
    (hfind : find_first_by_class root "hw" = some hw)
    (hhom : find_first_by_class hw "ty_hom" = some hom)
    (hh : pyStrip (get_all_text hom) = h)
    (hprx : find_first_by_class root "prx" = none)
    (hhg : find_first_by_class root "hg" = none) :
    format_header root = "# " ++ w ++ dictGet SUPERSCRIPT h h ∧
    (2 ≤ h.data.length → format_header root = "# " ++ w ++ h) ∧
    supEncode "12" = "¹²" := by
  have hmain : format_header root = "# " ++ w ++ dictGet SUPERSCRIPT h h := by
    simp [format_header, hword, hfind, hhom, hh, hprx, hhg, hwne,
      strJoinSep_single]
  refine ⟨hmain, fun hlen => ?_, by decide⟩
  rw [hmain, dictGet_sup_of_long h hlen]

/-- Witness for C10: title "run" with homograph text "12" renders as
"# run12" (unchanged suffix), while the link formatter's per-character
encoding of "12" is "¹²". -/
theorem claim10_header_homograph_witness :
    format_header
      (.mk "d:entry"
        [("\x7bhttp://www.apple.com/DTDs/DictionaryService-1.0.rng\x7dtitle",
          "run")] ""
        [.mk "span" [("class", "hw")] "run "
          [.mk "span" [("class", "ty_hom")] "12" [] ""] ""] "") = "# run12" ∧
    supEncode "12" = "¹²" := by
  have h := claim10_header_homograph
    (.mk "d:entry"
      [("\x7bhttp://www.apple.com/DTDs/DictionaryService-1.0.rng\x7dtitle",
        "run")] ""
      [.mk "span" [("class", "hw")] "run "
        [.mk "span" [("class", "ty_hom")] "12" [] ""] ""] "")
    (.mk "span" [("class", "hw")] "run "
      [.mk "span" [("class", "ty_hom")] "12" [] ""] "")
    (.mk "span" [("class", "ty_hom")] "12" [] "")
    "run" "12" rfl (by decide) rfl rfl rfl rfl rfl
  refine ⟨?_, h.2.2⟩
  rw [h.2.1 (by decide)]; decide

/-! Claim C3: totality and the plain-concatenation fallback. -/

/-- The class tokens consumed by the dispatch chain of the inline
renderer, in priority order. -/
def dispatchClasses : List String :=
  ["ex", "bold", "f", "ge", "sy", "tx", "sup", "ty_hom", "subEnt",
   "reg", "ff", "v", "lbl", "gg", "frac", "nu", "dn"]

/-- A child matching no dispatch class, no skip tag and not the link
tag falls into the default branch: recursive rendering, then `x_blk`
and tail handling. -/
theorem renderChildWith_default (x : String) (acc : List String) (c : Elem)
    (htag : c.tag ∉ skipTags) (ha : c.tag ≠ "a")
    (hs : ∀ s ∈ get_class c, s ∉ dispatchClasses) :
    renderChildWith x acc c = afterChild c (acc ++ [x]) := by
  have hni : ∀ s, s ∈ dispatchClasses → s ∉ get_class c :=
    fun s hsd hmem => hs s hmem hsd
  have h1 : "ex" ∉ get_class c := hni _ (by decide)
  have h2 : "bold" ∉ get_class c := hni _ (by decide)
  have h3 : "f" ∉ get_class c := hni _ (by decide)
  have h4 : "ge" ∉ get_class c := hni _ (by decide)
  have h5 : "sy" ∉ get_class c := hni _ (by decide)
  have h6 : "tx" ∉ get_class c := hni _ (by decide)
  have h7 : "sup" ∉ get_class c := hni _ (by decide)
  have h8 : "ty_hom" ∉ get_class c := hni _ (by decide)
  have h9 : "subEnt" ∉ get_class c := hni _ (by decide)
  have h10 : "reg" ∉ get_class c := hni _ (by decide)
  have h11 : "ff" ∉ get_class c := hni _ (by decide)
  have h12 : "v" ∉ get_class c := hni _ (by decide)
  have h13 : "lbl" ∉ get_class c := hni _ (by decide)
  have h14 : "gg" ∉ get_class c := hni _ (by decide)
  have h15 : "frac" ∉ get_class c := hni _ (by decide)
  have h16 : "nu" ∉ get_class c := hni _ (by decide)
  have h17 : "dn" ∉ get_class c := hni _ (by decide)
  simp [renderChildWith, htag, ha, h1, h2, h3, h4, h5, h6, h7, h8, h9,
    h10, h11, h12, h13, h14, h15, h16, h17]

/-- Claim C3: the inline renderer is a total function (by construction
of the embedding it always returns a string, possibly empty), and on a
node all of whose children match no recognized dispatch rule — no skip
tag, no link tag, no dispatch class, no `x_blk` marker — it returns the
plain concatenation of the node's text with each child's rendering and
tail. -/
theorem claim3_fallback_concatenation (e : Elem)
    (hch : ∀ c ∈ e.children, c.tag ∉ skipTags ∧ c.tag ≠ "a" ∧
      ∀ s ∈ get_class c, s ∉ dispatchClasses ∧ s ≠ "x_blk") :
    format_inline_content e =
      e.text ++
        String.join (e.children.map (fun c => format_inline_content c ++ c.tail)) := by
  obtain ⟨tg, ats, t, cs, tl⟩ := e
  have loop : ∀ (l : List Elem) (acc : List String),
      (∀ c ∈ l, c.tag ∉ skipTags ∧ c.tag ≠ "a" ∧
        ∀ s ∈ get_class c, s ∉ dispatchClasses ∧ s ≠ "x_blk") →
      String.join (renderChildren acc l) =
        String.join acc ++
          String.join (l.map (fun c => format_inline_content c ++ c.tail)) := by
    intro l
    induction l with
    | nil => intro acc _; simp [renderChildren, String.join, strAppend_empty]
    | cons c l ih =>
      intro acc hl
      obtain ⟨htag, ha, hs⟩ := hl c (List.mem_cons_self c l)
      have hstep : renderChildWith (format_inline_content c) acc c =
          afterChild c (acc ++ [format_inline_content c]) :=
        renderChildWith_default _ acc c htag ha (fun s hm => (hs s hm).1)
      have hxblk : "x_blk" ∉ get_class c := fun hm => (hs "x_blk" hm).2 rfl
      rw [renderChildren, hstep]
      rw [ih _ (fun c2 hm => hl c2 (List.mem_cons_of_mem _ hm))]
      simp only [afterChild, if_neg (by simpa using hxblk)]
      by_cases htl : c.tail ≠ ""
      · rw [if_pos htl]
        simp only [List.map_cons, strJoin_cons, strJoin_append]
        simp [String.join, strAppend_empty, strAppend_assoc]
      · rw [if_neg htl]
        push_neg at htl
        simp only [List.map_cons, strJoin_cons, strJoin_append, htl]
        simp [String.join, strAppend_empty, strAppend_assoc]
  rw [show format_inline_content (Elem.mk tg ats t cs tl) =
      String.join (renderChildren (if t ≠ "" then [t] else []) cs) from rfl]
  rw [loop cs _ (by simpa using hch)]
  by_cases ht : t ≠ ""
  · rw [if_pos ht]
    simp [String.join, strAppend_empty, Elem.text, Elem.children]
  · rw [if_neg ht]
    push_neg at ht
    subst ht
    simp [String.join, strEmpty_append, Elem.text, Elem.children]

/-- Witness for C3: a node with only unrecognized children renders as
text, children and tails concatenated in order. -/
theorem claim3_fallback_concatenation_witness :
    format_inline_content
      (.mk "span" [] "A"
        [.mk "span" [("class", "zz")] "B" [] "C",
         .mk "span" [] "D" [] "E"] "") = "ABCDE" := by
  have h := claim3_fallback_concatenation
    (.mk "span" [] "A"
      [.mk "span" [("class", "zz")] "B" [] "C",
       .mk "span" [] "D" [] "E"] "")
    (by decide)
  rw [h]; decide

/-! Claim C4: first-matching-rule dispatch in fixed priority order. -/

/-- None of the given class tokens occurs on the element. -/
def noneOf (l : List String) (c : Elem) : Prop :=
  ∀ s ∈ l, s ∉ get_class c

/-- Claim C4: one child-rendering step fires exactly the first matching
rule of the fixed priority order
ex, bold, f, ge, sy, tx, sup, ty_hom, subEnt, reg, ff, v, lbl, gg,
frac, nu/dn, link tag, default — each conjunct states that when every
higher-priority class is absent and the given one is present, the step
rewrites to that rule's result, whatever other (lower-priority) tokens
the node carries; the renderer is a function, hence deterministic
across runs. -/
theorem claim4_priority_order :
    (∀ r c, c.tag ∉ skipTags → "ex" ∈ get_class c →
      renderChild r c = afterChild c (r ++
        styledPieces "*" (normalize_whitespace (format_inline_content c)))) ∧
    (∀ r c, c.tag ∉ skipTags → noneOf (dispatchClasses.take 1) c →
      "bold" ∈ get_class c →
      renderChild r c = afterChild c (r ++
        styledPieces "**" (normalize_whitespace (format_inline_content c)))) ∧
    (∀ r c, c.tag ∉ skipTags → noneOf (dispatchClasses.take 2) c →
      "f" ∈ get_class c →
      renderChild r c = afterChild c (r ++
        styledPieces "**" (normalize_whitespace (format_inline_content c)))) ∧
    (∀ r c, c.tag ∉ skipTags → noneOf (dispatchClasses.take 3) c →
      "ge" ∈ get_class c →
      renderChild r c = afterChild c (r ++
        styledPieces "*" (normalize_whitespace (format_inline_content c)))) ∧
    (∀ r c, c.tag ∉ skipTags → noneOf (dispatchClasses.take 4) c →
      "sy" ∈ get_class c →
      renderChild r c = afterChild c (r ++
        styledPieces "*" (normalize_whitespace (format_inline_content c)))) ∧
    (∀ r c, c.tag ∉ skipTags → noneOf (dispatchClasses.take 5) c →
      "tx" ∈ get_class c →
      renderChild r c = afterChild c (r ++
        styledPieces "**" (normalize_whitespace (format_inline_content c)))) ∧
    (∀ r c, c.tag ∉ skipTags → noneOf (dispatchClasses.take 6) c →
      "sup" ∈ get_class c →
      renderChild r c = supStylePieces supEncode r c) ∧
    (∀ r c, c.tag ∉ skipTags → noneOf (dispatchClasses.take 7) c →
      "ty_hom" ∈ get_class c →
      renderChild r c = supStylePieces supEncode r c) ∧
    (∀ r c, c.tag ∉ skipTags → noneOf (dispatchClasses.take 8) c →
      "subEnt" ∈ get_class c →
      renderChild r c = supStylePieces subEncode r c) ∧
    (∀ r c, c.tag ∉ skipTags → noneOf (dispatchClasses.take 9) c →
      "reg" ∈ get_class c →
      renderChild r c = afterChild c (r ++
        styledPieces "*" (normalize_whitespace (format_inline_content c)))) ∧
    (∀ r c, c.tag ∉ skipTags → noneOf (dispatchClasses.take 10) c →
      "ff" ∈ get_class c →
      renderChild r c = afterChild c (r ++
        styledPieces "**" (normalize_whitespace (format_inline_content c)))) ∧
    (∀ r c, c.tag ∉ skipTags → noneOf (dispatchClasses.take 11) c →
      "v" ∈ get_class c →
      renderChild r c = afterChild c (r ++
        styledPieces "**" (normalize_whitespace (format_inline_content c)))) ∧
    (∀ r c, c.tag ∉ skipTags → noneOf (dispatchClasses.take 12) c →
      "lbl" ∈ get_class c →
      renderChild r c = afterChild c (r ++
        [normalize_whitespace (format_inline_content c)])) ∧
    (∀ r c, c.tag ∉ skipTags → noneOf (dispatchClasses.take 13) c →
      "gg" ∈ get_class c →
      renderChild r c = afterChild c (r ++
        (if normalize_whitespace (get_all_text c) = "" then []
         else [normalize_whitespace (get_all_text c)]))) ∧
    (∀ r c, c.tag ∉ skipTags → noneOf (dispatchClasses.take 14) c →
      "frac" ∈ get_class c →
      renderChild r c = afterChild c (r ++ [format_fraction c])) ∧
    (∀ r c, c.tag ∉ skipTags → noneOf (dispatchClasses.take 15) c →
      ("nu" ∈ get_class c ∨ "dn" ∈ get_class c) →
      renderChild r c = afterChild c r) ∧
    (∀ r c, c.tag ∉ skipTags → noneOf dispatchClasses c → c.tag = "a" →
      renderChild r c = afterChild c (r ++ renderLink c)) ∧
    (∀ r c, c.tag ∉ skipTags → noneOf dispatchClasses c → c.tag ≠ "a" →
      renderChild r c = afterChild c (r ++ [format_inline_content c])) := by
  refine ⟨?_, ?_, ?_, ?_, ?_, ?_, ?_, ?_, ?_,
    ⟨?_, ?_, ?_, ?_, ?_, ?_, ?_, ?_, ?_⟩⟩
  · intro r c htag hp
    simp [renderChild, renderChildWith, htag, hp]
  · intro r c htag hn hp
    have h1 : "ex" ∉ get_class c := hn "ex" (by decide)
    simp [renderChild, renderChildWith, htag, h1, hp]
  · intro r c htag hn hp
    have h1 : "ex" ∉ get_class c := hn "ex" (by decide)
    have h2 : "bold" ∉ get_class c := hn "bold" (by decide)
    simp [renderChild, renderChildWith, htag, h1, h2, hp]
  · intro r c htag hn hp
    have h1 : "ex" ∉ get_class c := hn "ex" (by decide)
    have h2 : "bold" ∉ get_class c := hn "bold" (by decide)
    have h3 : "f" ∉ get_class c := hn "f" (by decide)
    simp [renderChild, renderChildWith, htag, h1, h2, h3, hp]
  · intro r c htag hn hp
    have h1 : "ex" ∉ get_class c := hn "ex" (by decide)
    have h2 : "bold" ∉ get_class c := hn "bold" (by decide)
    have h3 : "f" ∉ get_class c := hn "f" (by decide)
    have h4 : "ge" ∉ get_class c := hn "ge" (by decide)
    simp [renderChild, renderChildWith, htag, h1, h2, h3, h4, hp]
  · intro r c htag hn hp
    have h1 : "ex" ∉ get_class c := hn "ex" (by decide)
    have h2 : "bold" ∉ get_class c := hn "bold" (by decide)
    have h3 : "f" ∉ get_class c := hn "f" (by decide)
    have h4 : "ge" ∉ get_class c := hn "ge" (by decide)
    have h5 : "sy" ∉ get_class c := hn "sy" (by decide)
    simp [renderChild, renderChildWith, htag, h1, h2, h3, h4, h5, hp]
  · intro r c htag hn hp
    have h1 : "ex" ∉ get_class c := hn "ex" (by decide)
    have h2 : "bold" ∉ get_class c := hn "bold" (by decide)
    have h3 : "f" ∉ get_class c := hn "f" (by decide)
    have h4 : "ge" ∉ get_class c := hn "ge" (by decide)
    have h5 : "sy" ∉ get_class c := hn "sy" (by decide)
    have h6 : "tx" ∉ get_class c := hn "tx" (by decide)
    simp [renderChild, renderChildWith, htag, h1, h2, h3, h4, h5, h6, hp]
  · intro r c htag hn hp
    have h1 : "ex" ∉ get_class c := hn "ex" (by decide)
    have h2 : "bold" ∉ get_class c := hn "bold" (by decide)
    have h3 : "f" ∉ get_class c := hn "f" (by decide)
    have h4 : "ge" ∉ get_class c := hn "ge" (by decide)
    have h5 : "sy" ∉ get_class c := hn "sy" (by decide)
    have h6 : "tx" ∉ get_class c := hn "tx" (by decide)
    have h7 : "sup" ∉ get_class c := hn "sup" (by decide)
    simp [renderChild, renderChildWith, htag, h1, h2, h3, h4, h5, h6, h7, hp]
  · intro r c htag hn hp
    have h1 : "ex" ∉ get_class c := hn "ex" (by decide)
    have h2 : "bold" ∉ get_class c := hn "bold" (by decide)
    have h3 : "f" ∉ get_class c := hn "f" (by decide)
    have h4 : "ge" ∉ get_class c := hn "ge" (by decide)
    have h5 : "sy" ∉ get_class c := hn "sy" (by decide)
    have h6 : "tx" ∉ get_class c := hn "tx" (by decide)
    have h7 : "sup" ∉ get_class c := hn "sup" (by decide)
    have h8 : "ty_hom" ∉ get_class c := hn "ty_hom" (by decide)
    simp [renderChild, renderChildWith, htag, h1, h2, h3, h4, h5, h6, h7,
      h8, hp]
  · intro r c htag hn hp
    have h1 : "ex" ∉ get_class c := hn "ex" (by decide)
    have h2 : "bold" ∉ get_class c := hn "bold" (by decide)
    have h3 : "f" ∉ get_class c := hn "f" (by decide)
    have h4 : "ge" ∉ get_class c := hn "ge" (by decide)
    have h5 : "sy" ∉ get_class c := hn "sy" (by decide)
    have h6 : "tx" ∉ get_class c := hn "tx" (by decide)
    have h7 : "sup" ∉ get_class c := hn "sup" (by decide)
    have h8 : "ty_hom" ∉ get_class c := hn "ty_hom" (by decide)
    have h9 : "subEnt" ∉ get_class c := hn "subEnt" (by decide)
    simp [renderChild, renderChildWith, htag, h1, h2, h3, h4, h5, h6, h7,
      h8, h9, hp]
  · intro r c htag hn hp
    have h1 : "ex" ∉ get_class c := hn "ex" (by decide)
    have h2 : "bold" ∉ get_class c := hn "bold" (by decide)
    have h3 : "f" ∉ get_class c := hn "f" (by decide)
    have h4 : "ge" ∉ get_class c := hn "ge" (by decide)
    have h5 : "sy" ∉ get_class c := hn "sy" (by decide)
    have h6 : "tx" ∉ get_class c := hn "tx" (by decide)
    have h7 : "sup" ∉ get_class c := hn "sup" (by decide)
    have h8 : "ty_hom" ∉ get_class c := hn "ty_hom" (by decide)
    have h9 : "subEnt" ∉ get_class c := hn "subEnt" (by decide)
    have h10 : "reg" ∉ get_class c := hn "reg" (by decide)
    simp [renderChild, renderChildWith, htag, h1, h2, h3, h4, h5, h6, h7,
      h8, h9, h10, hp]
  · intro r c htag hn hp
    have h1 : "ex" ∉ get_class c := hn "ex" (by decide)
    have h2 : "bold" ∉ get_class c := hn "bold" (by decide)
    have h3 : "f" ∉ get_class c := hn "f" (by decide)
    have h4 : "ge" ∉ get_class c := hn "ge" (by decide)
    have h5 : "sy" ∉ get_class c := hn "sy" (by decide)
    have h6 : "tx" ∉ get_class c := hn "tx" (by decide)
    have h7 : "sup" ∉ get_class c := hn "sup" (by decide)
    have h8 : "ty_hom" ∉ get_class c := hn "ty_hom" (by decide)
    have h9 : "subEnt" ∉ get_class c := hn "subEnt" (by decide)
    have h10 : "reg" ∉ get_class c := hn "reg" (by decide)
    have h11 : "ff" ∉ get_class c := hn "ff" (by decide)
    simp [renderChild, renderChildWith, htag, h1, h2, h3, h4, h5, h6, h7,
      h8, h9, h10, h11, hp]
  · intro r c htag hn hp
    have h1 : "ex" ∉ get_class c := hn "ex" (by decide)
    have h2 : "bold" ∉ get_class c := hn "bold" (by decide)
    have h3 : "f" ∉ get_class c := hn "f" (by decide)
    have h4 : "ge" ∉ get_class c := hn "ge" (by decide)
    have h5 : "sy" ∉ get_class c := hn "sy" (by decide)
    have h6 : "tx" ∉ get_class c := hn "tx" (by decide)
    have h7 : "sup" ∉ get_class c := hn "sup" (by decide)
    have h8 : "ty_hom" ∉ get_class c := hn "ty_hom" (by decide)
    have h9 : "subEnt" ∉ get_class c := hn "subEnt" (by decide)
    have h10 : "reg" ∉ get_class c := hn "reg" (by decide)
    have h11 : "ff" ∉ get_class c := hn "ff" (by decide)
    have h12 : "v" ∉ get_class c := hn "v" (by decide)
    simp [renderChild, renderChildWith, htag, h1, h2, h3, h4, h5, h6, h7,
      h8, h9, h10, h11, h12, hp]
  · intro r c htag hn hp
    have h1 : "ex" ∉ get_class c := hn "ex" (by decide)
    have h2 : "bold" ∉ get_class c := hn "bold" (by decide)
    have h3 : "f" ∉ get_class c := hn "f" (by decide)
    have h4 : "ge" ∉ get_class c := hn "ge" (by decide)
    have h5 : "sy" ∉ get_class c := hn "sy" (by decide)
    have h6 : "tx" ∉ get_class c := hn "tx" (by decide)
    have h7 : "sup" ∉ get_class c := hn "sup" (by decide)
    have h8 : "ty_hom" ∉ get_class c := hn "ty_hom" (by decide)
    have h9 : "subEnt" ∉ get_class c := hn "subEnt" (by decide)
    have h10 : "reg" ∉ get_class c := hn "reg" (by decide)
    have h11 : "ff" ∉ get_class c := hn "ff" (by decide)
    have h12 : "v" ∉ get_class c := hn "v" (by decide)
    have h13 : "lbl" ∉ get_class c := hn "lbl" (by decide)
    simp [renderChild, renderChildWith, htag, h1, h2, h3, h4, h5, h6, h7,
      h8, h9, h10, h11, h12, h13, hp]
  · intro r c htag hn hp
    have h1 : "ex" ∉ get_class c := hn "ex" (by decide)
    have h2 : "bold" ∉ get_class c := hn "bold" (by decide)
    have h3 : "f" ∉ get_class c := hn "f" (by decide)
    have h4 : "ge" ∉ get_class c := hn "ge" (by decide)
    have h5 : "sy" ∉ get_class c := hn "sy" (by decide)
    have h6 : "tx" ∉ get_class c := hn "tx" (by decide)
    have h7 : "sup" ∉ get_class c := hn "sup" (by decide)
    have h8 : "ty_hom" ∉ get_class c := hn "ty_hom" (by decide)
    have h9 : "subEnt" ∉ get_class c := hn "subEnt" (by decide)
    have h10 : "reg" ∉ get_class c := hn "reg" (by decide)
    have h11 : "ff" ∉ get_class c := hn "ff" (by decide)
    have h12 : "v" ∉ get_class c := hn "v" (by decide)
    have h13 : "lbl" ∉ get_class c := hn "lbl" (by decide)
    have h14 : "gg" ∉ get_class c := hn "gg" (by decide)
    simp [renderChild, renderChildWith, htag, h1, h2, h3, h4, h5, h6, h7,
      h8, h9, h10, h11, h12, h13, h14, hp]
  · intro r c htag hn hp
    have h1 : "ex" ∉ get_class c := hn "ex" (by decide)
    have h2 : "bold" ∉ get_class c := hn "bold" (by decide)
    have h3 : "f" ∉ get_class c := hn "f" (by decide)
    have h4 : "ge" ∉ get_class c := hn "ge" (by decide)
    have h5 : "sy" ∉ get_class c := hn "sy" (by decide)
    have h6 : "tx" ∉ get_class c := hn "tx" (by decide)
    have h7 : "sup" ∉ get_class c := hn "sup" (by decide)
    have h8 : "ty_hom" ∉ get_class c := hn "ty_hom" (by decide)
    have h9 : "subEnt" ∉ get_class c := hn "subEnt" (by decide)
    have h10 : "reg" ∉ get_class c := hn "reg" (by decide)
    have h11 : "ff" ∉ get_class c := hn "ff" (by decide)
    have h12 : "v" ∉ get_class c := hn "v" (by decide)
    have h13 : "lbl" ∉ get_class c := hn "lbl" (by decide)
    have h14 : "gg" ∉ get_class c := hn "gg" (by decide)
    have h15 : "frac" ∉ get_class c := hn "frac" (by decide)
    rcases hp with hp | hp <;>
      simp [renderChild, renderChildWith, htag, h1, h2, h3, h4, h5, h6, h7,
        h8, h9, h10, h11, h12, h13, h14, h15, hp]
  · intro r c htag hn hp
    have h1 : "ex" ∉ get_class c := hn "ex" (by decide)
    have h2 : "bold" ∉ get_class c := hn "bold" (by decide)
    have h3 : "f" ∉ get_class c := hn "f" (by decide)
    have h4 : "ge" ∉ get_class c := hn "ge" (by decide)
    have h5 : "sy" ∉ get_class c := hn "sy" (by decide)
    have h6 : "tx" ∉ get_class c := hn "tx" (by decide)
    have h7 : "sup" ∉ get_class c := hn "sup" (by decide)
    have h8 : "ty_hom" ∉ get_class c := hn "ty_hom" (by decide)
    have h9 : "subEnt" ∉ get_class c := hn "subEnt" (by decide)
    have h10 : "reg" ∉ get_class c := hn "reg" (by decide)
    have h11 : "ff" ∉ get_class c := hn "ff" (by decide)
    have h12 : "v" ∉ get_class c := hn "v" (by decide)
    have h13 : "lbl" ∉ get_class c := hn "lbl" (by decide)
    have h14 : "gg" ∉ get_class c := hn "gg" (by decide)
    have h15 : "frac" ∉ get_class c := hn "frac" (by decide)
    have h16 : "nu" ∉ get_class c := hn "nu" (by decide)
    have h17 : "dn" ∉ get_class c := hn "dn" (by decide)
    simp [renderChild, renderChildWith, htag, h1, h2, h3, h4, h5, h6, h7,
      h8, h9, h10, h11, h12, h13, h14, h15, h16, h17, hp]
    intro hmem
    exact absurd hmem (by decide)
  · intro r c htag hn hp
    exact renderChildWith_default _ r c htag hp (fun s hgc hd => hn s hd hgc)

/-- Witness for C4: a node carrying both the italic-triggering `ex` and
the bold-triggering `bold` token renders by the `ex` rule — italic. -/
theorem claim4_priority_order_witness :
    renderChild [] (.mk "span" [("class", "ex bold")] "T" [] "") =
      afterChild (.mk "span" [("class", "ex bold")] "T" [] "")
        ([] ++ styledPieces "*"
          (normalize_whitespace
            (format_inline_content
              (.mk "span" [("class", "ex bold")] "T" [] "")))) ∧
    renderChild [] (.mk "span" [("class", "ex bold")] "T" [] "") = ["*T*"]
    := by
  have h := claim4_priority_order.1 []
    (.mk "span" [("class", "ex bold")] "T" [] "") (by decide) (by decide)
  exact ⟨h, by rw [h]; decide⟩

/-! Claim C5: superscript attachment and whitespace trimming. -/

/-- Dropping a fully-satisfying prefix under `dropWhile`. -/
theorem dropWhile_append_of_all {α : Type} (p : α → Bool) (l1 l2 : List α)
    (h : ∀ c ∈ l1, p c) :
    (l1 ++ l2).dropWhile p = l2.dropWhile p := by
  induction l1 with
  | nil => rfl
  | cons a l ih =>
    rw [List.cons_append, List.dropWhile_cons,
      if_pos (h a (List.mem_cons_self a l))]
    exact ih (fun c hc => h c (List.mem_cons_of_mem _ hc))

/-- Right-stripping removes a fully-whitespace suffix. -/
theorem rstripL_append_ws (l w : List Char) (hw : ∀ c ∈ w, pySpace c) :
    rstripL (l ++ w) = rstripL l := by
  unfold rstripL
  rw [List.reverse_append,
    dropWhile_append_of_all pySpace w.reverse l.reverse
      (fun c hc => hw c (List.mem_reverse.1 hc))]

/-- Claim C5, counterexample: the guarded trim fires only when the
preceding emitted text ends in a space, newline or tab.  A carriage
return — whitespace for the XML source and for Python — does not
trigger it, so text "x" followed by a superscript-marked "2" across a
carriage return renders as "x\r²", not "x²". -/
theorem claim5_counterexample :
    format_inline_content
      (.mk "span" [] "x\r"
        [.mk "span" [("class", "sup")] "2" [] ""] "") = "x\r²" ∧
    ("x\r²" : String) ≠ "x²" ∧ pySpace '\r' = true := by
  refine ⟨by decide, by decide, by decide⟩

/-- Claim C5 as amended: when inline rendering reaches a
superscript-marked child and the immediately preceding emitted text
ends with a space, tab or newline, the entire trailing whitespace run
is trimmed, the child's digits are rendered through the superscript
table, and the child's tail is appended with leading whitespace
stripped; in particular "x" followed by a superscript "2" across any
non-empty run of spaces/tabs/newlines yields "x²" directly followed by
the left-stripped tail. -/
theorem claim5_sup_attachment (w t : String) (hw : w ≠ "")
    (hall : ∀ c ∈ w.data, c = ' ' ∨ c = '\t' ∨ c = '\n') :
    format_inline_content
      (.mk "span" [] ("x" ++ w)
        [.mk "span" [("class", "sup")] "2" [] t] "") =
      "x²" ++ pyLstrip t := by
  have hwd : w.data ≠ [] := fun h => hw (strEq_of_data (by simp [h]))
  have hne : ("x" ++ w) ≠ "" := by
    intro h
    have h2 := congrArg String.data h
    rw [strData_append] at h2
    simp at h2
  have hends : endsWithSTN ("x" ++ w) = true := by
    unfold endsWithSTN
    rw [strData_append, List.getLast?_append_of_ne_nil _ hwd,
      List.getLast?_eq_getLast _ hwd]
    rcases hall _ (List.getLast_mem hwd) with hc | hc | hc <;>
      simp [hc]
  have hrstrip : pyRstrip ("x" ++ w) = "x" := by
    apply strEq_of_data
    show rstripL ("x" ++ w).data = _
    rw [strData_append]
    rw [show ("x" : String).data = ['x'] from rfl,
      rstripL_append_ws ['x'] w.data
        (fun c hc => by rcases hall c hc with rfl | rfl | rfl <;> decide)]
    rfl
  have hcls : get_class (.mk "span" [("class", "sup")] "2" [] t) = ["sup"] :=
    rfl
  have hsum : normalize_whitespace
      (get_all_text (.mk "span" [("class", "sup")] "2" [] t)) = "2" := rfl
  simp only [format_inline_content, renderChildren, if_pos hne]
  simp +decide only [renderChildWith, hcls, supStylePieces, List.mem_cons,
    List.mem_singleton, skipTags, Elem.tag]
  rw [hsum]
  simp only [trimLastWs, List.getLast?_singleton, hends, if_pos rfl,
    List.dropLast_single, hrstrip]
  by_cases ht : t = ""
  · subst ht
    simp only [Elem.tail, ne_eq, not_true_eq_false, if_neg, ite_false]
    apply strEq_of_data
    simp [String.join, strData_append]
    decide
  · simp only [Elem.tail, ne_eq, ht, not_false_eq_true, if_pos, ite_true]
    apply strEq_of_data
    simp [String.join, strData_append, show supEncode "2" = "²" from rfl]

/-- Witness for C5: a two-space run before the superscript and a
leading-space tail both collapse. -/
theorem claim5_sup_attachment_witness :
    format_inline_content
      (.mk "span" [] ("x" ++ "  ")
        [.mk "span" [("class", "sup")] "2" [] " y"] "") = "x²y" := by
  have h := claim5_sup_attachment "  " " y" (by decide) (by decide)
  rw [h]; decide

/-! Claim C6: the cross-reference link formatter. -/

/-- Claim C6, counterexample: a hyperlink node with non-empty target
title "bow" and non-empty display text "bar" that also carries the
styling class `ex` is rendered by the higher-priority italic rule, not
as the Markdown link the claim promises for every such hyperlink
node. -/
theorem claim6_counterexample :
    format_inline_content
      (.mk "span" [] ""
        [.mk "a" [("class", "ex"), ("title", "bow")] "bar" [] ""] "") =
      "*bar*" ∧
    ("*bar*" : String) ≠ "[bar](bow.md)" ∧
    Elem.getAttr (.mk "a" [("class", "ex"), ("title", "bow")] "bar" [] "")
      "title" "" = "bow" ∧
    linkWordText (.mk "a" [("class", "ex"), ("title", "bow")] "bar" [] "") =
      "bar" := by
  refine ⟨by decide, by decide, by decide, by decide⟩

/-- A child with the link tag and no dispatch class falls into the
link branch. -/
theorem renderChildWith_link (x : String) (r : List String) (c : Elem)
    (htag : c.tag = "a")
    (hcls : ∀ s ∈ get_class c, s ∉ dispatchClasses) :
    renderChildWith x r c = afterChild c (r ++ renderLink c) := by
  have hskip : c.tag ∉ skipTags := by rw [htag]; decide
  have hni : ∀ s, s ∈ dispatchClasses → s ∉ get_class c :=
    fun s hsd hmem => hcls s hmem hsd
  have h1 : "ex" ∉ get_class c := hni _ (by decide)
  have h2 : "bold" ∉ get_class c := hni _ (by decide)
  have h3 : "f" ∉ get_class c := hni _ (by decide)
  have h4 : "ge" ∉ get_class c := hni _ (by decide)
  have h5 : "sy" ∉ get_class c := hni _ (by decide)
  have h6 : "tx" ∉ get_class c := hni _ (by decide)
  have h7 : "sup" ∉ get_class c := hni _ (by decide)
  have h8 : "ty_hom" ∉ get_class c := hni _ (by decide)
  have h9 : "subEnt" ∉ get_class c := hni _ (by decide)
  have h10 : "reg" ∉ get_class c := hni _ (by decide)
  have h11 : "ff" ∉ get_class c := hni _ (by decide)
  have h12 : "v" ∉ get_class c := hni _ (by decide)
  have h13 : "lbl" ∉ get_class c := hni _ (by decide)
  have h14 : "gg" ∉ get_class c := hni _ (by decide)
  have h15 : "frac" ∉ get_class c := hni _ (by decide)
  have h16 : "nu" ∉ get_class c := hni _ (by decide)
  have h17 : "dn" ∉ get_class c := hni _ (by decide)
  simp [renderChildWith, hskip, htag, h1, h2, h3, h4, h5, h6, h7, h8, h9,
    h10, h11, h12, h13, h14, h15, h16, h17]
  intro hmem
  exact absurd hmem (by decide)

/-- The per-character superscript encoding of a non-empty string is
non-empty. -/
theorem supEncode_ne_empty (n : String) (h : n ≠ "") : supEncode n ≠ "" := by
  have hd : n.data ≠ [] := fun hq => h (strEq_of_data (by simp [hq]))
  cases hn : n.data with
  | nil => exact absurd hn hd
  | cons c cs =>
    have hget : (dictGet SUPERSCRIPT ⟨[c]⟩ ⟨[c]⟩).data ≠ [] := by
      unfold dictGet
      cases hl : SUPERSCRIPT.lookup ⟨[c]⟩ with
      | none => simp
      | some v =>
        have hv : v.data ≠ [] := by
          have hm := lookup_mem hl
          simp only [SUPERSCRIPT, List.mem_cons, List.not_mem_nil, or_false,
            Prod.mk.injEq] at hm
          rcases hm with
              ⟨-, rfl⟩ | ⟨_, rfl⟩ | ⟨-, rfl⟩ | ⟨_, rfl⟩ | ⟨-, rfl⟩ | ⟨_, rfl⟩ | ⟨-, rfl⟩ | ⟨_, rfl⟩ | ⟨-, rfl⟩ | ⟨_, rfl⟩ <;> decide
        simpa using hv
    intro hq
    have hqd := congrArg String.data hq
    rw [show (supEncode n).data =
        (dictGet SUPERSCRIPT ⟨[c]⟩ ⟨[c]⟩ ++
          String.join (cs.map (fun c2 => dictGet SUPERSCRIPT ⟨[c2]⟩ ⟨[c2]⟩))).data
      from by rw [supEncode, hn, List.map_cons, strJoin_cons]] at hqd
    rw [strData_append] at hqd
    exact hget (List.append_eq_nil.1 hqd).1

/-- Claim C6 as amended: for every hyperlink node carrying none of the
higher-priority dispatch classes, with non-empty target title and
non-empty display text (the node's stripped direct text plus all
non-homograph descendant text, whitespace-normalized): with a homograph
number N present the renderer emits the Markdown link whose display has
N's superscript encoding appended and whose target is `title_N.md`;
with no homograph it emits `[display](title.md)`; with no target title
it emits the display text with no link syntax. -/
theorem claim6_link (r : List String) (c : Elem)
    (htag : c.tag = "a")
    (hcls : ∀ s ∈ get_class c, s ∉ dispatchClasses) :
    (c.getAttr "title" "" ≠ "" → linkWordText c ≠ "" → linkHomNum c = "" →
      renderChild r c = afterChild c (r ++
        ["[" ++ linkWordText c ++ "](" ++
         (c.getAttr "title" "" ++ ".md") ++ ")"])) ∧
    (c.getAttr "title" "" ≠ "" → linkHomNum c ≠ "" →
      renderChild r c = afterChild c (r ++
        ["[" ++ (linkWordText c ++ supEncode (linkHomNum c)) ++ "](" ++
         (c.getAttr "title" "" ++ "_" ++ linkHomNum c ++ ".md") ++ ")"])) ∧
    (c.getAttr "title" "" = "" → linkWordText c ≠ "" → linkHomNum c = "" →
      renderChild r c = afterChild c (r ++ [linkWordText c])) := by
  have hbase : renderChild r c = afterChild c (r ++ renderLink c) :=
    renderChildWith_link _ r c htag hcls
  refine ⟨?_, ?_, ?_⟩
  · intro hT hW hN
    rw [hbase]
    simp [renderLink, hT, hW, hN]
  · intro hT hN
    have hlt : linkWordText c ++ supEncode (linkHomNum c) ≠ "" := by
      intro hq
      have hqd := congrArg String.data hq
      rw [strData_append] at hqd
      have := (List.append_eq_nil.1 (by simpa using hqd)).2
      exact supEncode_ne_empty _ hN (strEq_of_data (by simpa using this))
    rw [hbase]
    simp [renderLink, hT, hN, hlt]
  · intro hT hW hN
    rw [hbase]
    simp [renderLink, hT, hW, hN]

/-- Witness for C6: a plain cross-reference and a homograph-marked
cross-reference both render as links over the amended statement. -/
theorem claim6_link_witness :
    renderChild [] (.mk "a" [("title", "bow")] "bow" [] "") =
      ["[bow](bow.md)"] ∧
    renderChild []
      (.mk "a" [("title", "bow")] "bow "
        [.mk "span" [("class", "ty_hom")] "1" [] ""] "") =
      ["[bow¹](bow_1.md)"] := by
  constructor
  · have h := (claim6_link [] (.mk "a" [("title", "bow")] "bow" [] "")
      rfl (by decide)).1 (by decide) (by decide) rfl
    rw [h]; decide
  · have h := (claim6_link []
      (.mk "a" [("title", "bow")] "bow "
        [.mk "span" [("class", "ty_hom")] "1" [] ""] "")
      rfl (by decide)).2.1 (by decide) (by decide)
    rw [h]; decide

/-! Claim C7: note rendering. -/

/-- Words produced by the Python-style splitter contain no whitespace
characters. -/
theorem wordsAux_no_space (cs : List Char) :
    ∀ (acc : List Char), (∀ c ∈ acc, ¬pySpace c) →
      ∀ w ∈ wordsAux acc cs, ∀ c ∈ w, ¬pySpace c := by
  induction cs with
  | nil =>
    intro acc hacc w hw
    simp only [wordsAux] at hw
    by_cases h : acc.isEmpty
    · simp [h] at hw
    · simp [h] at hw
      subst hw
      intro c hc
      exact hacc c (List.mem_reverse.1 hc)
  | cons d cs ih =>
    intro acc hacc w hw
    simp only [wordsAux] at hw
    by_cases hd : pySpace d
    · rw [if_pos hd] at hw
      by_cases h : acc.isEmpty
      · rw [if_pos h] at hw
        exact ih [] (by simp) w hw
      · rw [if_neg h] at hw
        rcases List.mem_cons.1 hw with rfl | hw2
        · intro c hc
          exact hacc c (List.mem_reverse.1 hc)
        · exact ih [] (by simp) w hw2
    · rw [if_neg hd] at hw
      refine ih (d :: acc) ?_ w hw
      intro c hc
      rcases List.mem_cons.1 hc with rfl | hc2
      · exact hd
      · exact hacc c hc2

/-- Character membership in a separator join. -/
theorem mem_strJoinSep (sep : String) (l : List String) (c : Char) :
    c ∈ (strJoinSep sep l).data → c ∈ sep.data ∨ ∃ x ∈ l, c ∈ x.data := by
  induction l with
  | nil => intro h; simp [strJoinSep] at h
  | cons x xs ih =>
    cases xs with
    | nil =>
      intro h
      exact Or.inr ⟨x, by simp, h⟩
    | cons y ys =>
      intro h
      rw [show strJoinSep sep (x :: y :: ys) =
        x ++ sep ++ strJoinSep sep (y :: ys) from rfl] at h
      rw [strData_append, strData_append] at h
      rcases List.mem_append.1 h with h2 | h2
      · rcases List.mem_append.1 h2 with h3 | h3
        · exact Or.inr ⟨x, by simp, h3⟩
        · exact Or.inl h3
      · rcases ih h2 with h3 | ⟨z, hz, hc⟩
        · exact Or.inl h3
        · exact Or.inr ⟨z, List.mem_cons_of_mem _ hz, hc⟩

/-- Whitespace normalization never emits a newline. -/
theorem nw_no_nl (s : String) : '\n' ∉ (normalize_whitespace s).data := by
  intro h
  rcases mem_strJoinSep " " (pySplit s) '\n' h with h2 | ⟨x, hx, hc⟩
  · simp at h2
  · rcases List.mem_map.1 hx with ⟨w, hw, rfl⟩
    exact wordsAux_no_space s.data [] (by simp) w hw '\n' hc (by decide)

/-- Stripping keeps a sublist of the characters. -/
theorem mem_stripL {c : Char} {l : List Char} (h : c ∈ stripL l) : c ∈ l := by
  unfold stripL rstripL lstripL at h
  have h1 := List.mem_reverse.1 h
  have h2 := (List.dropWhile_sublist _).subset h1
  have h3 := List.mem_reverse.1 h2
  exact (List.dropWhile_sublist _).subset h3

/-- Label parts of the fall-through note branch contain no newline. -/
theorem notePartsA_no_nl (lblOpt : Option Elem) :
    ∀ p ∈ notePartsA lblOpt, '\n' ∉ p.data := by
  intro p hp hmem
  rcases lblOpt with _ | lbl
  · simp [notePartsA] at hp
  · simp only [notePartsA] at hp
    by_cases hl : pyStrip (normalize_whitespace (get_all_text lbl)) ≠ ""
    · rw [if_pos hl] at hp
      rcases List.mem_singleton.1 hp with rfl
      rw [strData_append, strData_append] at hmem
      rcases List.mem_append.1 hmem with h2 | h2
      · rcases List.mem_append.1 h2 with h3 | h3
        · simp at h3
        · exact nw_no_nl _ (mem_stripL h3)
      · simp at h2
    · rw [if_neg hl] at hp
      simp at hp

/-- The content part of the fall-through note branch contains no
newline. -/
theorem noteContent_no_nl (note : Elem) (lblOpt : Option Elem) :
    '\n' ∉ (noteContent note lblOpt).data := by
  intro hmem
  rcases lblOpt with _ | lbl
  · exact nw_no_nl _ hmem
  · simp only [noteContent] at hmem
    by_cases hs : strStarts (normalize_whitespace (format_inline_content note))
        (pyStrip (normalize_whitespace (get_all_text lbl)))
    · rw [if_pos hs] at hmem
      exact nw_no_nl (format_inline_content note)
        (List.mem_of_mem_drop (mem_stripL hmem))
    · rw [if_neg hs] at hmem
      exact nw_no_nl _ hmem

/-- The standard (single-line) note rendering contains no newline. -/
theorem noteStd_no_nl (note : Elem) (lblOpt : Option Elem) :
    '\n' ∉ (noteStd note lblOpt).data := by
  intro hmem
  simp only [noteStd] at hmem
  by_cases hc : noteContent note lblOpt ≠ ""
  · rw [if_pos hc] at hmem
    by_cases hne : notePartsA lblOpt ++ [noteContent note lblOpt] ≠ []
    · rw [if_pos hne] at hmem
      rw [strData_append] at hmem
      rcases List.mem_append.1 hmem with h2 | h2
      · simp at h2
      · rcases mem_strJoinSep " " _ '\n' h2 with h3 | ⟨x, hx, hcm⟩
        · simp at h3
        · rcases List.mem_append.1 hx with h4 | h4
          · exact notePartsA_no_nl lblOpt x h4 hcm
          · rcases List.mem_singleton.1 h4 with rfl
            exact noteContent_no_nl note lblOpt hcm
    · rw [if_neg hne] at hmem
      simp at hmem
  · rw [if_neg hc] at hmem
    by_cases hne : notePartsA lblOpt ≠ []
    · rw [if_pos hne] at hmem
      rw [strData_append] at hmem
      rcases List.mem_append.1 hmem with h2 | h2
      · simp at h2
      · rcases mem_strJoinSep " " _ '\n' h2 with h3 | ⟨x, hx, hcm⟩
        · simp at h3
        · exact notePartsA_no_nl lblOpt x hx hcm
    · rw [if_neg hne] at hmem
      simp at hmem

/-- Claim C7, counterexample: a note whose label carries the own-line
marker `x_blk` but renders with styling (a bold child), so that the
label's plain text is not found directly before the block newline; the
note falls through to the single-line branch, yielding one blockquote
line with the label duplicated — not the two separate lines the claim
promises for every marked label. -/
theorem claim7_counterexample :
    has_class
      (.mk "span" [("class", "lbl x_blk")] ""
        [.mk "span" [("class", "bold")] "USAGE" [] ""] "body") "x_blk" = true ∧
    format_note
      (.mk "span" [("class", "note")] ""
        [.mk "span" [("class", "lbl x_blk")] ""
          [.mk "span" [("class", "bold")] "USAGE" [] ""] "body"] "") =
      "> **USAGE** **USAGE** body" ∧
    '\n' ∉ (format_note
      (.mk "span" [("class", "note")] ""
        [.mk "span" [("class", "lbl x_blk")] ""
          [.mk "span" [("class", "bold")] "USAGE" [] ""] "body"] "")).data := by
  refine ⟨by decide, by decide, by decide⟩

/-- Claim C7 as amended: a note whose label carries the own-line marker
renders as the two blockquote lines `> **LABEL**` then `> body`
precisely when the label's stripped normalized text is non-empty, is
found in the rendered note content, is followed there directly by the
block newline, and leaves a non-empty body; a note whose label lacks
the marker renders through the standard single-line branch (one
blockquote line, newline-free), with the label's text stripped from the
start of the body when duplicated there. -/
theorem claim7_note_blockquote (note lbl : Elem)
    (hfind : find_first_by_class note "lbl" = some lbl) :
    (∀ i, has_class lbl "x_blk" = true →
      pyStrip (normalize_whitespace (get_all_text lbl)) ≠ "" →
      pyFind (format_inline_content note)
        (pyStrip (normalize_whitespace (get_all_text lbl))) = some i →
      strStarts
        (strDrop (format_inline_content note)
          (i + strLen (pyStrip (normalize_whitespace (get_all_text lbl)))))
        "\n" = true →
      pyStrip (normalize_whitespace
        (strDrop
          (strDrop (format_inline_content note)
            (i + strLen (pyStrip (normalize_whitespace (get_all_text lbl)))))
          1)) ≠ "" →
      format_note note =
        "> **" ++ pyStrip (normalize_whitespace (get_all_text lbl)) ++ "**" ++
          "\n" ++ "> " ++
          pyStrip (normalize_whitespace
            (strDrop
              (strDrop (format_inline_content note)
                (i + strLen (pyStrip (normalize_whitespace (get_all_text lbl)))))
              1))) ∧
    (has_class lbl "x_blk" = false →
      format_note note = noteStd note (some lbl) ∧
      '\n' ∉ (format_note note).data) := by
  constructor
  · intro i hx hl hfindsub hstart hrest
    simp only [format_note, hfind, hx, if_true, if_pos hl, hfindsub,
      if_pos hstart, if_pos hrest]
  · intro hx
    have heq : format_note note = noteStd note (some lbl) := by
      simp only [format_note, hfind, hx]
      simp
    refine ⟨heq, ?_⟩
    rw [heq]
    exact noteStd_no_nl note (some lbl)

/-- Witness for C7: the spec's end-to-end example — an own-line-marked
label "USAGE" with body "This is a usage note." renders as two
blockquote lines. -/
theorem claim7_note_blockquote_witness :
    format_note
      (.mk "span" [("class", "note")] ""
        [.mk "span" [("class", "lbl x_blk")] "USAGE" []
          "This is a usage note."] "") =
      "> **USAGE**" ++ "\n" ++ "> This is a usage note." := by
  have h := (claim7_note_blockquote
    (.mk "span" [("class", "note")] ""
      [.mk "span" [("class", "lbl x_blk")] "USAGE" []
        "This is a usage note."] "")
    (.mk "span" [("class", "lbl x_blk")] "USAGE" []
      "This is a usage note.")
    rfl).1 0 (by decide) (by decide) rfl (by decide) (by decide)
  rw [h]
  decide

/-! Claim C2: idempotence of the punctuation cleanup.

The proof characterises the image of the per-line cleanup by a grammar
of "clean" strings with three scanning contexts: neutral (`GN`), inside
a whitespace run (`GW`), just after an apostrophe (`GA`), and just
after a pipe (`GP`).  Part one shows the six passes map any content
into the grammar; part two shows the passes act on grammar strings as
the identity up to a single boundary space around a leading or trailing
pipe, which the final strip removes. -/

/-- A character with no special role in the cleanup passes. -/
def plainCh (c : Char) : Bool :=
  ¬pySpace c ∧ c ≠ '|' ∧ c ≠ '\'' ∧ ¬punct6 c

mutual
/-- Clean-string grammar, neutral context (previous character, if any,
is plain or a punctuation mark). -/
def GN : List Char → Bool
  | [] => true
  | [c] => ¬pySpace c ∧ c ≠ '|'
  | c :: d :: r2 =>
    if punct6 c then
      if d = '\'' then GA r2 else ¬r2fires (d :: r2) ∧ GN (d :: r2)
    else if c = '\'' then GA (d :: r2)
    else if c = '|' then false
    else if pySpace c then
      if d = '|' then c = ' ' ∧ GP r2
      else if pySpace d then ¬(c = ' ' ∧ d = ' ') ∧ GW (d :: r2)
      else if punct6 d ∨ d = '\'' then false
      else GN (d :: r2)
    else GN (d :: r2)

/-- Clean-string grammar, inside a whitespace run (the head is a
whitespace character that does not start the run). -/
def GW : List Char → Bool
  | [] => false
  | [_] => false
  | c :: d :: r2 =>
    if d = '|' then false
    else if pySpace d then ¬(c = ' ' ∧ d = ' ') ∧ GW (d :: r2)
    else if punct6 d ∨ d = '\'' then false
    else GN (d :: r2)

/-- Clean-string grammar, directly after an apostrophe. -/
def GA : List Char → Bool
  | [] => true
  | [c] => ¬pySpace c
  | c :: d :: r2 =>
    if pySpace c then false
    else if c = '\'' then GA (d :: r2)
    else if c = '|' then GP (d :: r2)
    else if punct6 c then
      if d = '\'' then GA r2 else ¬r2fires (d :: r2) ∧ GN (d :: r2)
    else GN (d :: r2)

/-- Clean-string grammar, directly after a pipe. -/
def GP : List Char → Bool
  | [] => true
  | [c] => c = '\''
  | c :: d :: r2 =>
    if c = '\'' then GA (d :: r2)
    else if c = ' ' then
      if d = '|' then GP r2
      else if pySpace d ∨ d = '\'' then false
      else GN (d :: r2)
    else false
end

/-- Clean-string recogniser for a whole stripped line content. -/
def GTop : List Char → Bool
  | [] => true
  | c :: r =>
    if pySpace c then false
    else if c = '|' then GP r
    else GN (c :: r)

/-- The six passes without the final strip. -/
def passAll (cs : List Char) : List Char :=
  delWsBeforeApos (delWsAfterApos (collapseSpaces (pipeNorm
    (insSpaceAfterPunct (delWsBeforePunct cs)))))

/-- A clean string with the single pad space the pipe pass re-inserts
around a leading or trailing pipe. -/
def paddedForm (cs : List Char) : List Char :=
  (if cs.head? = some '|' then [' '] else []) ++ cs ++
    (if cs.getLast? = some '|' then [' '] else [])

/-- The last five passes with the apostrophe-skip flag of pass 5 as a
parameter: `passAllFrom false` is `passAll`, `passAllFrom true` is the
composite as it continues right after an emitted apostrophe. -/
def passAllFrom (b : Bool) (cs : List Char) : List Char :=
  delWsBeforeApos (delWsAfterAposAux b (collapseSpaces (pipeNorm
    (insSpaceAfterPunct (delWsBeforePunct cs)))))

/-- The composite as it continues right after an emitted pipe: pass 3
is in its `pipeTail` state. -/
def passAfterPipe (cs : List Char) : List Char :=
  delWsBeforeApos (delWsAfterApos (collapseAux false (pipeTail
    (insSpaceAfterPunct (delWsBeforePunct cs)))))

/-- The boundary space that the pipe pass appends after a trailing
pipe. -/
def ePad (t : List Char) : List Char :=
  if t.getLast? = some '|' then [' '] else []

theorem passAllFrom_false (t : List Char) : passAllFrom false t = passAll t := rfl

theorem ePad_cons (c : Char) (l : List Char) (h : l ≠ []) :
    ePad (c :: l) = ePad l := by
  cases l with
  | nil => exact absurd rfl h
  | cons d t => simp [ePad, List.getLast?]

theorem ePad_append (l m : List Char) (h : m ≠ []) :
    ePad (l ++ m) = ePad m := by
  induction l with
  | nil => rfl
  | cons c l ih =>
    have hlm : l ++ m ≠ [] := by
      intro hr
      exact h (List.append_eq_nil.1 hr).2
    rw [List.cons_append, ePad_cons c _ hlm, ih]

theorem ePad_single (c : Char) (h : c ≠ '|') : ePad [c] = [] := by
  simp [ePad, List.getLast?, h]

/-! Characters of the relevant classes are pairwise distinct whitespace
or non-whitespace; a handful of closure facts used throughout. -/

theorem pySpace_char_ne (c : Char) (hc : pySpace c = false) : c ≠ ' ' := by
  intro h; rw [h] at hc; exact absurd hc (by decide)

theorem punct6_not_space (c : Char) (hc : punct6 c = true) : pySpace c = false := by
  have h := of_decide_eq_true hc
  rcases h with rfl | rfl | rfl | rfl | rfl | rfl <;> decide

theorem punct6_space_char (c : Char) (hc : punct6 c = true) : c ≠ ' ' :=
  pySpace_char_ne c (punct6_not_space c hc)

theorem punct6_ne_apos (c : Char) (hc : punct6 c = true) : c ≠ '\'' := by
  intro h; rw [h] at hc; exact absurd hc (by decide)

theorem pyDigit_not_space (c : Char) (hc : pyDigit c = true) : pySpace c = false := by
  have h := of_decide_eq_true hc
  by_contra hsp
  have hs := of_decide_eq_true (eq_true_of_ne_false hsp)
  rcases hs with rfl | rfl | rfl | rfl | rfl | rfl | rfl | rfl | rfl | rfl |
    rfl | rfl | rfl | hr | rfl | rfl | rfl | rfl | rfl
  all_goals first
    | (revert h; decide)
    | (obtain ⟨h1, h2⟩ := h
       obtain ⟨hr1, hr2⟩ := hr
       have hx : c.toNat ≤ 57 := h2
       omega)

/-! Step equations for pass 1 and pass 6 (`delWsBeforeAux`). -/

theorem dwb_nil (P : Char → Bool) (pend : List Char) :
    delWsBeforeAux P pend [] = pend.reverse := rfl

theorem dwb_ws (P : Char → Bool) (pend : List Char) (c : Char)
    (cs : List Char) (hc : pySpace c = true) :
    delWsBeforeAux P pend (c :: cs) = delWsBeforeAux P (c :: pend) cs := by
  simp [delWsBeforeAux, hc]

theorem dwb_P (P : Char → Bool) (pend : List Char) (c : Char) (cs : List Char)
    (hc : pySpace c = false) (hp : P c = true) :
    delWsBeforeAux P pend (c :: cs) = c :: delWsBeforeAux P [] cs := by
  simp [delWsBeforeAux, hc, hp]

theorem dwb_other (P : Char → Bool) (pend : List Char) (c : Char) (cs : List Char)
    (hc : pySpace c = false) (hp : P c = false) :
    delWsBeforeAux P pend (c :: cs) =
      pend.reverse ++ (c :: delWsBeforeAux P [] cs) := by
  simp [delWsBeforeAux, hc, hp]

theorem dwb_cons_nonws (P : Char → Bool) (c : Char) (cs : List Char)
    (hc : pySpace c = false) :
    delWsBeforeAux P [] (c :: cs) = c :: delWsBeforeAux P [] cs := by
  cases hp : P c with
  | true => exact dwb_P P [] c cs hc hp
  | false => simpa using dwb_other P [] c cs hc hp

theorem dwb_acc (P : Char → Bool) (w : List Char) (hw : w.all pySpace) :
    ∀ pend cs, delWsBeforeAux P pend (w ++ cs) =
      delWsBeforeAux P (w.reverse ++ pend) cs := by
  induction w with
  | nil => intro pend cs; rfl
  | cons x w ih =>
    intro pend cs
    simp only [List.all_cons, Bool.and_eq_true] at hw
    rw [List.cons_append, dwb_ws P pend x _ hw.1, ih hw.2,
      List.reverse_cons, List.append_assoc]
    rfl

theorem dwb_run_flush (P : Char → Bool) (w : List Char) (e : Char)
    (cs : List Char) (hw : w.all pySpace) (he : pySpace e = false)
    (hp : P e = false) :
    delWsBeforeAux P [] (w ++ e :: cs) =
      w ++ (e :: delWsBeforeAux P [] cs) := by
  rw [dwb_acc P w hw [] (e :: cs), dwb_other P _ e cs he hp]
  simp

theorem dwb_run_del (P : Char → Bool) (w : List Char) (e : Char)
    (cs : List Char) (hw : w.all pySpace) (he : pySpace e = false)
    (hp : P e = true) :
    delWsBeforeAux P [] (w ++ e :: cs) = e :: delWsBeforeAux P [] cs := by
  rw [dwb_acc P w hw [] (e :: cs), dwb_P P _ e cs he hp]

/-! Step equations for pass 2 (`insSpaceAfterPunct`). -/

theorem isp_fire (c : Char) (cs : List Char) (hc : punct6 c = true)
    (hf : r2fires cs = true) :
    insSpaceAfterPunct (c :: cs) = c :: ' ' :: insSpaceAfterPunct cs := by
  simp [insSpaceAfterPunct, hc, hf]

theorem isp_nofire (c : Char) (cs : List Char) (hf : r2fires cs = false) :
    insSpaceAfterPunct (c :: cs) = c :: insSpaceAfterPunct cs := by
  simp [insSpaceAfterPunct, hf]

theorem isp_nopunct (c : Char) (cs : List Char) (hc : punct6 c = false) :
    insSpaceAfterPunct (c :: cs) = c :: insSpaceAfterPunct cs := by
  simp [insSpaceAfterPunct, hc]

theorem isp_append_nopunct (u cs : List Char)
    (hu : u.all (fun c => punct6 c = false)) :
    insSpaceAfterPunct (u ++ cs) = u ++ insSpaceAfterPunct cs := by
  induction u with
  | nil => rfl
  | cons x u ih =>
    simp only [List.all_cons, Bool.and_eq_true, decide_eq_true_eq] at hu
    rw [List.cons_append, isp_nopunct x _ hu.1, ih hu.2, List.cons_append]

/-! Step equations for pass 3 (`pipeNormAux` / `pipeTail`). -/

theorem pn_nil (pend : List Char) : pipeNormAux pend [] = pend.reverse := rfl

theorem pn_ws (pend : List Char) (c : Char) (cs : List Char)
    (hc : pySpace c = true) :
    pipeNormAux pend (c :: cs) = pipeNormAux (c :: pend) cs := by
  simp [pipeNormAux, hc]

theorem pn_pipe (pend : List Char) (cs : List Char) :
    pipeNormAux pend ('|' :: cs) = ' ' :: '|' :: pipeTail cs := by
  have h : pySpace '|' = false := by decide
  simp [pipeNormAux, h]

theorem pn_other (pend : List Char) (c : Char) (cs : List Char)
    (hc : pySpace c = false) (hp : c ≠ '|') :
    pipeNormAux pend (c :: cs) =
      pend.reverse ++ (c :: pipeNormAux [] cs) := by
  simp [pipeNormAux, hc, hp]

theorem pn_cons_other (c : Char) (cs : List Char)
    (hc : pySpace c = false) (hp : c ≠ '|') :
    pipeNormAux [] (c :: cs) = c :: pipeNormAux [] cs := by
  simpa using pn_other [] c cs hc hp

theorem pn_acc (w : List Char) (hw : w.all pySpace) :
    ∀ pend cs, pipeNormAux pend (w ++ cs) = pipeNormAux (w.reverse ++ pend) cs := by
  induction w with
  | nil => intro pend cs; rfl
  | cons x w ih =>
    intro pend cs
    simp only [List.all_cons, Bool.and_eq_true] at hw
    rw [List.cons_append, pn_ws pend x _ hw.1, ih hw.2,
      List.reverse_cons, List.append_assoc]
    rfl

theorem pn_run_flush (w : List Char) (e : Char) (cs : List Char)
    (hw : w.all pySpace) (he : pySpace e = false) (hp : e ≠ '|') :
    pipeNormAux [] (w ++ e :: cs) = w ++ (e :: pipeNormAux [] cs) := by
  rw [pn_acc w hw [] (e :: cs), pn_other _ e cs he hp]
  simp

theorem pt_nil : pipeTail [] = [' '] := rfl

theorem pt_ws (c : Char) (cs : List Char) (hc : pySpace c = true) :
    pipeTail (c :: cs) = pipeTail cs := by
  simp [pipeTail, hc]

theorem pt_pipe (cs : List Char) :
    pipeTail ('|' :: cs) = ' ' :: ' ' :: '|' :: pipeTail cs := by
  have h : pySpace '|' = false := by decide
  simp [pipeTail, h]

theorem pt_other (c : Char) (cs : List Char)
    (hc : pySpace c = false) (hp : c ≠ '|') :
    pipeTail (c :: cs) = ' ' :: c :: pipeNormAux [] cs := by
  simp [pipeTail, hc, hp]

/-! Step equations for pass 4 (`collapseAux`). -/

theorem ca_nil (b : Bool) : collapseAux b [] = [] := rfl

theorem ca_sp_true (cs : List Char) :
    collapseAux true (' ' :: cs) = collapseAux true cs := by
  simp [collapseAux]

theorem ca_sp_false (cs : List Char) :
    collapseAux false (' ' :: cs) = ' ' :: collapseAux true cs := by
  simp [collapseAux]

theorem ca_other (b : Bool) (c : Char) (cs : List Char) (hc : c ≠ ' ') :
    collapseAux b (c :: cs) = c :: collapseAux false cs := by
  simp [collapseAux, hc]

theorem ca_true_of_head_ne (l : List Char)
    (h : ∀ c, l.head? = some c → c ≠ ' ') :
    collapseAux true l = collapseAux false l := by
  cases l with
  | nil => rfl
  | cons c cs =>
    have hc : c ≠ ' ' := h c rfl
    rw [ca_other true c cs hc, ca_other false c cs hc]

/-! Step equations for pass 5 (`delWsAfterAposAux`). -/

theorem da_skip (c : Char) (cs : List Char) (hc : pySpace c = true) :
    delWsAfterAposAux true (c :: cs) = delWsAfterAposAux true cs := by
  simp [delWsAfterAposAux, hc]

theorem da_nonws (b : Bool) (c : Char) (cs : List Char)
    (hc : pySpace c = false) :
    delWsAfterAposAux b (c :: cs) =
      c :: delWsAfterAposAux (c = '\'') cs := by
  cases b <;> simp [delWsAfterAposAux, hc]

theorem da_ws_false (c : Char) (cs : List Char) (hc : pySpace c = true) :
    delWsAfterAposAux false (c :: cs) = c :: delWsAfterAposAux false cs := by
  have hne : (c = '\'') = False := by
    simp only [eq_iff_iff, iff_false]
    intro h; rw [h] at hc; exact absurd hc (by decide)
  simp [delWsAfterAposAux, hne]

theorem da_wsrun_false (w cs : List Char) (hw : w.all pySpace) :
    delWsAfterAposAux false (w ++ cs) = w ++ delWsAfterAposAux false cs := by
  induction w with
  | nil => rfl
  | cons x w ih =>
    simp only [List.all_cons, Bool.and_eq_true] at hw
    rw [List.cons_append, da_ws_false x _ hw.1, ih hw.2, List.cons_append]

/-! Transfer of the pass-2 firing condition over pass 1. -/

theorem lowerAZ_not_ws (c : Char) (h : lowerAZ c = true) : pySpace c = false := by
  have hl := of_decide_eq_true h
  have h1 : 97 ≤ c.toNat := hl.1
  have h2 : c.toNat ≤ 122 := hl.2
  by_contra hsp
  have hs := of_decide_eq_true (eq_true_of_ne_false hsp)
  rcases hs with rfl | rfl | rfl | rfl | rfl | rfl | rfl | rfl | rfl | rfl |
    rfl | rfl | rfl | hr | rfl | rfl | rfl | rfl | rfl
  all_goals first
    | (revert h; decide)
    | (obtain ⟨hr1, hr2⟩ := hr; omega)

theorem lowerAZ_not_punct (c : Char) (h : lowerAZ c = true) :
    punct6 c = false := by
  by_contra hp
  have hps := of_decide_eq_true (eq_true_of_ne_false hp)
  rcases hps with rfl | rfl | rfl | rfl | rfl | rfl <;> revert h <;> decide

theorem dwb_append_plain (P : Char → Bool) (u v : List Char)
    (hu : ∀ c ∈ u, pySpace c = false ∧ P c = false) :
    delWsBeforeAux P [] (u ++ v) = u ++ delWsBeforeAux P [] v := by
  induction u with
  | nil => rfl
  | cons x u ih =>
    have hx := hu x (List.mem_cons_self x u)
    rw [List.cons_append, dwb_other P [] x _ hx.1 hx.2, List.reverse_nil,
      List.nil_append, ih (fun c hc => hu c (List.mem_cons_of_mem x hc)),
      List.cons_append]

theorem extParen_elim (l : List Char) (h : extParen l = true) :
    ∃ k u rest, (k = 2 ∨ k = 3 ∨ k = 4) ∧ l = u ++ ')' :: rest ∧
      u.length = k ∧ u.all lowerAZ = true := by
  have hd := of_decide_eq_true h
  have key : ∀ k : Nat, (l.take k).length = k → (l.take k).all lowerAZ = true →
      l.get? k = some ')' →
      ∃ u rest, l = u ++ ')' :: rest ∧ u.length = k ∧ u.all lowerAZ = true := by
    intro k hlen hall hget
    obtain ⟨hk, hgv⟩ := List.get?_eq_some.1 hget
    refine ⟨l.take k, l.drop (k + 1), ?_, hlen, hall⟩
    have hdrop : l.drop k = ')' :: l.drop (k + 1) := by
      rw [List.drop_eq_get_cons hk, hgv]
    rw [← hdrop, List.take_append_drop]
  rcases hd with ⟨h1, h2, h3⟩ | ⟨h1, h2, h3⟩ | ⟨h1, h2, h3⟩
  · obtain ⟨u, rest, hu⟩ := key 2 (of_decide_eq_true h1) h2 h3
    exact ⟨2, u, rest, Or.inl rfl, hu⟩
  · obtain ⟨u, rest, hu⟩ := key 3 (of_decide_eq_true h1) h2 h3
    exact ⟨3, u, rest, Or.inr (Or.inl rfl), hu⟩
  · obtain ⟨u, rest, hu⟩ := key 4 (of_decide_eq_true h1) h2 h3
    exact ⟨4, u, rest, Or.inr (Or.inr rfl), hu⟩

theorem extParen_intro (k : Nat) (u rest : List Char)
    (hk : k = 2 ∨ k = 3 ∨ k = 4) (hu : u.length = k)
    (hl : u.all lowerAZ = true) : extParen (u ++ ')' :: rest) = true := by
  have htake : (u ++ ')' :: rest).take k = u := by
    rw [← hu]; exact List.take_left u _
  have hget : (u ++ ')' :: rest).get? k = some ')' := by
    rw [← hu, List.get?_append_right (Nat.le_refl _), Nat.sub_self]
    rfl
  apply decide_eq_true
  rcases hk with rfl | rfl | rfl
  · exact Or.inl ⟨by rw [htake, hu]; decide, by rw [htake]; exact hl, hget⟩
  · exact Or.inr (Or.inl ⟨by rw [htake, hu]; decide, by rw [htake]; exact hl, hget⟩)
  · exact Or.inr (Or.inr ⟨by rw [htake, hu]; decide, by rw [htake]; exact hl, hget⟩)

theorem r2fires_head_ws (d : Char) (l : List Char) (hd : pySpace d = true) :
    r2fires (d :: l) = false := by
  simp [r2fires, hd]

theorem r2fires_head_punct (d : Char) (l : List Char) (hd : punct6 d = true) :
    r2fires (d :: l) = false := by
  simp [r2fires, hd]

theorem r2fires_head_digit (d : Char) (l : List Char) (hd : pyDigit d = true) :
    r2fires (d :: l) = false := by
  simp [r2fires, hd]

theorem extParen_cons_notlower (c : Char) (l : List Char)
    (hc : lowerAZ c = false) : extParen (c :: l) = false := by
  simp [extParen, hc]

theorem r2fires_head_apos (l : List Char) : r2fires ('\'' :: l) = true := by
  have he : extParen ('\'' :: l) = false :=
    extParen_cons_notlower '\'' l (by decide)
  simp [r2fires, he]
  decide

theorem dwb_head_shape (P : Char → Bool) :
    ∀ (cs pend : List Char), pend.all pySpace = true → pend ≠ [] →
      ∃ c' t', delWsBeforeAux P pend cs = c' :: t' ∧
        (pySpace c' = true ∨ P c' = true) := by
  intro cs
  induction cs with
  | nil =>
    intro pend hall hne
    rw [dwb_nil]
    obtain ⟨c', t', hct⟩ : ∃ c' t', pend.reverse = c' :: t' := by
      cases hrv : pend.reverse with
      | nil => exact absurd (by simpa using hrv) hne
      | cons a b => exact ⟨a, b, rfl⟩
    refine ⟨c', t', hct, Or.inl ?_⟩
    have hmem : c' ∈ pend := by
      rw [← List.mem_reverse, hct]; exact List.mem_cons_self c' t'
    exact (List.all_eq_true.1 hall) c' hmem
  | cons c cs ih =>
    intro pend hall hne
    by_cases hws : pySpace c = true
    · rw [dwb_ws P pend c cs hws]
      exact ih (c :: pend) (by simp [hws, hall]) (by simp)
    · have hws' : pySpace c = false := by simpa using hws
      by_cases hp : P c = true
      · exact ⟨c, _, dwb_P P pend c cs hws' hp, Or.inr hp⟩
      · have hp' : P c = false := by simpa using hp
        rw [dwb_other P pend c cs hws' hp']
        obtain ⟨c', t', hct⟩ : ∃ c' t', pend.reverse = c' :: t' := by
          cases hrv : pend.reverse with
          | nil => exact absurd (by simpa using hrv) hne
          | cons a b => exact ⟨a, b, rfl⟩
        refine ⟨c', t' ++ c :: delWsBeforeAux P [] cs, by rw [hct]; rfl, Or.inl ?_⟩
        have hmem : c' ∈ pend := by
          rw [← List.mem_reverse, hct]; exact List.mem_cons_self c' t'
        exact (List.all_eq_true.1 hall) c' hmem

/-- If the pass-2 lookahead does not fire on a suffix, it does not fire
on that suffix after pass 1 has deleted whitespace before punctuation. -/
theorem r2fires_r1_false (r : List Char) (h : r2fires r = false) :
    r2fires (delWsBeforePunct r) = false := by
  cases r with
  | nil => rfl
  | cons d rest =>
    by_cases hws : pySpace d = true
    · rw [delWsBeforePunct, dwb_ws punct6 [] d rest hws]
      obtain ⟨c', t', heq, hc'⟩ :=
        dwb_head_shape punct6 rest [d] (by simp [hws]) (by simp)
      rw [heq]
      rcases hc' with hc' | hc'
      · exact r2fires_head_ws c' t' hc'
      · exact r2fires_head_punct c' t' hc'
    · have hws' : pySpace d = false := by simpa using hws
      by_cases hpu : punct6 d = true
      · rw [delWsBeforePunct, dwb_cons_nonws punct6 d rest hws']
        exact r2fires_head_punct d _ hpu
      · by_cases hdg : pyDigit d = true
        · rw [delWsBeforePunct, dwb_cons_nonws punct6 d rest hws']
          exact r2fires_head_digit d _ hdg
        · have hext : extParen (d :: rest) = true := by
            have hx := h
            simp only [r2fires, hws', hdg, hpu] at hx
            simpa using hx
          obtain ⟨k, u, tail, hk, hsplit, hlen, hlow⟩ :=
            extParen_elim (d :: rest) hext
          have hchars : ∀ c ∈ u, pySpace c = false ∧ punct6 c = false := by
            intro c hcm
            have hl := (List.all_eq_true.1 hlow) c hcm
            exact ⟨lowerAZ_not_ws c hl, lowerAZ_not_punct c hl⟩
          have hres : delWsBeforePunct (d :: rest) =
              u ++ ')' :: delWsBeforePunct tail := by
            rw [hsplit, delWsBeforePunct, dwb_append_plain punct6 u _ hchars,
              dwb_cons_nonws punct6 ')' tail (by decide)]
            rfl
          have hext2 : extParen (delWsBeforePunct (d :: rest)) = true := by
            rw [hres]; exact extParen_intro k u _ hk hlen hlow
          cases hresform : delWsBeforePunct (d :: rest) with
          | nil => rfl
          | cons e etail =>
            rw [hresform] at hext2
            simp [r2fires, hext2]

/-! Variant step lemmas specialised to the apostrophe classes. -/

theorem aposP_false (c : Char) (hne : c ≠ '\'') : aposP c = false := by
  simp [aposP, hne]

theorem punct6_ne_pipe (c : Char) (hc : punct6 c = true) : c ≠ '|' := by
  intro h; rw [h] at hc; exact absurd hc (by decide)

theorem ws_not_punct (c : Char) (hc : pySpace c = true) : punct6 c = false := by
  by_contra hp
  have hps := of_decide_eq_true (eq_true_of_ne_false hp)
  rcases hps with rfl | rfl | rfl | rfl | rfl | rfl <;> revert hc <;> decide

theorem ws_ne_apos (c : Char) (hc : pySpace c = true) : c ≠ '\'' := by
  intro h; rw [h] at hc; exact absurd hc (by decide)

theorem ws_ne_pipe (c : Char) (hc : pySpace c = true) : c ≠ '|' := by
  intro h; rw [h] at hc; exact absurd hc (by decide)

theorem da_nonws_na (b : Bool) (c : Char) (cs : List Char)
    (hc : pySpace c = false) (hne : c ≠ '\'') :
    delWsAfterAposAux b (c :: cs) = c :: delWsAfterAposAux false cs := by
  rw [da_nonws b c cs hc]
  simp [hne]

theorem da_nonws_apos (b : Bool) (cs : List Char) :
    delWsAfterAposAux b ('\'' :: cs) = '\'' :: delWsAfterAposAux true cs := by
  rw [da_nonws b '\'' cs (by decide)]
  simp

/-- Peeling a plain character off the front of the five-pass composite. -/
theorem peel_plain (b : Bool) (c : Char) (r : List Char)
    (h1 : pySpace c = false) (h2 : punct6 c = false) (h3 : c ≠ '\'')
    (h4 : c ≠ '|') :
    passAllFrom b (c :: r) = c :: passAllFrom false r := by
  simp only [passAllFrom, delWsBeforePunct, pipeNorm, collapseSpaces,
    delWsBeforeApos]
  rw [dwb_cons_nonws punct6 c r h1, isp_nopunct c _ h2,
    pn_cons_other c _ h1 h4, ca_other false c _ (pySpace_char_ne c h1),
    da_nonws_na b c _ h1 h3, dwb_cons_nonws aposP c _ h1]

/-- Peeling an apostrophe: pass 5 switches into skipping mode. -/
theorem peel_apos (b : Bool) (r : List Char) :
    passAllFrom b ('\'' :: r) = '\'' :: passAllFrom true r := by
  simp only [passAllFrom, delWsBeforePunct, pipeNorm, collapseSpaces,
    delWsBeforeApos]
  rw [dwb_cons_nonws punct6 '\'' r (by decide), isp_nopunct '\'' _ (by decide),
    pn_cons_other '\'' _ (by decide) (by decide),
    ca_other false '\'' _ (by decide), da_nonws_apos b _,
    dwb_P aposP [] '\'' _ (by decide) (by decide)]

/-- Peeling a punctuation mark whose lookahead does not fire. -/
theorem peel_punct_nofire (b : Bool) (c : Char) (r : List Char)
    (hc : punct6 c = true) (hf : r2fires r = false) :
    passAllFrom b (c :: r) = c :: passAllFrom false r := by
  have h1 : pySpace c = false := punct6_not_space c hc
  simp only [passAllFrom, delWsBeforePunct, pipeNorm, collapseSpaces,
    delWsBeforeApos]
  rw [dwb_cons_nonws punct6 c r h1,
    isp_nofire c _ (show r2fires (delWsBeforeAux punct6 [] r) = false from
      r2fires_r1_false r hf),
    pn_cons_other c _ h1 (punct6_ne_pipe c hc),
    ca_other false c _ (punct6_space_char c hc),
    da_nonws_na b c _ h1 (punct6_ne_apos c hc),
    dwb_cons_nonws aposP c _ h1]

/-- Peeling a punctuation mark directly followed by an apostrophe: pass
2 inserts a space that pass 6 deletes again. -/
theorem peel_punct_apos (b : Bool) (c : Char) (r2 : List Char)
    (hc : punct6 c = true) :
    passAllFrom b (c :: '\'' :: r2) = c :: '\'' :: passAllFrom true r2 := by
  have h1 : pySpace c = false := punct6_not_space c hc
  simp only [passAllFrom, delWsBeforePunct, pipeNorm, collapseSpaces,
    delWsBeforeApos]
  rw [dwb_cons_nonws punct6 c _ h1,
    dwb_cons_nonws punct6 '\'' _ (by decide),
    isp_fire c _ hc (r2fires_head_apos _), isp_nopunct '\'' _ (by decide),
    pn_cons_other c _ h1 (punct6_ne_pipe c hc),
    pn_ws [] ' ' _ (by decide),
    pn_other [' '] '\'' _ (by decide) (by decide)]
  simp only [List.reverse_cons, List.reverse_nil, List.nil_append,
    List.cons_append]
  rw [ca_other false c _ (punct6_space_char c hc), ca_sp_false,
    ca_other true '\'' _ (by decide),
    da_nonws_na b c _ h1 (punct6_ne_apos c hc),
    da_ws_false ' ' _ (by decide), da_nonws_apos false _,
    dwb_cons_nonws aposP c _ h1, dwb_ws aposP [] ' ' _ (by decide),
    dwb_P aposP [' '] '\'' _ (by decide) (by decide)]

/-- Peeling a pipe with pass 5 not in skipping mode: the inserted
leading space survives. -/
theorem peel_pipe_false (r : List Char) :
    passAllFrom false ('|' :: r) = ' ' :: '|' :: passAfterPipe r := by
  simp only [passAllFrom, passAfterPipe, delWsBeforePunct, pipeNorm,
    collapseSpaces, delWsAfterApos, delWsBeforeApos]
  rw [dwb_cons_nonws punct6 '|' r (by decide), isp_nopunct '|' _ (by decide),
    pn_pipe [] _, ca_sp_false, ca_other true '|' _ (by decide),
    da_ws_false ' ' _ (by decide), da_nonws_na false '|' _ (by decide) (by decide),
    dwb_ws aposP [] ' ' _ (by decide),
    dwb_other aposP [' '] '|' _ (by decide) (by decide)]
  rfl

/-- Peeling a pipe with pass 5 in skipping mode: the inserted leading
space is eaten, leaving the pipe straight after the apostrophe. -/
theorem peel_pipe_true (r : List Char) :
    passAllFrom true ('|' :: r) = '|' :: passAfterPipe r := by
  simp only [passAllFrom, passAfterPipe, delWsBeforePunct, pipeNorm,
    collapseSpaces, delWsAfterApos, delWsBeforeApos]
  rw [dwb_cons_nonws punct6 '|' r (by decide), isp_nopunct '|' _ (by decide),
    pn_pipe [] _, ca_sp_false, ca_other true '|' _ (by decide),
    da_skip ' ' _ (by decide), da_nonws_na true '|' _ (by decide) (by decide),
    dwb_cons_nonws aposP '|' _ (by decide)]

/-- No two adjacent plain spaces. -/
def noDbl : List Char → Bool
  | a :: b :: t => ¬(a = ' ' ∧ b = ' ') ∧ noDbl (b :: t)
  | _ => true

theorem ca_wsrun (w : List Char) (e : Char) (rest : List Char)
    (hall : w.all pySpace = true) (hnd : noDbl (w ++ [e]) = true)
    (he : e ≠ ' ') :
    collapseAux false (w ++ e :: rest) = w ++ collapseAux false (e :: rest) := by
  induction w with
  | nil => rfl
  | cons x w ih =>
    simp only [List.all_cons, Bool.and_eq_true] at hall
    have hnd' : noDbl (w ++ [e]) = true := by
      cases w with
      | nil => rfl
      | cons y t =>
        simp only [List.cons_append, noDbl] at hnd
        exact (of_decide_eq_true hnd).2
    by_cases hx : x = ' '
    · subst hx
      rw [List.cons_append, ca_sp_false]
      have hhead : ∀ c, (w ++ e :: rest).head? = some c → c ≠ ' ' := by
        intro c hc
        cases w with
        | nil =>
          simp only [List.nil_append, List.head?] at hc
          cases hc; exact he
        | cons y t =>
          simp only [List.cons_append, List.head?] at hc
          cases hc
          simp only [List.cons_append, noDbl] at hnd
          intro hy
          exact (of_decide_eq_true hnd).1 ⟨trivial, hy⟩
      rw [ca_true_of_head_ne _ hhead, ih hall.2 hnd', List.cons_append]
    · rw [List.cons_append, ca_other false x _ hx, ih hall.2 hnd',
        List.cons_append]

theorem noDbl_append_single (w : List Char) (e : Char) (hw : noDbl w = true)
    (he : e ≠ ' ') : noDbl (w ++ [e]) = true := by
  induction w with
  | nil => rfl
  | cons x w ih =>
    cases w with
    | nil =>
      simp only [List.cons_append, List.nil_append, noDbl]
      exact decide_eq_true ⟨fun h => he h.2, trivial⟩
    | cons y t =>
      simp only [noDbl] at hw
      have hw' := of_decide_eq_true hw
      simp only [List.cons_append, noDbl]
      exact decide_eq_true ⟨hw'.1, by
        have := ih hw'.2
        simpa [List.cons_append] using this⟩

/-- Peeling a whole whitespace run followed by a plain character: every
pass maps it through unchanged. -/
theorem peel_wsrun (w : List Char) (e : Char) (rr : List Char)
    (hall : w.all pySpace = true) (hnd : noDbl (w ++ [e]) = true)
    (h1 : pySpace e = false) (h2 : punct6 e = false) (h3 : e ≠ '\'')
    (h4 : e ≠ '|') :
    passAllFrom false (w ++ e :: rr) = w ++ passAllFrom false (e :: rr) := by
  have hwnp : w.all (fun c => punct6 c = false) = true :=
    List.all_eq_true.2 (fun c hc => decide_eq_true
      (ws_not_punct c ((List.all_eq_true.1 hall) c hc)))
  simp only [passAllFrom, delWsBeforePunct, pipeNorm, collapseSpaces,
    delWsBeforeApos]
  rw [dwb_run_flush punct6 w e rr hall h1 h2,
    dwb_cons_nonws punct6 e rr h1,
    isp_append_nopunct w _ hwnp, isp_nopunct e _ h2,
    pn_run_flush w e _ hall h1 h4, pn_cons_other e _ h1 h4,
    ca_wsrun w e _ hall hnd (pySpace_char_ne e h1),
    ca_other false e _ (pySpace_char_ne e h1),
    da_wsrun_false w _ hall, da_nonws_na false e _ h1 h3,
    dwb_run_flush aposP w e _ hall h1 (aposP_false e h3),
    dwb_cons_nonws aposP e _ h1]

/-- After a pipe, an apostrophe: the emitted trailing space of the pipe
is deleted by pass 6. -/
theorem peelP_apos (r : List Char) :
    passAfterPipe ('\'' :: r) = '\'' :: passAllFrom true r := by
  simp only [passAfterPipe, passAllFrom, delWsBeforePunct, pipeNorm,
    collapseSpaces, delWsAfterApos, delWsBeforeApos]
  rw [dwb_cons_nonws punct6 '\'' r (by decide), isp_nopunct '\'' _ (by decide),
    pt_other '\'' _ (by decide) (by decide), ca_sp_false,
    ca_other true '\'' _ (by decide), da_ws_false ' ' _ (by decide),
    da_nonws_apos false _, dwb_ws aposP [] ' ' _ (by decide),
    dwb_P aposP [' '] '\'' _ (by decide) (by decide)]

/-- After a pipe, a space and another pipe: pass 4 collapses the double
space of the junction. -/
theorem peelP_sp_pipe (r2 : List Char) :
    passAfterPipe (' ' :: '|' :: r2) = ' ' :: '|' :: passAfterPipe r2 := by
  simp only [passAfterPipe, delWsBeforePunct, collapseSpaces,
    delWsAfterApos, delWsBeforeApos]
  rw [dwb_ws punct6 [] ' ' _ (by decide),
    dwb_other punct6 [' '] '|' _ (by decide) (by decide)]
  simp only [List.reverse_cons, List.reverse_nil, List.nil_append,
    List.cons_append]
  rw [isp_nopunct ' ' _ (by decide), isp_nopunct '|' _ (by decide),
    pt_ws ' ' _ (by decide), pt_pipe _, ca_sp_false, ca_sp_true,
    ca_other true '|' _ (by decide), da_ws_false ' ' _ (by decide),
    da_nonws_na false '|' _ (by decide) (by decide),
    dwb_ws aposP [] ' ' _ (by decide),
    dwb_other aposP [' '] '|' _ (by decide) (by decide)]
  rfl

/-- After a pipe, a space and then an ordinary character (plain or
non-firing punctuation): pass 1 may delete the space before
punctuation, but pass 3 re-emits it. -/
theorem peelP_sp_other (d : Char) (r2 : List Char)
    (h1 : pySpace d = false) (h3 : d ≠ '\'') (h4 : d ≠ '|')
    (hfp : punct6 d = true → r2fires r2 = false) :
    passAfterPipe (' ' :: d :: r2) = ' ' :: d :: passAllFrom false r2 := by
  simp only [passAfterPipe, passAllFrom, delWsBeforePunct, pipeNorm,
    collapseSpaces, delWsAfterApos, delWsBeforeApos]
  by_cases hpu : punct6 d = true
  · rw [dwb_ws punct6 [] ' ' _ (by decide),
      dwb_P punct6 [' '] d _ h1 hpu,
      isp_nofire d _ (show r2fires (delWsBeforeAux punct6 [] r2) = false from
        r2fires_r1_false r2 (hfp hpu)),
      pt_other d _ h1 h4, ca_sp_false,
      ca_other true d _ (pySpace_char_ne d h1),
      da_ws_false ' ' _ (by decide), da_nonws_na false d _ h1 h3,
      dwb_ws aposP [] ' ' _ (by decide),
      dwb_other aposP [' '] d _ h1 (aposP_false d h3)]
    rfl
  · have hpu' : punct6 d = false := by simpa using hpu
    rw [dwb_ws punct6 [] ' ' _ (by decide),
      dwb_other punct6 [' '] d _ h1 hpu']
    simp only [List.reverse_cons, List.reverse_nil, List.nil_append,
      List.cons_append]
    rw [isp_nopunct ' ' _ (by decide), isp_nopunct d _ hpu',
      pt_ws ' ' _ (by decide), pt_other d _ h1 h4, ca_sp_false,
      ca_other true d _ (pySpace_char_ne d h1),
      da_ws_false ' ' _ (by decide), da_nonws_na false d _ h1 h3,
      dwb_ws aposP [] ' ' _ (by decide),
      dwb_other aposP [' '] d _ h1 (aposP_false d h3)]
    rfl

/-- After a pipe, a space, punctuation and an apostrophe: the space
pass 2 inserts after the punctuation is deleted again by pass 6. -/
theorem peelP_sp_punct_apos (d : Char) (r3 : List Char)
    (hd : punct6 d = true) :
    passAfterPipe (' ' :: d :: '\'' :: r3) =
      ' ' :: d :: '\'' :: passAllFrom true r3 := by
  have h1 : pySpace d = false := punct6_not_space d hd
  simp only [passAfterPipe, passAllFrom, delWsBeforePunct, pipeNorm,
    collapseSpaces, delWsAfterApos, delWsBeforeApos]
  rw [dwb_ws punct6 [] ' ' _ (by decide),
    dwb_P punct6 [' '] d _ h1 hd,
    dwb_cons_nonws punct6 '\'' _ (by decide),
    isp_fire d _ hd (r2fires_head_apos _), isp_nopunct '\'' _ (by decide),
    pt_other d _ h1 (punct6_ne_pipe d hd),
    pn_ws [] ' ' _ (by decide),
    pn_other [' '] '\'' _ (by decide) (by decide)]
  simp only [List.reverse_cons, List.reverse_nil, List.nil_append,
    List.cons_append]
  rw [ca_sp_false, ca_other true d _ (punct6_space_char d hd), ca_sp_false,
    ca_other true '\'' _ (by decide),
    da_ws_false ' ' _ (by decide),
    da_nonws_na false d _ h1 (punct6_ne_apos d hd),
    da_ws_false ' ' _ (by decide), da_nonws_apos false _,
    dwb_ws aposP [] ' ' _ (by decide),
    dwb_other aposP [' '] d _ h1 (aposP_false d (punct6_ne_apos d hd)),
    dwb_ws aposP [] ' ' _ (by decide),
    dwb_P aposP [' '] '\'' _ (by decide) (by decide)]
  rfl

theorem noDbl_cons (c d : Char) (rest : List Char)
    (hp : ¬(c = ' ' ∧ d = ' ')) (hr : noDbl (d :: rest) = true) :
    noDbl (c :: d :: rest) = true := by
  simp only [noDbl]
  exact decide_eq_true ⟨hp, hr⟩

/-- Structure of a whitespace run recognised by `GW`: a nonempty
whitespace prefix with no double plain space, terminated by a plain
character, after which scanning is neutral again. -/
theorem gw_run : ∀ (r : List Char) (x : Char), pySpace x = true →
    GW (x :: r) = true →
    ∃ u e rr, x :: r = u ++ e :: rr ∧ u ≠ [] ∧ u.all pySpace = true ∧
      noDbl (u ++ [e]) = true ∧ pySpace e = false ∧ punct6 e = false ∧
      e ≠ '\'' ∧ e ≠ '|' ∧ GN (e :: rr) = true := by
  intro r
  induction r with
  | nil =>
    intro x hx hGW
    exact absurd hGW (by simp [GW])
  | cons y r2 ih =>
    intro x hx hGW
    simp only [GW] at hGW
    by_cases hy : y = '|'
    · rw [if_pos hy] at hGW
      exact absurd hGW (by simp)
    · rw [if_neg hy] at hGW
      by_cases hyw : pySpace y = true
      · rw [if_pos hyw] at hGW
        obtain ⟨hpair, hGW'⟩ := of_decide_eq_true hGW
        obtain ⟨u', e, rr, heq, hne, hall, hnd, he1, he2, he3, he4, hGN⟩ :=
          ih y hyw hGW'
        obtain ⟨u'', heq'⟩ : ∃ u'', u' = y :: u'' := by
          cases u' with
          | nil => exact absurd rfl hne
          | cons a u'' =>
            refine ⟨u'', ?_⟩
            have h2 := heq
            rw [List.cons_append] at h2
            injection h2 with hha hhb
            rw [hha]
        refine ⟨x :: u', e, rr, ?_, by simp, ?_, ?_, he1, he2, he3, he4, hGN⟩
        · rw [List.cons_append, ← heq]
        · simp [hx, hall]
        · rw [heq', List.cons_append, List.cons_append]
          rw [heq'] at hnd
          rw [List.cons_append] at hnd
          exact noDbl_cons x y _ hpair hnd
      · rw [if_neg hyw] at hGW
        have hyw' : pySpace y = false := by simpa using hyw
        by_cases hyp : punct6 y = true ∨ y = '\''
        · rw [if_pos hyp] at hGW
          exact absurd hGW (by simp)
        · rw [if_neg hyp] at hGW
          push_neg at hyp
          have hynp : punct6 y = false := by simpa using hyp.1
          refine ⟨[x], y, r2, rfl, by simp, by simp [hx], ?_, hyw', hynp,
            hyp.2, hy, hGW⟩
          exact decide_eq_true ⟨fun h => (pySpace_char_ne y hyw') h.2, rfl⟩

/-- Peeling a single space followed by a pipe in neutral context. -/
theorem peel_sp_pipe (r2 : List Char) :
    passAllFrom false (' ' :: '|' :: r2) = ' ' :: '|' :: passAfterPipe r2 := by
  simp only [passAllFrom, passAfterPipe, delWsBeforePunct, pipeNorm,
    collapseSpaces, delWsAfterApos, delWsBeforeApos]
  rw [dwb_ws punct6 [] ' ' _ (by decide),
    dwb_other punct6 [' '] '|' _ (by decide) (by decide)]
  simp only [List.reverse_cons, List.reverse_nil, List.nil_append,
    List.cons_append]
  rw [isp_nopunct ' ' _ (by decide), isp_nopunct '|' _ (by decide),
    pn_ws [] ' ' _ (by decide), pn_pipe [' '] _, ca_sp_false,
    ca_other true '|' _ (by decide), da_ws_false ' ' _ (by decide),
    da_nonws_na false '|' _ (by decide) (by decide),
    dwb_ws aposP [] ' ' _ (by decide),
    dwb_other aposP [' '] '|' _ (by decide) (by decide)]
  rfl

/-- A unified form of the pad-transfer step. -/
theorem ePad_cons_or (c : Char) (r : List Char) (h : c ≠ '|' ∨ r ≠ []) :
    ePad (c :: r) = ePad r := by
  cases r with
  | nil =>
    have hc : c ≠ '|' := by
      rcases h with h | h
      · exact h
      · exact absurd rfl h
    rw [ePad_single c hc]; rfl
  | cons d t => exact ePad_cons c (d :: t) (by simp)

/-! Arm equations of the grammar recognisers. -/

theorem GN_apos (r : List Char) : GN ('\'' :: r) = GA r := by
  cases r with
  | nil => decide
  | cons d r2 =>
    simp [GN, show punct6 '\'' = false by decide]

theorem GN_plain (c : Char) (r : List Char) (h1 : pySpace c = false)
    (h2 : punct6 c = false) (h3 : c ≠ '\'') (h4 : c ≠ '|') :
    GN (c :: r) = GN r := by
  cases r with
  | nil => simp [GN, h1, h4]
  | cons d r2 =>
    simp [GN, h1, h2, h3, h4]

theorem GA_apos (r : List Char) : GA ('\'' :: r) = GA r := by
  cases r with
  | nil => decide
  | cons d r2 =>
    simp [GA, show pySpace '\'' = false by decide]

theorem GA_pipe (r : List Char) : GA ('|' :: r) = GP r := by
  cases r with
  | nil => decide
  | cons d r2 =>
    simp [GA, show pySpace '|' = false by decide,
      show ('|' : Char) ≠ '\'' by decide]

/-- Main inductive step for the idempotence argument: on strings in the
clean grammar, the five passes act as the identity except for the pad
space around a boundary pipe, in each of the three scanning contexts. -/
theorem cpB : ∀ n : Nat, ∀ t : List Char, t.length ≤ n →
    (GN t = true → passAllFrom false t = t ++ ePad t) ∧
    (GA t = true → passAllFrom true t = t ++ ePad ('\'' :: t)) ∧
    (GP t = true → passAfterPipe t = t ++ ePad ('|' :: t)) := by
  intro n
  induction n with
  | zero =>
    intro t ht
    have ht0 : t = [] := List.length_eq_zero.1 (Nat.le_zero.1 ht)
    subst ht0
    exact ⟨fun _ => by decide, fun _ => by decide, fun _ => by decide⟩
  | succ n ih =>
    intro t ht
    cases t with
    | nil => exact ⟨fun _ => by decide, fun _ => by decide, fun _ => by decide⟩
    | cons c r =>
      have hlr : r.length ≤ n := by
        simp only [List.length_cons] at ht; omega
      have hN : GN (c :: r) = true →
          passAllFrom false (c :: r) = (c :: r) ++ ePad (c :: r) := by
        intro hGN
        by_cases hpu : punct6 c = true
        · cases r with
          | nil =>
            rw [peel_punct_nofire false c [] hpu rfl,
              show passAllFrom false [] = [] by decide,
              ePad_single c (punct6_ne_pipe c hpu)]
            simp
          | cons d r2 =>
            have hl2 : r2.length ≤ n := by
              simp only [List.length_cons] at ht; omega
            by_cases hd : d = '\''
            · subst hd
              have hGA : GA r2 = true := by
                simp only [GN] at hGN
                simpa [hpu] using hGN
              rw [peel_punct_apos false c r2 hpu, (ih r2 hl2).2.1 hGA,
                ePad_cons_or c _ (Or.inr (by simp))]
              simp
            · have hX : r2fires (d :: r2) = false ∧ GN (d :: r2) = true := by
                simp only [GN] at hGN
                rw [if_pos hpu, if_neg hd] at hGN
                have h2 := of_decide_eq_true hGN
                exact ⟨by simpa using h2.1, h2.2⟩
              rw [peel_punct_nofire false c _ hpu hX.1, (ih _ hlr).1 hX.2,
                ePad_cons_or c _ (Or.inr (by simp))]
              simp
        · by_cases hap : c = '\''
          · subst hap
            have hGA : GA r = true := by rw [← GN_apos]; exact hGN
            rw [peel_apos false r, (ih r hlr).2.1 hGA]
            simp
          · by_cases hpipe : c = '|'
            · exfalso; subst hpipe
              cases r with
              | nil => exact absurd hGN (by decide)
              | cons d r2 =>
                simp only [GN] at hGN
                rw [if_neg hpu, if_neg (by decide : ¬('|' = '\''))] at hGN
                simp at hGN
            · by_cases hws : pySpace c = true
              · cases r with
                | nil =>
                  exfalso
                  simp only [GN] at hGN
                  obtain ⟨h1, -⟩ := of_decide_eq_true hGN
                  exact h1 hws
                | cons d r2 =>
                  have hl2 : r2.length ≤ n := by
                    simp only [List.length_cons] at ht; omega
                  simp only [GN] at hGN
                  rw [if_neg hpu, if_neg (ws_ne_apos c hws),
                    if_neg (ws_ne_pipe c hws), if_pos hws] at hGN
                  by_cases hd : d = '|'
                  · rw [if_pos hd] at hGN
                    obtain ⟨hc', hGP⟩ := of_decide_eq_true hGN
                    subst hd; subst hc'
                    rw [peel_sp_pipe r2, (ih r2 hl2).2.2 hGP,
                      ePad_cons_or ' ' _ (Or.inr (by simp))]
                    simp
                  · rw [if_neg hd] at hGN
                    by_cases hdw : pySpace d = true
                    · rw [if_pos hdw] at hGN
                      obtain ⟨hpair, hGW⟩ := of_decide_eq_true hGN
                      obtain ⟨u, e, rr, hsplit, hne, hall, hnd, he1, he2,
                        he3, he4, hGNe⟩ := gw_run r2 d hdw hGW
                      obtain ⟨u'', rfl⟩ : ∃ u'', u = d :: u'' := by
                        cases u with
                        | nil => exact absurd rfl hne
                        | cons a u'' =>
                          have h2 := hsplit
                          simp only [List.cons_append, List.cons.injEq] at h2
                          exact ⟨u'', by rw [h2.1]⟩
                      have hr2eq : r2 = u'' ++ e :: rr := by
                        have h2 := hsplit
                        simp only [List.cons_append, List.cons.injEq] at h2
                        exact h2.2
                      have hndfull : noDbl ((c :: d :: u'') ++ [e]) = true := by
                        rw [List.cons_append]
                        refine noDbl_cons c d _ hpair ?_
                        simpa [List.cons_append] using hnd
                      have hallfull : (c :: d :: u'').all pySpace = true := by
                        rw [List.all_cons, hws, Bool.true_and]
                        simpa [List.all_cons] using hall
                      have hlen2 : (e :: rr).length ≤ n := by
                        subst hr2eq
                        simp only [List.length_cons, List.length_append] at ht ⊢
                        omega
                      have htt : c :: d :: r2 = (c :: d :: u'') ++ e :: rr := by
                        rw [hr2eq]; simp
                      rw [htt, peel_wsrun (c :: d :: u'') e rr hallfull hndfull
                        he1 he2 he3 he4, (ih (e :: rr) hlen2).1 hGNe,
                        ePad_append _ (e :: rr) (by simp)]
                      simp
                    · rw [if_neg hdw] at hGN
                      by_cases hdp : punct6 d = true ∨ d = '\''
                      · rw [if_pos hdp] at hGN; exact absurd hGN (by simp)
                      · rw [if_neg hdp] at hGN
                        push_neg at hdp
                        have hd1 : pySpace d = false := by simpa using hdw
                        have hnd1 : noDbl ([c] ++ [d]) = true :=
                          noDbl_append_single [c] d rfl (pySpace_char_ne d hd1)
                        rw [show c :: d :: r2 = [c] ++ d :: r2 from rfl,
                          peel_wsrun [c] d r2 (by simp [hws]) hnd1 hd1
                            (by simpa using hdp.1) hdp.2 hd,
                          (ih _ hlr).1 hGN,
                          ePad_append [c] _ (by simp)]
                        simp
              · have h1 : pySpace c = false := by simpa using hws
                have h2 : punct6 c = false := by simpa using hpu
                have hGNr : GN r = true := by
                  rw [← GN_plain c r h1 h2 hap hpipe]; exact hGN
                rw [peel_plain false c r h1 h2 hap hpipe, (ih r hlr).1 hGNr,
                  ePad_cons_or c r (Or.inl hpipe)]
                simp
      have hA : GA (c :: r) = true →
          passAllFrom true (c :: r) = (c :: r) ++ ePad ('\'' :: c :: r) := by
        intro hGA
        rw [ePad_cons_or '\'' _ (Or.inr (by simp))]
        by_cases hws : pySpace c = true
        · exfalso
          cases r with
          | nil =>
            simp only [GA] at hGA
            exact (of_decide_eq_true hGA) hws
          | cons d r2 =>
            simp only [GA] at hGA
            rw [if_pos hws] at hGA
            exact absurd hGA (by simp)
        · by_cases hap : c = '\''
          · subst hap
            have hGA' : GA r = true := by rw [← GA_apos]; exact hGA
            rw [peel_apos true r, (ih r hlr).2.1 hGA']
            simp
          · by_cases hpipe : c = '|'
            · subst hpipe
              have hGP : GP r = true := by rw [← GA_pipe]; exact hGA
              rw [peel_pipe_true r, (ih r hlr).2.2 hGP]
              simp
            · by_cases hpu : punct6 c = true
              · cases r with
                | nil =>
                  rw [peel_punct_nofire true c [] hpu rfl,
                    show passAllFrom false [] = [] by decide,
                    ePad_single c (punct6_ne_pipe c hpu)]
                  simp
                | cons d r2 =>
                  have hl2 : r2.length ≤ n := by
                    simp only [List.length_cons] at ht; omega
                  by_cases hd : d = '\''
                  · subst hd
                    have hGA2 : GA r2 = true := by
                      simp only [GA] at hGA
                      rw [if_neg hws, if_neg hap, if_neg hpipe,
                        if_pos hpu] at hGA
                      simpa using hGA
                    rw [peel_punct_apos true c r2 hpu, (ih r2 hl2).2.1 hGA2,
                      ePad_cons_or c _ (Or.inr (by simp))]
                    simp
                  · have hX : r2fires (d :: r2) = false ∧ GN (d :: r2) = true := by
                      simp only [GA] at hGA
                      rw [if_neg hws, if_neg hap, if_neg hpipe, if_pos hpu,
                        if_neg hd] at hGA
                      have h2 := of_decide_eq_true hGA
                      exact ⟨by simpa using h2.1, h2.2⟩
                    rw [peel_punct_nofire true c _ hpu hX.1, (ih _ hlr).1 hX.2,
                      ePad_cons_or c _ (Or.inr (by simp))]
                    simp
              · have h1 : pySpace c = false := by simpa using hws
                have h2 : punct6 c = false := by simpa using hpu
                have hGNr : GN r = true := by
                  cases r with
                  | nil => rfl
                  | cons d r2 =>
                    simp only [GA] at hGA
                    rw [if_neg hws, if_neg hap, if_neg hpipe,
                      if_neg (by simp [h2])] at hGA
                    exact hGA
                rw [peel_plain true c r h1 h2 hap hpipe, (ih r hlr).1 hGNr,
                  ePad_cons_or c r (Or.inl hpipe)]
                simp
      have hP : GP (c :: r) = true →
          passAfterPipe (c :: r) = (c :: r) ++ ePad ('|' :: c :: r) := by
        intro hGP
        rw [ePad_cons_or '|' _ (Or.inr (by simp))]
        by_cases hap : c = '\''
        · subst hap
          have hGA' : GA r = true := by
            cases r with
            | nil => rfl
            | cons d r2 =>
              simp only [GP] at hGP
              simpa using hGP
          rw [peelP_apos r, (ih r hlr).2.1 hGA']
          simp
        · by_cases hsp : c = ' '
          · subst hsp
            cases r with
            | nil => exact absurd hGP (by decide)
            | cons d r2 =>
              have hl2 : r2.length ≤ n := by
                simp only [List.length_cons] at ht; omega
              simp only [GP] at hGP
              rw [if_neg (by decide : ¬(' ' = '\''))] at hGP
              simp only [if_true] at hGP
              by_cases hd : d = '|'
              · subst hd
                rw [if_pos rfl] at hGP
                rw [peelP_sp_pipe r2, (ih r2 hl2).2.2 hGP,
                  ePad_cons_or ' ' _ (Or.inr (by simp))]
                simp
              · rw [if_neg hd] at hGP
                by_cases hdx : pySpace d = true ∨ d = '\''
                · rw [if_pos hdx] at hGP
                  exact absurd hGP (by simp)
                · rw [if_neg hdx] at hGP
                  push_neg at hdx
                  have hd1 : pySpace d = false := by simpa using hdx.1
                  by_cases hdpu : punct6 d = true
                  · cases r2 with
                    | nil =>
                      rw [peelP_sp_other d [] hd1 hdx.2 hd
                          (fun _ => rfl),
                        show passAllFrom false [] = [] by decide,
                        ePad_cons_or ' ' _ (Or.inr (by simp)),
                        ePad_single d (punct6_ne_pipe d hdpu)]
                      simp
                    | cons e2 r3 =>
                      have hl3 : r3.length ≤ n := by
                        simp only [List.length_cons] at ht; omega
                      by_cases he2 : e2 = '\''
                      · subst he2
                        have hGA3 : GA r3 = true := by
                          simp only [GN] at hGP
                          simpa [hdpu] using hGP
                        rw [peelP_sp_punct_apos d r3 hdpu,
                          (ih r3 hl3).2.1 hGA3,
                          ePad_cons_or ' ' _ (Or.inr (by simp)),
                          ePad_cons_or d _ (Or.inr (by simp))]
                        simp
                      · have hX : r2fires (e2 :: r3) = false ∧
                            GN (e2 :: r3) = true := by
                          simp only [GN] at hGP
                          simpa [hdpu, he2] using hGP
                        rw [peelP_sp_other d (e2 :: r3) hd1 hdx.2 hd
                            (fun _ => hX.1),
                          (ih (e2 :: r3) (by
                            simp only [List.length_cons] at ht ⊢; omega)).1 hX.2,
                          ePad_cons_or ' ' _ (Or.inr (by simp)),
                          ePad_cons_or d _ (Or.inr (by simp))]
                        simp
                  · have hd2 : punct6 d = false := by simpa using hdpu
                    have hGNr2 : GN r2 = true := by
                      rw [← GN_plain d r2 hd1 hd2 hdx.2 hd]; exact hGP
                    rw [peelP_sp_other d r2 hd1 hdx.2 hd
                        (fun hpp => absurd hpp (by simp [hd2])),
                      (ih r2 hl2).1 hGNr2,
                      ePad_cons_or ' ' _ (Or.inr (by simp)),
                      ePad_cons_or d r2 (Or.inl hd)]
                    simp
          · exfalso
            cases r with
            | nil =>
              simp only [GP] at hGP
              have h2 := of_decide_eq_true hGP
              exact hap h2
            | cons d r2 =>
              simp only [GP] at hGP
              rw [if_neg hap, if_neg hsp] at hGP
              exact absurd hGP (by simp)
      exact ⟨hN, hA, hP⟩

/-- On any string accepted by the clean grammar, the six passes produce
exactly the input padded with the boundary pipe spaces. -/
theorem passAll_of_GTop (b : List Char) (h : GTop b = true) :
    passAll b = paddedForm b := by
  cases b with
  | nil => decide
  | cons c r =>
    by_cases hws : pySpace c = true
    · exfalso
      simp only [GTop] at h
      rw [if_pos hws] at h
      exact absurd h (by simp)
    · have hws' : pySpace c = false := by simpa using hws
      by_cases hp : c = '|'
      · subst hp
        have hGP : GP r = true := by
          simp only [GTop] at h
          rw [if_neg hws] at h
          simpa using h
        have hpp := (cpB (r.length) r (Nat.le_refl _)).2.2 hGP
        rw [← passAllFrom_false, peel_pipe_false r, hpp]
        simp only [paddedForm]
        rw [if_pos (show ('|' :: r).head? = some '|' from rfl)]
        simp [ePad, List.append_assoc]
      · have hGN : GN (c :: r) = true := by
          simp only [GTop] at h
          rw [if_neg hws, if_neg hp] at h
          exact h
        have hpp := (cpB ((c :: r).length) (c :: r) (Nat.le_refl _)).1 hGN
        rw [← passAllFrom_false, hpp]
        simp only [paddedForm]
        rw [if_neg (show ¬((c :: r).head? = some '|') by simp [hp])]
        simp [ePad]

/-- The last character, if any, is not whitespace. -/
def lastNonWs (t : List Char) : Prop :=
  ∀ c, t.getLast? = some c → pySpace c = false

theorem lastNonWs_nil : lastNonWs [] := by
  intro c hc; cases hc

theorem lastNonWs_cons (c : Char) (r : List Char) (h : lastNonWs r)
    (hr : r ≠ []) : lastNonWs (c :: r) := by
  intro e he
  apply h e
  cases r with
  | nil => exact absurd rfl hr
  | cons d r2 => rwa [List.getLast?_cons_cons] at he

theorem lastNonWs_single (c : Char) (hc : pySpace c = false) :
    lastNonWs [c] := by
  intro e he
  simp only [List.getLast?_singleton, Option.some.injEq] at he
  rwa [he] at hc

/-- No string in the clean grammar ends in whitespace. -/
theorem cpEnds : ∀ n : Nat, ∀ t : List Char, t.length ≤ n →
    (GN t = true → lastNonWs t) ∧ (GW t = true → lastNonWs t) ∧
    (GA t = true → lastNonWs t) ∧ (GP t = true → lastNonWs t) := by
  intro n
  induction n with
  | zero =>
    intro t ht
    have ht0 : t = [] := List.length_eq_zero.1 (Nat.le_zero.1 ht)
    subst ht0
    exact ⟨fun _ => lastNonWs_nil, fun _ => lastNonWs_nil,
      fun _ => lastNonWs_nil, fun _ => lastNonWs_nil⟩
  | succ n ih =>
    intro t ht
    cases t with
    | nil =>
      exact ⟨fun _ => lastNonWs_nil, fun _ => lastNonWs_nil,
        fun _ => lastNonWs_nil, fun _ => lastNonWs_nil⟩
    | cons c r =>
      have hlr : r.length ≤ n := by
        simp only [List.length_cons] at ht; omega
      have hNC : GN r = true → lastNonWs r := (ih r hlr).1
      have hWC : GW r = true → lastNonWs r := (ih r hlr).2.1
      have hAC : GA r = true → lastNonWs r := (ih r hlr).2.2.1
      have hPC : GP r = true → lastNonWs r := (ih r hlr).2.2.2
      have hGAhelp : ∀ r2 : List Char, r = '\'' :: r2 → GA r2 = true →
          lastNonWs r := by
        intro r2 hr hGA2
        subst hr
        exact hAC (by rw [GA_apos]; exact hGA2)
      have hN : GN (c :: r) = true → lastNonWs (c :: r) := by
        intro hGN
        cases r with
        | nil =>
          simp only [GN] at hGN
          obtain ⟨h1, -⟩ := of_decide_eq_true hGN
          exact lastNonWs_single c (by simpa using h1)
        | cons d r2 =>
          refine lastNonWs_cons c (d :: r2) ?_ (by simp)
          simp only [GN] at hGN
          by_cases hpu : punct6 c = true
          · rw [if_pos hpu] at hGN
            by_cases hd : d = '\''
            · subst hd
              exact hGAhelp r2 rfl (by simpa using hGN)
            · rw [if_neg hd] at hGN
              exact hNC (of_decide_eq_true hGN).2
          · rw [if_neg hpu] at hGN
            by_cases hap : c = '\''
            · rw [if_pos hap] at hGN
              exact hAC hGN
            · rw [if_neg hap] at hGN
              by_cases hpipe : c = '|'
              · rw [if_pos hpipe] at hGN
                exact absurd hGN (by simp)
              · rw [if_neg hpipe] at hGN
                by_cases hws : pySpace c = true
                · rw [if_pos hws] at hGN
                  by_cases hd : d = '|'
                  · subst hd
                    rw [if_pos rfl] at hGN
                    obtain ⟨-, hGP⟩ := of_decide_eq_true hGN
                    cases r2 with
                    | nil => exact lastNonWs_single '|' (by decide)
                    | cons e r3 =>
                      refine lastNonWs_cons '|' (e :: r3) ?_ (by simp)
                      exact (ih (e :: r3) (by
                        simp only [List.length_cons] at ht ⊢; omega)).2.2.2 hGP
                  · rw [if_neg hd] at hGN
                    by_cases hdw : pySpace d = true
                    · rw [if_pos hdw] at hGN
                      exact hWC (of_decide_eq_true hGN).2
                    · rw [if_neg hdw] at hGN
                      by_cases hdx : punct6 d = true ∨ d = '\''
                      · rw [if_pos hdx] at hGN
                        exact absurd hGN (by simp)
                      · rw [if_neg hdx] at hGN
                        exact hNC hGN
                · rw [if_neg hws] at hGN
                  exact hNC hGN
      have hW : GW (c :: r) = true → lastNonWs (c :: r) := by
        intro hGW
        cases r with
        | nil => exact absurd hGW (by simp [GW])
        | cons d r2 =>
          refine lastNonWs_cons c (d :: r2) ?_ (by simp)
          simp only [GW] at hGW
          by_cases hd : d = '|'
          · rw [if_pos hd] at hGW
            exact absurd hGW (by simp)
          · rw [if_neg hd] at hGW
            by_cases hdw : pySpace d = true
            · rw [if_pos hdw] at hGW
              exact hWC (of_decide_eq_true hGW).2
            · rw [if_neg hdw] at hGW
              by_cases hdx : punct6 d = true ∨ d = '\''
              · rw [if_pos hdx] at hGW
                exact absurd hGW (by simp)
              · rw [if_neg hdx] at hGW
                exact hNC hGW
      have hA : GA (c :: r) = true → lastNonWs (c :: r) := by
        intro hGA
        cases r with
        | nil =>
          simp only [GA] at hGA
          exact lastNonWs_single c (by simpa using of_decide_eq_true hGA)
        | cons d r2 =>
          refine lastNonWs_cons c (d :: r2) ?_ (by simp)
          simp only [GA] at hGA
          by_cases hws : pySpace c = true
          · rw [if_pos hws] at hGA
            exact absurd hGA (by simp)
          · rw [if_neg hws] at hGA
            by_cases hap : c = '\''
            · rw [if_pos hap] at hGA
              exact hAC hGA
            · rw [if_neg hap] at hGA
              by_cases hpipe : c = '|'
              · rw [if_pos hpipe] at hGA
                exact hPC hGA
              · rw [if_neg hpipe] at hGA
                by_cases hpu : punct6 c = true
                · rw [if_pos hpu] at hGA
                  by_cases hd : d = '\''
                  · subst hd
                    exact hGAhelp r2 rfl (by simpa using hGA)
                  · rw [if_neg hd] at hGA
                    exact hNC (of_decide_eq_true hGA).2
                · rw [if_neg hpu] at hGA
                  exact hNC hGA
      have hP : GP (c :: r) = true → lastNonWs (c :: r) := by
        intro hGP
        cases r with
        | nil =>
          simp only [GP] at hGP
          have hc := of_decide_eq_true hGP
          subst hc
          exact lastNonWs_single '\'' (by decide)
        | cons d r2 =>
          refine lastNonWs_cons c (d :: r2) ?_ (by simp)
          simp only [GP] at hGP
          by_cases hap : c = '\''
          · rw [if_pos hap] at hGP
            exact hAC hGP
          · rw [if_neg hap] at hGP
            by_cases hsp : c = ' '
            · rw [if_pos hsp] at hGP
              by_cases hd : d = '|'
              · subst hd
                rw [if_pos rfl] at hGP
                cases r2 with
                | nil => exact lastNonWs_single '|' (by decide)
                | cons e r3 =>
                  refine lastNonWs_cons '|' (e :: r3) ?_ (by simp)
                  exact (ih (e :: r3) (by
                    simp only [List.length_cons] at ht ⊢; omega)).2.2.2 hGP
              · rw [if_neg hd] at hGP
                by_cases hdx : pySpace d = true ∨ d = '\''
                · rw [if_pos hdx] at hGP
                  exact absurd hGP (by simp)
                · rw [if_neg hdx] at hGP
                  exact hNC hGP
            · rw [if_neg hsp] at hGP
              exact absurd hGP (by simp)
      exact ⟨hN, hW, hA, hP⟩

/-- No string in the clean grammar ends in whitespace (top level). -/
theorem GTop_lastNonWs (b : List Char) (h : GTop b = true) : lastNonWs b := by
  cases b with
  | nil => exact lastNonWs_nil
  | cons c r =>
    simp only [GTop] at h
    by_cases hws : pySpace c = true
    · rw [if_pos hws] at h
      exact absurd h (by simp)
    · rw [if_neg hws] at h
      by_cases hp : c = '|'
      · rw [if_pos hp] at h
        subst hp
        cases r with
        | nil => exact lastNonWs_single '|' (by decide)
        | cons d r2 =>
          refine lastNonWs_cons '|' (d :: r2) ?_ (by simp)
          exact (cpEnds ((d :: r2).length) (d :: r2) (Nat.le_refl _)).2.2.2 h
      · rw [if_neg hp] at h
        exact (cpEnds ((c :: r).length) (c :: r) (Nat.le_refl _)).1 h

theorem dropWhile_reverse_of_lastNonWs (l : List Char) (h : lastNonWs l) :
    l.reverse.dropWhile pySpace = l.reverse := by
  cases hrev : l.reverse with
  | nil => rfl
  | cons a as =>
    have ha : l.getLast? = some a := by
      rw [← List.head?_reverse, hrev]; rfl
    rw [List.dropWhile_cons_of_neg (by simp [h a ha])]

theorem rstripL_of_lastNonWs (l : List Char) (h : lastNonWs l) :
    rstripL l = l := by
  rw [rstripL, dropWhile_reverse_of_lastNonWs l h, List.reverse_reverse]

theorem rstripL_of_lastNonWs_pad (l : List Char) (h : lastNonWs l) :
    rstripL (l ++ [' ']) = l := by
  rw [rstripL, List.reverse_append]
  show ((' ' :: l.reverse).dropWhile pySpace).reverse = l
  rw [List.dropWhile_cons_of_pos (by decide)]
  rw [dropWhile_reverse_of_lastNonWs l h, List.reverse_reverse]

/-- Stripping the padded form of a clean string recovers it. -/
theorem stripL_paddedForm (b : List Char) (h : GTop b = true) :
    stripL (paddedForm b) = b := by
  cases b with
  | nil => decide
  | cons c r =>
    have hc : pySpace c = false := by
      by_contra hcc
      have hcc' : pySpace c = true := by simpa using hcc
      simp only [GTop] at h
      rw [if_pos hcc'] at h
      exact absurd h (by simp)
    have hlast := GTop_lastNonWs (c :: r) h
    have hl : lstripL (paddedForm (c :: r)) =
        (c :: r) ++ (if (c :: r).getLast? = some '|' then [' '] else []) := by
      simp only [paddedForm, lstripL]
      by_cases hh : (c :: r).head? = some '|'
      · rw [if_pos hh]
        simp only [List.cons_append, List.nil_append]
        rw [List.dropWhile_cons_of_pos (by decide),
          List.dropWhile_cons_of_neg (by simp [hc])]
      · rw [if_neg hh]
        simp only [List.nil_append, List.cons_append]
        rw [List.dropWhile_cons_of_neg (by simp [hc])]
    rw [stripL, hl]
    by_cases hg : (c :: r).getLast? = some '|'
    · rw [if_pos hg]
      exact rstripL_of_lastNonWs_pad (c :: r) hlast
    · rw [if_neg hg]
      simp only [List.append_nil]
      exact rstripL_of_lastNonWs (c :: r) hlast

/-! Part A: the output of the six passes always lies in the clean
grammar.  Postconditions of passes 1 and 2. -/

/-- No whitespace character directly before a punctuation mark. -/
def noWsPunct : List Char → Bool
  | a :: b :: t => ¬(pySpace a = true ∧ punct6 b = true) ∧ noWsPunct (b :: t)
  | _ => true

/-- At every punctuation mark the pass-2 lookahead does not fire. -/
def noFireAll : List Char → Bool
  | [] => true
  | c :: t => (punct6 c = true → r2fires t = false) ∧ noFireAll t

theorem noWsPunct_tail (c : Char) (t : List Char)
    (h : noWsPunct (c :: t) = true) : noWsPunct t = true := by
  cases t with
  | nil => rfl
  | cons d t2 =>
    simp only [noWsPunct] at h
    exact (of_decide_eq_true h).2

theorem noFireAll_tail (c : Char) (t : List Char)
    (h : noFireAll (c :: t) = true) : noFireAll t = true := by
  simp only [noFireAll] at h
  exact (of_decide_eq_true h).2

theorem noFireAll_head (c : Char) (t : List Char)
    (h : noFireAll (c :: t) = true) (hc : punct6 c = true) :
    r2fires t = false := by
  simp only [noFireAll] at h
  exact (of_decide_eq_true h).1 hc

theorem noWsPunct_intro (c : Char) (t : List Char) (h : noWsPunct t = true)
    (hc : ∀ d, t.head? = some d → ¬(pySpace c = true ∧ punct6 d = true)) :
    noWsPunct (c :: t) = true := by
  cases t with
  | nil => rfl
  | cons d t2 =>
    simp only [noWsPunct]
    exact decide_eq_true ⟨hc d rfl, h⟩

theorem noWsPunct_cons_nonws (c : Char) (X : List Char)
    (hc : pySpace c = false) (h : noWsPunct X = true) :
    noWsPunct (c :: X) = true := by
  refine noWsPunct_intro c X h ?_
  intro d hd hcd
  rw [hcd.1] at hc
  exact absurd hc (by simp)

theorem noWsPunct_allws (w : List Char) (hw : w.all pySpace = true) :
    noWsPunct w = true := by
  induction w with
  | nil => rfl
  | cons x w ih =>
    simp only [List.all_cons, Bool.and_eq_true] at hw
    refine noWsPunct_intro x w (ih hw.2) ?_
    intro d hd hcd
    have hdw : pySpace d = true := by
      have hmem : d ∈ w := by
        cases w with
        | nil => cases hd
        | cons y t => cases hd; exact List.mem_cons_self _ _
      exact (List.all_eq_true.1 hw.2) d hmem
    rw [ws_not_punct d hdw] at hcd
    exact absurd hcd.2 (by simp)

theorem noWsPunct_ws_append (w : List Char) (c : Char) (X : List Char)
    (hw : w.all pySpace = true) (hc : punct6 c = false)
    (h : noWsPunct (c :: X) = true) : noWsPunct (w ++ c :: X) = true := by
  induction w with
  | nil => exact h
  | cons x w ih =>
    simp only [List.all_cons, Bool.and_eq_true] at hw
    rw [List.cons_append]
    refine noWsPunct_intro x _ (ih hw.2) ?_
    intro d hd hcd
    cases w with
    | nil =>
      simp only [List.nil_append, List.head?, Option.some.injEq] at hd
      rw [hd] at hc
      exact absurd hcd.2 (by simp [hc])
    | cons y t =>
      simp only [List.cons_append, List.head?, Option.some.injEq] at hd
      have hdw : pySpace d = true := by
        rw [← hd]
        exact (List.all_eq_true.1 hw.2) y (List.mem_cons_self _ _)
      rw [ws_not_punct d hdw] at hcd
      exact absurd hcd.2 (by simp)

/-- Postcondition of pass 1: no whitespace before punctuation. -/
theorem noWsPunct_dwb : ∀ (cs pend : List Char), pend.all pySpace = true →
    noWsPunct (delWsBeforeAux punct6 pend cs) = true := by
  intro cs
  induction cs with
  | nil =>
    intro pend hp
    rw [dwb_nil]
    exact noWsPunct_allws _ (by simpa using hp)
  | cons c cs ih =>
    intro pend hp
    by_cases hws : pySpace c = true
    · rw [dwb_ws punct6 pend c cs hws]
      exact ih (c :: pend) (by simp [hws, hp])
    · have hws' : pySpace c = false := by simpa using hws
      by_cases hpc : punct6 c = true
      · rw [dwb_P punct6 pend c cs hws' hpc]
        exact noWsPunct_cons_nonws c _ hws' (ih [] rfl)
      · have hpc' : punct6 c = false := by simpa using hpc
        rw [dwb_other punct6 pend c cs hws' hpc']
        exact noWsPunct_ws_append pend.reverse c _ (by simpa using hp) hpc'
          (noWsPunct_cons_nonws c _ hws' (ih [] rfl))

theorem noWsPunct_r1 (cs : List Char) :
    noWsPunct (delWsBeforePunct cs) = true :=
  noWsPunct_dwb cs [] rfl

theorem isp_head (l : List Char) :
    (insSpaceAfterPunct l).head? = l.head? := by
  cases l with
  | nil => rfl
  | cons c cs =>
    by_cases h : punct6 c = true ∧ r2fires cs = true
    · rw [isp_fire c cs h.1 h.2]; rfl
    · by_cases hp : punct6 c = true
      · have hf : r2fires cs = false := by
          by_contra hff
          exact h ⟨hp, by simpa using hff⟩
        rw [isp_nofire c cs hf]; rfl
      · rw [isp_nopunct c cs (by simpa using hp)]; rfl

/-- Pass 2 preserves the pass-1 postcondition. -/
theorem noWsPunct_isp : ∀ cs : List Char, noWsPunct cs = true →
    noWsPunct (insSpaceAfterPunct cs) = true := by
  intro cs
  induction cs with
  | nil => intro h; exact h
  | cons c cs ih =>
    intro h
    have htl := ih (noWsPunct_tail c cs h)
    have hpair : ∀ d, cs.head? = some d →
        ¬(pySpace c = true ∧ punct6 d = true) := by
      intro d hd hcd
      cases cs with
      | nil => cases hd
      | cons e t =>
        simp only [List.head?, Option.some.injEq] at hd
        subst hd
        simp only [noWsPunct] at h
        exact (of_decide_eq_true h).1 hcd
    by_cases hfi : punct6 c = true ∧ r2fires cs = true
    · rw [isp_fire c cs hfi.1 hfi.2]
      refine noWsPunct_cons_nonws c _ (punct6_not_space c hfi.1) ?_
      refine noWsPunct_intro ' ' _ htl ?_
      intro d hd hcd
      rw [isp_head] at hd
      cases cs with
      | nil => cases hd
      | cons e t =>
        simp only [List.head?, Option.some.injEq] at hd
        subst hd
        have hfi2 := hfi.2
        simp only [r2fires] at hfi2
        obtain ⟨-, -, h3, -⟩ := of_decide_eq_true hfi2
        exact absurd hcd.2 (by simpa using h3)
    · have hnof : insSpaceAfterPunct (c :: cs) = c :: insSpaceAfterPunct cs := by
        by_cases hp : punct6 c = true
        · have hf : r2fires cs = false := by
            by_contra hff
            exact hfi ⟨hp, by simpa using hff⟩
          exact isp_nofire c cs hf
        · exact isp_nopunct c cs (by simpa using hp)
      rw [hnof]
      refine noWsPunct_intro c _ htl ?_
      intro d hd
      rw [isp_head] at hd
      exact hpair d hd

theorem isp_cons_shape (d : Char) (r : List Char) :
    ∃ X, insSpaceAfterPunct (d :: r) = d :: X := by
  by_cases h : punct6 d = true ∧ r2fires r = true
  · exact ⟨' ' :: insSpaceAfterPunct r, isp_fire d r h.1 h.2⟩
  · by_cases hp : punct6 d = true
    · have hf : r2fires r = false := by
        by_contra hff
        exact h ⟨hp, by simpa using hff⟩
      exact ⟨insSpaceAfterPunct r, isp_nofire d r hf⟩
    · exact ⟨insSpaceAfterPunct r, isp_nopunct d r (by simpa using hp)⟩

/-- If the lookahead does not fire on a suffix, it does not fire on
that suffix after pass 2 has inserted its spaces. -/
theorem r2fires_isp_false (r : List Char) (h : r2fires r = false) :
    r2fires (insSpaceAfterPunct r) = false := by
  cases r with
  | nil => rfl
  | cons d rest =>
    obtain ⟨X, hX⟩ := isp_cons_shape d rest
    by_cases hws : pySpace d = true
    · rw [hX]; exact r2fires_head_ws d X hws
    · by_cases hdg : pyDigit d = true
      · rw [hX]; exact r2fires_head_digit d X hdg
      · by_cases hpu : punct6 d = true
        · rw [hX]; exact r2fires_head_punct d X hpu
        · have hext : extParen (d :: rest) = true := by
            have hx := h
            simp only [r2fires, (by simpa using hws : pySpace d = false),
              hdg, hpu] at hx
            simpa using hx
          obtain ⟨k, u, tail, hk, hsplit, hlen, hlow⟩ :=
            extParen_elim (d :: rest) hext
          have hres : insSpaceAfterPunct (d :: rest) =
              u ++ ')' :: insSpaceAfterPunct tail := by
            rw [hsplit, isp_append_nopunct u _ (List.all_eq_true.2
              (fun c hcm => decide_eq_true (lowerAZ_not_punct c
                ((List.all_eq_true.1 hlow) c hcm)))),
              isp_nopunct ')' tail (by decide)]
          have hext2 : extParen (insSpaceAfterPunct (d :: rest)) = true := by
            rw [hres]; exact extParen_intro k u _ hk hlen hlow
          cases hform : insSpaceAfterPunct (d :: rest) with
          | nil => rfl
          | cons e etail =>
            rw [hform] at hext2
            simp [r2fires, hext2]

theorem noFireAll_intro (c : Char) (t : List Char)
    (h1 : punct6 c = true → r2fires t = false) (h2 : noFireAll t = true) :
    noFireAll (c :: t) = true := by
  simp only [noFireAll]
  exact decide_eq_true ⟨h1, h2⟩

/-- Postcondition of pass 2: no punctuation mark is left with a firing
lookahead. -/
theorem noFireAll_isp : ∀ cs : List Char,
    noFireAll (insSpaceAfterPunct cs) = true := by
  intro cs
  induction cs with
  | nil => rfl
  | cons c cs ih =>
    by_cases hfi : punct6 c = true ∧ r2fires cs = true
    · rw [isp_fire c cs hfi.1 hfi.2]
      refine noFireAll_intro c _ (fun _ => ?_) (noFireAll_intro ' ' _
        (fun hsp => absurd hsp (by decide)) ih)
      exact r2fires_head_ws ' ' _ (by decide)
    · by_cases hp : punct6 c = true
      · have hf : r2fires cs = false := by
          by_contra hff
          exact hfi ⟨hp, by simpa using hff⟩
        rw [isp_nofire c cs hf]
        exact noFireAll_intro c _ (fun _ => r2fires_isp_false cs hf) ih
      · rw [isp_nopunct c cs (by simpa using hp)]
        exact noFireAll_intro c _ (fun hpp => absurd hpp hp) ih

/-- Passes 3 to 6, with the pass-5 flag as parameter. -/
def A3 (b : Bool) (cs : List Char) : List Char :=
  delWsBeforeApos (delWsAfterAposAux b (collapseAux false (pipeNormAux [] cs)))

/-- Passes 3 to 6, with pass 3 in its after-pipe state. -/
def APipe (cs : List Char) : List Char :=
  delWsBeforeApos (delWsAfterAposAux false (collapseAux false (pipeTail cs)))

theorem passAllFrom_A3 (b : Bool) (cs : List Char) :
    passAllFrom b cs = A3 b (insSpaceAfterPunct (delWsBeforePunct cs)) := rfl

theorem ca_split (w : List Char) (e : Char) (Z : List Char)
    (hall : w.all pySpace = true) (he : e ≠ ' ') : ∀ b : Bool,
    collapseAux b (w ++ e :: Z) = collapseAux b w ++ e :: collapseAux false Z := by
  induction w with
  | nil =>
    intro b
    rw [List.nil_append, ca_other b e Z he]
    rfl
  | cons x w ih =>
    intro b
    simp only [List.all_cons, Bool.and_eq_true] at hall
    by_cases hx : x = ' '
    · subst hx
      cases b with
      | true => rw [List.cons_append, ca_sp_true, ca_sp_true, ih hall.2]
      | false =>
        rw [List.cons_append, ca_sp_false, ca_sp_false, ih hall.2 true,
          List.cons_append]
    · rw [List.cons_append, ca_other b x _ hx, ca_other b x _ hx,
        ih hall.2 false, List.cons_append]

theorem ca_all_ws (w : List Char) (hall : w.all pySpace = true) :
    ∀ b : Bool, (collapseAux b w).all pySpace = true := by
  induction w with
  | nil => intro b; rfl
  | cons x w ih =>
    intro b
    simp only [List.all_cons, Bool.and_eq_true] at hall
    by_cases hx : x = ' '
    · subst hx
      cases b with
      | true => rw [ca_sp_true]; exact ih hall.2 true
      | false =>
        rw [ca_sp_false]
        simp only [List.all_cons, Bool.and_eq_true]
        exact ⟨by decide, ih hall.2 true⟩
    · rw [ca_other b x _ hx]
      simp only [List.all_cons, Bool.and_eq_true]
      exact ⟨hall.1, ih hall.2 false⟩

theorem ca_nonempty (x : Char) (w : List Char) :
    collapseAux false (x :: w) ≠ [] := by
  by_cases hx : x = ' '
  · subst hx; rw [ca_sp_false]; simp
  · rw [ca_other false x _ hx]; simp

theorem ca_true_head : ∀ (l : List Char) (c : Char),
    (collapseAux true l).head? = some c → c ≠ ' ' := by
  intro l
  induction l with
  | nil => intro c hc; cases hc
  | cons x w ih =>
    intro c hc
    by_cases hx : x = ' '
    · subst hx; rw [ca_sp_true] at hc; exact ih c hc
    · rw [ca_other true x _ hx] at hc
      simp only [List.head?, Option.some.injEq] at hc
      rw [← hc]; exact hx

theorem noDbl_cons2 (c : Char) (X : List Char)
    (h : ∀ a, X.head? = some a → ¬(c = ' ' ∧ a = ' '))
    (hX : noDbl X = true) : noDbl (c :: X) = true := by
  cases X with
  | nil => rfl
  | cons a t =>
    simp only [noDbl]
    exact decide_eq_true ⟨h a rfl, hX⟩

theorem ca_noDbl (e : Char) (he : e ≠ ' ') : ∀ (l : List Char) (b : Bool),
    noDbl (collapseAux b l ++ [e]) = true := by
  intro l
  induction l with
  | nil => intro b; rfl
  | cons x w ih =>
    intro b
    by_cases hx : x = ' '
    · subst hx
      cases b with
      | true => rw [ca_sp_true]; exact ih true
      | false =>
        rw [ca_sp_false, List.cons_append]
        refine noDbl_cons2 ' ' _ ?_ (ih true)
        intro a ha hsp
        cases hc : collapseAux true w with
        | nil =>
          rw [hc] at ha
          simp only [List.nil_append, List.head?, Option.some.injEq] at ha
          exact he (by rw [ha]; exact hsp.2)
        | cons y t =>
          rw [hc] at ha
          simp only [List.cons_append, List.head?, Option.some.injEq] at ha
          refine absurd ?_ (ca_true_head w y (by rw [hc]; rfl))
          rw [ha]; exact hsp.2
    · rw [ca_other b x _ hx, List.cons_append]
      refine noDbl_cons2 x _ ?_ (ih false)
      intro a ha hsp
      exact hx hsp.1

theorem da_wsrun_true (w X : List Char) (hall : w.all pySpace = true) :
    delWsAfterAposAux true (w ++ X) = delWsAfterAposAux true X := by
  induction w with
  | nil => rfl
  | cons x w ih =>
    simp only [List.all_cons, Bool.and_eq_true] at hall
    rw [List.cons_append, da_skip x _ hall.1, ih hall.2]

theorem pt_wsrun (w r : List Char) (hall : w.all pySpace = true) :
    pipeTail (w ++ r) = pipeTail r := by
  induction w with
  | nil => rfl
  | cons x w ih =>
    simp only [List.all_cons, Bool.and_eq_true] at hall
    rw [List.cons_append, pt_ws x _ hall.1, ih hall.2]

/-! Peel equations for the pass 3-6 composite. -/

theorem pA_plain (b : Bool) (c : Char) (r : List Char)
    (h1 : pySpace c = false) (h3 : c ≠ '\'') (h4 : c ≠ '|') :
    A3 b (c :: r) = c :: A3 false r := by
  simp only [A3, delWsBeforeApos]
  rw [pn_cons_other c _ h1 h4, ca_other false c _ (pySpace_char_ne c h1),
    da_nonws_na b c _ h1 h3, dwb_cons_nonws aposP c _ h1]

theorem pA_apos (b : Bool) (r : List Char) :
    A3 b ('\'' :: r) = '\'' :: A3 true r := by
  simp only [A3, delWsBeforeApos]
  rw [pn_cons_other '\'' _ (by decide) (by decide),
    ca_other false '\'' _ (by decide), da_nonws_apos b _,
    dwb_P aposP [] '\'' _ (by decide) (by decide)]

theorem pA_pipe_false (r : List Char) :
    A3 false ('|' :: r) = ' ' :: '|' :: APipe r := by
  simp only [A3, APipe, delWsBeforeApos]
  rw [pn_pipe [] _, ca_sp_false, ca_other true '|' _ (by decide),
    da_ws_false ' ' _ (by decide),
    da_nonws_na false '|' _ (by decide) (by decide),
    dwb_ws aposP [] ' ' _ (by decide),
    dwb_other aposP [' '] '|' _ (by decide) (by decide)]
  rfl

theorem pA_pipe_true (r : List Char) :
    A3 true ('|' :: r) = '|' :: APipe r := by
  simp only [A3, APipe, delWsBeforeApos]
  rw [pn_pipe [] _, ca_sp_false, ca_other true '|' _ (by decide),
    da_skip ' ' _ (by decide),
    da_nonws_na true '|' _ (by decide) (by decide),
    dwb_cons_nonws aposP '|' _ (by decide)]

theorem pA_wsrun_plain (w : List Char) (e : Char) (r : List Char)
    (hall : w.all pySpace = true) (h1 : pySpace e = false)
    (h3 : e ≠ '\'') (h4 : e ≠ '|') :
    A3 false (w ++ e :: r) =
      collapseAux false w ++ e :: A3 false r := by
  simp only [A3, delWsBeforeApos]
  rw [pn_run_flush w e _ hall h1 h4,
    ca_split w e _ hall (pySpace_char_ne e h1) false,
    da_wsrun_false _ _ (ca_all_ws w hall false),
    da_nonws_na false e _ h1 h3,
    dwb_run_flush aposP _ e _ (ca_all_ws w hall false) h1 (aposP_false e h3)]

theorem pA_wsrun_apos (w r : List Char) (hall : w.all pySpace = true) :
    A3 false (w ++ '\'' :: r) = '\'' :: A3 true r := by
  simp only [A3, delWsBeforeApos]
  rw [pn_run_flush w '\'' _ hall (by decide) (by decide),
    ca_split w '\'' _ hall (by decide) false,
    da_wsrun_false _ _ (ca_all_ws w hall false), da_nonws_apos false _,
    dwb_run_del aposP _ '\'' _ (ca_all_ws w hall false) (by decide) (by decide)]

theorem pA_wsrun_pipe (w r : List Char) (hall : w.all pySpace = true) :
    A3 false (w ++ '|' :: r) = ' ' :: '|' :: APipe r := by
  simp only [A3, APipe, delWsBeforeApos]
  rw [pn_acc w hall [] _, pn_pipe _ _, ca_sp_false,
    ca_other true '|' _ (by decide), da_ws_false ' ' _ (by decide),
    da_nonws_na false '|' _ (by decide) (by decide),
    dwb_ws aposP [] ' ' _ (by decide),
    dwb_other aposP [' '] '|' _ (by decide) (by decide)]
  rfl

theorem da_allws_false (w : List Char) (hall : w.all pySpace = true) :
    delWsAfterAposAux false w = w := by
  have h := da_wsrun_false w [] hall
  simpa [delWsAfterAposAux] using h

theorem dwb_allws (P : Char → Bool) (w : List Char)
    (hall : w.all pySpace = true) : delWsBeforeAux P [] w = w := by
  have h := dwb_acc P w hall [] []
  rw [dwb_nil] at h
  simpa using h

theorem pn_allws (w : List Char) (hall : w.all pySpace = true) :
    pipeNormAux [] w = w := by
  have h := pn_acc w hall [] []
  rw [pn_nil] at h
  simpa using h

theorem pA_allws_false (w : List Char) (hall : w.all pySpace = true) :
    A3 false w = collapseAux false w := by
  simp only [A3, delWsBeforeApos]
  rw [pn_allws w hall, da_allws_false _ (ca_all_ws w hall false),
    dwb_allws aposP _ (ca_all_ws w hall false)]

theorem pA_wsrun_plain_true (w : List Char) (e : Char) (r : List Char)
    (hall : w.all pySpace = true) (h1 : pySpace e = false)
    (h3 : e ≠ '\'') (h4 : e ≠ '|') :
    A3 true (w ++ e :: r) = e :: A3 false r := by
  simp only [A3, delWsBeforeApos]
  rw [pn_run_flush w e _ hall h1 h4,
    ca_split w e _ hall (pySpace_char_ne e h1) false,
    da_wsrun_true _ _ (ca_all_ws w hall false),
    da_nonws_na true e _ h1 h3, dwb_cons_nonws aposP e _ h1]

theorem pA_wsrun_apos_true (w r : List Char) (hall : w.all pySpace = true) :
    A3 true (w ++ '\'' :: r) = '\'' :: A3 true r := by
  simp only [A3, delWsBeforeApos]
  rw [pn_run_flush w '\'' _ hall (by decide) (by decide),
    ca_split w '\'' _ hall (by decide) false,
    da_wsrun_true _ _ (ca_all_ws w hall false), da_nonws_apos true _,
    dwb_P aposP [] '\'' _ (by decide) (by decide)]

theorem pA_wsrun_pipe_true (w r : List Char) (hall : w.all pySpace = true) :
    A3 true (w ++ '|' :: r) = '|' :: APipe r := by
  simp only [A3, APipe, delWsBeforeApos]
  rw [pn_acc w hall [] _, pn_pipe _ _, ca_sp_false,
    ca_other true '|' _ (by decide), da_skip ' ' _ (by decide),
    da_nonws_na true '|' _ (by decide) (by decide),
    dwb_cons_nonws aposP '|' _ (by decide)]

theorem pA_allws_true (w : List Char) (hall : w.all pySpace = true) :
    A3 true w = [] := by
  simp only [A3, delWsBeforeApos]
  rw [pn_allws w hall]
  have h := da_wsrun_true (collapseAux false w) [] (ca_all_ws w hall false)
  rw [List.append_nil] at h
  rw [h]
  rfl

theorem pAP_nil : APipe [] = [' '] := by decide

theorem pAP_wsrun (w r : List Char) (hall : w.all pySpace = true) :
    APipe (w ++ r) = APipe r := by
  simp only [APipe]
  rw [pt_wsrun w r hall]

theorem pAP_plain (e : Char) (r : List Char) (h1 : pySpace e = false)
    (h3 : e ≠ '\'') (h4 : e ≠ '|') :
    APipe (e :: r) = ' ' :: e :: A3 false r := by
  simp only [A3, APipe, delWsBeforeApos]
  rw [pt_other e _ h1 h4, ca_sp_false,
    ca_other true e _ (pySpace_char_ne e h1), da_ws_false ' ' _ (by decide),
    da_nonws_na false e _ h1 h3, dwb_ws aposP [] ' ' _ (by decide),
    dwb_other aposP [' '] e _ h1 (aposP_false e h3)]
  rfl

theorem pAP_apos (r : List Char) :
    APipe ('\'' :: r) = '\'' :: A3 true r := by
  simp only [A3, APipe, delWsBeforeApos]
  rw [pt_other '\'' _ (by decide) (by decide), ca_sp_false,
    ca_other true '\'' _ (by decide), da_ws_false ' ' _ (by decide),
    da_nonws_apos false _, dwb_ws aposP [] ' ' _ (by decide),
    dwb_P aposP [' '] '\'' _ (by decide) (by decide)]

theorem pAP_pipe (r : List Char) :
    APipe ('|' :: r) = ' ' :: '|' :: APipe r := by
  simp only [APipe, delWsBeforeApos]
  rw [pt_pipe _, ca_sp_false, ca_sp_true, ca_other true '|' _ (by decide),
    da_ws_false ' ' _ (by decide),
    da_nonws_na false '|' _ (by decide) (by decide),
    dwb_ws aposP [] ' ' _ (by decide),
    dwb_other aposP [' '] '|' _ (by decide) (by decide)]
  rfl

theorem dropWhile_append_stop {p : Char → Bool} (e : Char)
    (he : p e = false) : ∀ A B : List Char,
    (A ++ e :: B).dropWhile p = A.dropWhile p ++ e :: B := by
  intro A
  induction A with
  | nil =>
    intro B
    rw [List.nil_append, List.dropWhile_cons_of_neg (by simp [he])]
    rfl
  | cons a A ih =>
    intro B
    by_cases ha : p a = true
    · rw [List.cons_append, List.dropWhile_cons_of_pos ha,
        List.dropWhile_cons_of_pos ha, ih B]
    · rw [List.cons_append, List.dropWhile_cons_of_neg (by simpa using ha),
        List.dropWhile_cons_of_neg (by simpa using ha), List.cons_append]

theorem rstripL_before_nonws (w : List Char) (e : Char) (X : List Char)
    (he : pySpace e = false) :
    rstripL (w ++ e :: X) = w ++ e :: rstripL X := by
  simp only [rstripL]
  rw [show (w ++ e :: X).reverse = X.reverse ++ e :: w.reverse by simp,
    dropWhile_append_stop e he X.reverse w.reverse]
  simp

theorem rstripL_cons_nonws (c : Char) (X : List Char)
    (hc : pySpace c = false) : rstripL (c :: X) = c :: rstripL X := by
  have h := rstripL_before_nonws [] c X hc
  simpa using h

theorem rstripL_allws (w : List Char) (hall : w.all pySpace = true) :
    rstripL w = [] := by
  simp only [rstripL]
  rw [List.dropWhile_eq_nil_iff.2 (fun x hx => (List.all_eq_true.1 hall) x
    (List.mem_reverse.1 hx))]
  rfl

/-! Arm introduction and equation lemmas for the grammar, and suffix
stability of the pass-2 postconditions. -/

theorem noFireAll_suffix : ∀ u s : List Char,
    noFireAll (u ++ s) = true → noFireAll s = true := by
  intro u
  induction u with
  | nil => intro s h; exact h
  | cons x u ih =>
    intro s h
    exact ih s (noFireAll_tail x _ h)

theorem noWsPunct_suffix : ∀ u s : List Char,
    noWsPunct (u ++ s) = true → noWsPunct s = true := by
  intro u
  induction u with
  | nil => intro s h; exact h
  | cons x u ih =>
    intro s h
    exact ih s (noWsPunct_tail x _ h)

theorem GA_eq_GN (c : Char) (r : List Char) (h1 : pySpace c = false)
    (h3 : c ≠ '\'') (h4 : c ≠ '|') : GA (c :: r) = GN (c :: r) := by
  cases r with
  | nil => simp [GA, GN, h1, h4]
  | cons d r2 =>
    by_cases hpu : punct6 c = true <;> simp [GA, GN, h1, h3, h4, hpu]

theorem GN_punct_intro (p : Char) (T : List Char) (hp : punct6 p = true)
    (hGN : GN T = true)
    (hf : r2fires T = false ∨ T.head? = some '\'') : GN (p :: T) = true := by
  cases T with
  | nil => simp [GN, punct6_not_space p hp, punct6_ne_pipe p hp]
  | cons d T2 =>
    by_cases hd : d = '\''
    · subst hd
      rw [GN_apos] at hGN
      simp [GN, hp, hGN]
    · have hff : r2fires (d :: T2) = false := by
        rcases hf with hf | hf
        · exact hf
        · simp only [List.head?, Option.some.injEq] at hf
          exact absurd hf hd
      simp [GN, hp, hd, hff, hGN]

theorem GN_sp_pipe (R : List Char) : GN (' ' :: '|' :: R) = GP R := by
  simp [GN, show pySpace ' ' = true by decide,
    show punct6 ' ' = false by decide, show (' ' : Char) ≠ '\'' by decide,
    show (' ' : Char) ≠ '|' by decide]

theorem GP_apos (R : List Char) : GP ('\'' :: R) = GA R := by
  cases R with
  | nil => decide
  | cons d r2 => simp [GP]

theorem GP_sp_pipe (R : List Char) : GP (' ' :: '|' :: R) = GP R := by
  simp [GP, show (' ' : Char) ≠ '\'' by decide]

theorem GP_sp_other (e : Char) (R : List Char) (h1 : pySpace e = false)
    (h3 : e ≠ '\'') (h4 : e ≠ '|') :
    GP (' ' :: e :: R) = GN (e :: R) := by
  simp [GP, show (' ' : Char) ≠ '\'' by decide, h1, h3, h4]

theorem GW_wsrun_intro : ∀ (u : List Char) (x e : Char) (R : List Char),
    u.all pySpace = true → noDbl (x :: u ++ [e]) = true →
    pySpace e = false → punct6 e = false → e ≠ '\'' → e ≠ '|' →
    GN (e :: R) = true → GW (x :: u ++ e :: R) = true := by
  intro u
  induction u with
  | nil =>
    intro x e R hall hnd h1 h2 h3 h4 hGN
    simp [GW, h1, h2, h3, h4, hGN]
  | cons y u ih =>
    intro x e R hall hnd h1 h2 h3 h4 hGN
    simp only [List.all_cons, Bool.and_eq_true] at hall
    have hrec := ih y e R hall.2 (by
      simp only [List.cons_append, noDbl] at hnd
      exact (of_decide_eq_true hnd).2) h1 h2 h3 h4 hGN
    have hpair : ¬(x = ' ' ∧ y = ' ') := by
      simp only [List.cons_append, noDbl] at hnd
      exact (of_decide_eq_true hnd).1
    show GW (x :: (y :: u) ++ e :: R) = true
    simp only [List.cons_append] at hrec ⊢
    simp [GW, hall.1, ws_ne_pipe y hall.1, hpair, hrec]

theorem GN_wsrun_intro (u : List Char) (e : Char) (R : List Char)
    (hne : u ≠ []) (hall : u.all pySpace = true)
    (hnd : noDbl (u ++ [e]) = true) (h1 : pySpace e = false)
    (h2 : punct6 e = false) (h3 : e ≠ '\'') (h4 : e ≠ '|')
    (hGN : GN (e :: R) = true) : GN (u ++ e :: R) = true := by
  cases u with
  | nil => exact absurd rfl hne
  | cons x u' =>
    simp only [List.all_cons, Bool.and_eq_true] at hall
    cases u' with
    | nil =>
      simp only [List.cons_append, List.nil_append]
      simp [GN, hall.1, ws_not_punct x hall.1, ws_ne_apos x hall.1,
        ws_ne_pipe x hall.1, h1, h2, h3, h4, hGN]
    | cons y u'' =>
      have hyws : pySpace y = true := by
        simp only [List.all_cons, Bool.and_eq_true] at hall
        exact hall.2.1
      have hGW := GW_wsrun_intro u'' y e R (by
          simp only [List.all_cons, Bool.and_eq_true] at hall
          exact hall.2.2) (by
          simp only [List.cons_append, noDbl] at hnd
          have h2' := (of_decide_eq_true hnd).2
          simpa [List.cons_append] using h2') h1 h2 h3 h4 hGN
      have hpair : ¬(x = ' ' ∧ y = ' ') := by
        simp only [List.cons_append, noDbl] at hnd
        exact (of_decide_eq_true hnd).1
      simp only [List.cons_append] at hGW ⊢
      simp [GN, hall.1, ws_not_punct x hall.1, ws_ne_apos x hall.1,
        ws_ne_pipe x hall.1, hyws, ws_ne_pipe y hyws, hpair, hGW]

theorem noWsPunct_run_punct (w : List Char) (e : Char) (r : List Char)
    (hne : w ≠ []) (hall : w.all pySpace = true)
    (h : noWsPunct (w ++ e :: r) = true) : punct6 e = false := by
  induction w with
  | nil => exact absurd rfl hne
  | cons x w ih =>
    simp only [List.all_cons, Bool.and_eq_true] at hall
    cases w with
    | nil =>
      simp only [List.nil_append, List.cons_append, noWsPunct] at h
      have h2 := (of_decide_eq_true h).1
      by_contra hp
      exact h2 ⟨hall.1, by simpa using hp⟩
    | cons y w' =>
      refine ih (by simp) hall.2 ?_
      simp only [List.cons_append, noWsPunct] at h ⊢
      exact (of_decide_eq_true h).2

theorem takeWhile_all_ws (l : List Char) :
    (l.takeWhile pySpace).all pySpace = true := by
  induction l with
  | nil => rfl
  | cons c t ih =>
    by_cases hc : pySpace c = true
    · rw [List.takeWhile_cons_of_pos hc]
      simp [hc, ih]
    · rw [List.takeWhile_cons_of_neg (by simpa using hc)]
      rfl

theorem head_dropWhile_ws (l : List Char) :
    ∀ c, (l.dropWhile pySpace).head? = some c → pySpace c = false := by
  induction l with
  | nil => intro c hc; cases hc
  | cons x t ih =>
    intro c hc
    by_cases hx : pySpace x = true
    · rw [List.dropWhile_cons_of_pos hx] at hc
      exact ih c hc
    · rw [List.dropWhile_cons_of_neg (by simpa using hx)] at hc
      simp only [List.head?, Option.some.injEq] at hc
      rw [← hc]
      simpa using hx

theorem pyDigit_ne_apos (c : Char) (h : pyDigit c = true) : c ≠ '\'' := by
  intro he; rw [he] at h; exact absurd h (by decide)

theorem pyDigit_ne_pipe (c : Char) (h : pyDigit c = true) : c ≠ '|' := by
  intro he; rw [he] at h; exact absurd h (by decide)

theorem lowerAZ_ne_apos (c : Char) (h : lowerAZ c = true) : c ≠ '\'' := by
  intro he; rw [he] at h; exact absurd h (by decide)

theorem lowerAZ_ne_pipe (c : Char) (h : lowerAZ c = true) : c ≠ '|' := by
  intro he; rw [he] at h; exact absurd h (by decide)

theorem pA_append_plain (u v : List Char)
    (hu : ∀ c ∈ u, pySpace c = false ∧ c ≠ '\'' ∧ c ≠ '|') :
    A3 false (u ++ v) = u ++ A3 false v := by
  induction u with
  | nil => rfl
  | cons x u ih =>
    have hx := hu x (List.mem_cons_self x u)
    rw [List.cons_append, pA_plain false x _ hx.1 hx.2.1 hx.2.2,
      ih (fun c hc => hu c (List.mem_cons_of_mem x hc)), List.cons_append]

/-- Transfer of a non-firing lookahead through passes 3-6 and the
final right strip: either it still does not fire, or the surviving
suffix begins with an apostrophe. -/
theorem firesA (cs : List Char) (hf : r2fires cs = false) :
    r2fires (rstripL (A3 false cs)) = false ∨
      (rstripL (A3 false cs)).head? = some '\'' := by
  cases hcs : cs with
  | nil => exact Or.inl (by decide)
  | cons d rest =>
    by_cases hws : pySpace d = true
    · have hsplit := List.takeWhile_append_dropWhile (p := pySpace) (l := cs)
      have hwne : cs.takeWhile pySpace ≠ [] := by
        rw [hcs, List.takeWhile_cons_of_pos hws]
        simp
      cases hdrop : cs.dropWhile pySpace with
      | nil =>
        have hcsall : cs.all pySpace = true := by
          rw [← hsplit, hdrop, List.append_nil]
          exact takeWhile_all_ws cs
        rw [← hcs, pA_allws_false cs hcsall,
          rstripL_allws _ (ca_all_ws cs hcsall false)]
        exact Or.inl rfl
      | cons e r' =>
        have he : pySpace e = false := head_dropWhile_ws cs e (by rw [hdrop]; rfl)
        have hcseq : cs = cs.takeWhile pySpace ++ e :: r' := by
          rw [← hdrop, hsplit]
        by_cases hea : e = '\''
        · subst hea
          rw [← hcs, hcseq, pA_wsrun_apos _ _ (takeWhile_all_ws cs),
            rstripL_cons_nonws '\'' _ (by decide)]
          exact Or.inr rfl
        · by_cases hep : e = '|'
          · subst hep
            rw [← hcs, hcseq, pA_wsrun_pipe _ _ (takeWhile_all_ws cs),
              show (' ' :: '|' :: APipe r') = [' '] ++ '|' :: APipe r' from rfl,
              rstripL_before_nonws [' '] '|' _ (by decide)]
            exact Or.inl (r2fires_head_ws ' ' _ (by decide))
          · rw [← hcs, hcseq,
              pA_wsrun_plain _ e r' (takeWhile_all_ws cs) he hea hep,
              rstripL_before_nonws _ e _ he]
            obtain ⟨x, w'', hxw⟩ : ∃ x w'', cs.takeWhile pySpace = x :: w'' := by
              cases hq : cs.takeWhile pySpace with
              | nil => exact absurd hq hwne
              | cons a b => exact ⟨a, b, rfl⟩
            have hxws : pySpace x = true := by
              have := takeWhile_all_ws cs
              rw [hxw] at this
              simp only [List.all_cons, Bool.and_eq_true] at this
              exact this.1
            rw [hxw]
            by_cases hx : x = ' '
            · subst hx
              rw [ca_sp_false, List.cons_append]
              exact Or.inl (r2fires_head_ws ' ' _ (by decide))
            · rw [ca_other false x _ hx, List.cons_append]
              exact Or.inl (r2fires_head_ws x _ hxws)
    · have hws' : pySpace d = false := by simpa using hws
      by_cases hdg : pyDigit d = true
      · rw [← hcs, hcs, pA_plain false d rest hws' (pyDigit_ne_apos d hdg)
          (pyDigit_ne_pipe d hdg), rstripL_cons_nonws d _ hws']
        exact Or.inl (r2fires_head_digit d _ hdg)
      · by_cases hpu : punct6 d = true
        · rw [← hcs, hcs, pA_plain false d rest hws' (punct6_ne_apos d hpu)
            (punct6_ne_pipe d hpu), rstripL_cons_nonws d _ hws']
          exact Or.inl (r2fires_head_punct d _ hpu)
        · have hext : extParen (d :: rest) = true := by
            rw [hcs] at hf
            simp only [r2fires, hws', hdg, hpu] at hf
            simpa using hf
          obtain ⟨k, u, tail, hk, hsplit2, hlen, hlow⟩ :=
            extParen_elim (d :: rest) hext
          have hu : ∀ c ∈ u, pySpace c = false ∧ c ≠ '\'' ∧ c ≠ '|' := by
            intro c hcm
            have hl := (List.all_eq_true.1 hlow) c hcm
            exact ⟨lowerAZ_not_ws c hl, lowerAZ_ne_apos c hl,
              lowerAZ_ne_pipe c hl⟩
          have hres : A3 false (d :: rest) =
              u ++ ')' :: A3 false tail := by
            rw [hsplit2, pA_append_plain u _ hu,
              pA_plain false ')' tail (by decide) (by decide) (by decide)]
          rw [← hcs, hcs, hres, rstripL_before_nonws u ')' _ (by decide)]
          have hext2 : extParen (u ++ ')' :: rstripL (A3 false tail)) = true :=
            extParen_intro k u _ hk hlen hlow
          obtain ⟨a, u2, hau⟩ : ∃ a u2, u = a :: u2 := by
            cases hq : u with
            | nil =>
              rw [hq] at hlen
              rcases hk with rfl | rfl | rfl <;> simp at hlen
            | cons a b => exact ⟨a, b, rfl⟩
          rw [hau]
          rw [hau] at hext2
          refine Or.inl ?_
          simp only [List.cons_append] at hext2 ⊢
          simp [r2fires, hext2]

theorem GN_out_cons (e : Char) (r' : List Char) (he : pySpace e = false)
    (h3 : e ≠ '\'') (h4 : e ≠ '|') :
    rstripL (A3 false (e :: r')) = e :: rstripL (A3 false r') := by
  rw [pA_plain false e r' he h3 h4, rstripL_cons_nonws e _ he]

/-- Main inductive step of part A: after passes 3-6 and the right
strip, the result parses in the clean grammar, in each of the three
scanning contexts. -/
theorem cpA : ∀ n : Nat, ∀ cs : List Char, cs.length ≤ n →
    noWsPunct cs = true → noFireAll cs = true →
    GN (rstripL (A3 false cs)) = true ∧
    GA (rstripL (A3 true cs)) = true ∧
    GP (rstripL (APipe cs)) = true := by
  intro n
  induction n with
  | zero =>
    intro cs hlen hWP hFA
    have h0 : cs = [] := List.length_eq_zero.1 (Nat.le_zero.1 hlen)
    subst h0
    refine ⟨by decide, by decide, ?_⟩
    rw [pAP_nil, rstripL_allws [' '] (by decide)]
    decide
  | succ n ih =>
    intro cs hlen hWP hFA
    cases hcs : cs with
    | nil =>
      refine ⟨by decide, by decide, ?_⟩
      rw [pAP_nil, rstripL_allws [' '] (by decide)]
      decide
    | cons c r =>
      subst hcs
      have hlr : r.length ≤ n := by
        simp only [List.length_cons] at hlen; omega
      have hWPr := noWsPunct_tail c r hWP
      have hFAr := noFireAll_tail c r hFA
      have hN : GN (rstripL (A3 false (c :: r))) = true := by
        by_cases hws : pySpace c = true
        · have hwne : (c :: r).takeWhile pySpace ≠ [] := by
            rw [List.takeWhile_cons_of_pos hws]; simp
          have hsplit := List.takeWhile_append_dropWhile
            (p := pySpace) (l := c :: r)
          cases hdrop : (c :: r).dropWhile pySpace with
          | nil =>
            have hall : (c :: r).all pySpace = true := by
              conv_lhs => rw [← hsplit]
              rw [hdrop, List.append_nil]
              exact takeWhile_all_ws (c :: r)
            rw [pA_allws_false _ hall, rstripL_allws _ (ca_all_ws _ hall false)]
            rfl
          | cons e r' =>
            have he : pySpace e = false :=
              head_dropWhile_ws (c :: r) e (by rw [hdrop]; rfl)
            have hcseq : c :: r = (c :: r).takeWhile pySpace ++ e :: r' := by
              conv_lhs => rw [← hsplit]
              rw [hdrop]
            have hwall := takeWhile_all_ws (c :: r)
            have hlr' : r'.length ≤ n := by
              have := congrArg List.length hcseq
              simp only [List.length_cons, List.length_append] at this hlen ⊢
              have hwpos : 0 < ((c :: r).takeWhile pySpace).length := by
                cases hq : (c :: r).takeWhile pySpace with
                | nil => exact absurd hq hwne
                | cons a b => simp
              omega
            have hcnd' : noWsPunct r' = true ∧ noFireAll r' = true := by
              constructor
              · refine noWsPunct_suffix ((c :: r).takeWhile pySpace ++ [e]) r' ?_
                rw [List.append_assoc, List.singleton_append]
                rw [← hcseq]
                exact hWP
              · refine noFireAll_suffix ((c :: r).takeWhile pySpace ++ [e]) r' ?_
                rw [List.append_assoc, List.singleton_append]
                rw [← hcseq]
                exact hFA
            by_cases hea : e = '\''
            · subst hea
              rw [hcseq, pA_wsrun_apos _ _ hwall,
                rstripL_cons_nonws '\'' _ (by decide), GN_apos]
              exact (ih r' hlr' hcnd'.1 hcnd'.2).2.1
            · by_cases hep : e = '|'
              · subst hep
                rw [hcseq, pA_wsrun_pipe _ _ hwall,
                  show (' ' :: '|' :: APipe r') = [' '] ++ '|' :: APipe r'
                    from rfl,
                  rstripL_before_nonws [' '] '|' _ (by decide)]
                rw [show ([' '] ++ '|' :: rstripL (APipe r')) =
                  ' ' :: '|' :: rstripL (APipe r') from rfl, GN_sp_pipe]
                exact (ih r' hlr' hcnd'.1 hcnd'.2).2.2
              · have hpe : punct6 e = false := by
                  refine noWsPunct_run_punct _ e r' hwne hwall ?_
                  rw [← hcseq]; exact hWP
                have hlee : (e :: r').length ≤ n := by
                  have := congrArg List.length hcseq
                  simp only [List.length_cons, List.length_append] at this hlen ⊢
                  have hwpos : 0 < ((c :: r).takeWhile pySpace).length := by
                    cases hq : (c :: r).takeWhile pySpace with
                    | nil => exact absurd hq hwne
                    | cons a b => simp
                  omega
                have hcnd2 : noWsPunct (e :: r') = true ∧
                    noFireAll (e :: r') = true := by
                  constructor
                  · exact noWsPunct_suffix ((c :: r).takeWhile pySpace) _
                      (by rw [← hcseq]; exact hWP)
                  · exact noFireAll_suffix ((c :: r).takeWhile pySpace) _
                      (by rw [← hcseq]; exact hFA)
                have hGNe : GN (e :: rstripL (A3 false r')) = true := by
                  have hh := (ih (e :: r') hlee hcnd2.1 hcnd2.2).1
                  rwa [GN_out_cons e r' he hea hep] at hh
                rw [hcseq, pA_wsrun_plain _ e r' hwall he hea hep,
                  rstripL_before_nonws _ e _ he]
                obtain ⟨x, w'', hxw⟩ : ∃ x w'',
                    (c :: r).takeWhile pySpace = x :: w'' := by
                  cases hq : (c :: r).takeWhile pySpace with
                  | nil => exact absurd hq hwne
                  | cons a b => exact ⟨a, b, rfl⟩
                rw [hxw]
                refine GN_wsrun_intro _ e _ (ca_nonempty x w'')
                  (by rw [← hxw]; exact ca_all_ws _ hwall false)
                  (by rw [← hxw]; exact ca_noDbl e (pySpace_char_ne e he) _ false)
                  he hpe hea hep hGNe
        · have hws' : pySpace c = false := by simpa using hws
          by_cases hap : c = '\''
          · subst hap
            rw [pA_apos false r, rstripL_cons_nonws '\'' _ (by decide), GN_apos]
            exact (ih r hlr hWPr hFAr).2.1
          · by_cases hpipe : c = '|'
            · subst hpipe
              rw [pA_pipe_false r,
                show (' ' :: '|' :: APipe r) = [' '] ++ '|' :: APipe r from rfl,
                rstripL_before_nonws [' '] '|' _ (by decide)]
              rw [show ([' '] ++ '|' :: rstripL (APipe r)) =
                ' ' :: '|' :: rstripL (APipe r) from rfl, GN_sp_pipe]
              exact (ih r hlr hWPr hFAr).2.2
            · rw [pA_plain false c r hws' hap hpipe,
                rstripL_cons_nonws c _ hws']
              by_cases hpu : punct6 c = true
              · exact GN_punct_intro c _ hpu (ih r hlr hWPr hFAr).1
                  (firesA r (noFireAll_head c r hFA hpu))
              · rw [GN_plain c _ hws' (by simpa using hpu) hap hpipe]
                exact (ih r hlr hWPr hFAr).1
      refine ⟨hN, ?_, ?_⟩
      · by_cases hws : pySpace c = true
        · have hwne : (c :: r).takeWhile pySpace ≠ [] := by
            rw [List.takeWhile_cons_of_pos hws]; simp
          have hsplit := List.takeWhile_append_dropWhile
            (p := pySpace) (l := c :: r)
          cases hdrop : (c :: r).dropWhile pySpace with
          | nil =>
            have hall : (c :: r).all pySpace = true := by
              conv_lhs => rw [← hsplit]
              rw [hdrop, List.append_nil]
              exact takeWhile_all_ws (c :: r)
            rw [pA_allws_true _ hall]
            rfl
          | cons e r' =>
            have he : pySpace e = false :=
              head_dropWhile_ws (c :: r) e (by rw [hdrop]; rfl)
            have hcseq : c :: r = (c :: r).takeWhile pySpace ++ e :: r' := by
              conv_lhs => rw [← hsplit]
              rw [hdrop]
            have hwall := takeWhile_all_ws (c :: r)
            have hlr' : r'.length ≤ n := by
              have := congrArg List.length hcseq
              simp only [List.length_cons, List.length_append] at this hlen ⊢
              have hwpos : 0 < ((c :: r).takeWhile pySpace).length := by
                cases hq : (c :: r).takeWhile pySpace with
                | nil => exact absurd hq hwne
                | cons a b => simp
              omega
            have hcnd' : noWsPunct r' = true ∧ noFireAll r' = true := by
              constructor
              · refine noWsPunct_suffix ((c :: r).takeWhile pySpace ++ [e]) r' ?_
                rw [List.append_assoc, List.singleton_append, ← hcseq]
                exact hWP
              · refine noFireAll_suffix ((c :: r).takeWhile pySpace ++ [e]) r' ?_
                rw [List.append_assoc, List.singleton_append, ← hcseq]
                exact hFA
            by_cases hea : e = '\''
            · subst hea
              rw [hcseq, pA_wsrun_apos_true _ _ hwall,
                rstripL_cons_nonws '\'' _ (by decide), GA_apos]
              exact (ih r' hlr' hcnd'.1 hcnd'.2).2.1
            · by_cases hep : e = '|'
              · subst hep
                rw [hcseq, pA_wsrun_pipe_true _ _ hwall,
                  rstripL_cons_nonws '|' _ (by decide), GA_pipe]
                exact (ih r' hlr' hcnd'.1 hcnd'.2).2.2
              · have hlee : (e :: r').length ≤ n := by
                  have := congrArg List.length hcseq
                  simp only [List.length_cons, List.length_append] at this hlen ⊢
                  have hwpos : 0 < ((c :: r).takeWhile pySpace).length := by
                    cases hq : (c :: r).takeWhile pySpace with
                    | nil => exact absurd hq hwne
                    | cons a b => simp
                  omega
                have hcnd2 : noWsPunct (e :: r') = true ∧
                    noFireAll (e :: r') = true := by
                  constructor
                  · exact noWsPunct_suffix ((c :: r).takeWhile pySpace) _
                      (by rw [← hcseq]; exact hWP)
                  · exact noFireAll_suffix ((c :: r).takeWhile pySpace) _
                      (by rw [← hcseq]; exact hFA)
                have hGNe : GN (e :: rstripL (A3 false r')) = true := by
                  have hh := (ih (e :: r') hlee hcnd2.1 hcnd2.2).1
                  rwa [GN_out_cons e r' he hea hep] at hh
                rw [hcseq, pA_wsrun_plain_true _ e r' hwall he hea hep,
                  rstripL_cons_nonws e _ he, GA_eq_GN e _ he hea hep]
                exact hGNe
        · have hws' : pySpace c = false := by simpa using hws
          by_cases hap : c = '\''
          · subst hap
            rw [pA_apos true r, rstripL_cons_nonws '\'' _ (by decide), GA_apos]
            exact (ih r hlr hWPr hFAr).2.1
          · by_cases hpipe : c = '|'
            · subst hpipe
              rw [pA_pipe_true r, rstripL_cons_nonws '|' _ (by decide), GA_pipe]
              exact (ih r hlr hWPr hFAr).2.2
            · rw [pA_plain true c r hws' hap hpipe,
                rstripL_cons_nonws c _ hws', GA_eq_GN c _ hws' hap hpipe]
              have hh := hN
              rwa [pA_plain false c r hws' hap hpipe,
                rstripL_cons_nonws c _ hws'] at hh
      · by_cases hws : pySpace c = true
        · have hwne : (c :: r).takeWhile pySpace ≠ [] := by
            rw [List.takeWhile_cons_of_pos hws]; simp
          have hsplit := List.takeWhile_append_dropWhile
            (p := pySpace) (l := c :: r)
          have hwall := takeWhile_all_ws (c :: r)
          have hAPipe : APipe (c :: r) =
              APipe ((c :: r).dropWhile pySpace) := by
            have h2 := pAP_wsrun ((c :: r).takeWhile pySpace)
              ((c :: r).dropWhile pySpace) hwall
            rw [hsplit] at h2
            exact h2
          cases hdrop : (c :: r).dropWhile pySpace with
          | nil =>
            rw [hAPipe, hdrop, pAP_nil, rstripL_allws [' '] (by decide)]
            rfl
          | cons e r' =>
            have he : pySpace e = false :=
              head_dropWhile_ws (c :: r) e (by rw [hdrop]; rfl)
            have hcseq : c :: r = (c :: r).takeWhile pySpace ++ e :: r' := by
              conv_lhs => rw [← hsplit]
              rw [hdrop]
            have hlr' : r'.length ≤ n := by
              have := congrArg List.length hcseq
              simp only [List.length_cons, List.length_append] at this hlen ⊢
              have hwpos : 0 < ((c :: r).takeWhile pySpace).length := by
                cases hq : (c :: r).takeWhile pySpace with
                | nil => exact absurd hq hwne
                | cons a b => simp
              omega
            have hcnd' : noWsPunct r' = true ∧ noFireAll r' = true := by
              constructor
              · refine noWsPunct_suffix ((c :: r).takeWhile pySpace ++ [e]) r' ?_
                rw [List.append_assoc, List.singleton_append, ← hcseq]
                exact hWP
              · refine noFireAll_suffix ((c :: r).takeWhile pySpace ++ [e]) r' ?_
                rw [List.append_assoc, List.singleton_append, ← hcseq]
                exact hFA
            rw [hAPipe, hdrop]
            by_cases hea : e = '\''
            · subst hea
              rw [pAP_apos, rstripL_cons_nonws '\'' _ (by decide), GP_apos]
              exact (ih r' hlr' hcnd'.1 hcnd'.2).2.1
            · by_cases hep : e = '|'
              · subst hep
                rw [pAP_pipe,
                  show (' ' :: '|' :: APipe r') = [' '] ++ '|' :: APipe r'
                    from rfl,
                  rstripL_before_nonws [' '] '|' _ (by decide)]
                rw [show ([' '] ++ '|' :: rstripL (APipe r')) =
                  ' ' :: '|' :: rstripL (APipe r') from rfl, GP_sp_pipe]
                exact (ih r' hlr' hcnd'.1 hcnd'.2).2.2
              · have hlee : (e :: r').length ≤ n := by
                  have := congrArg List.length hcseq
                  simp only [List.length_cons, List.length_append] at this hlen ⊢
                  have hwpos : 0 < ((c :: r).takeWhile pySpace).length := by
                    cases hq : (c :: r).takeWhile pySpace with
                    | nil => exact absurd hq hwne
                    | cons a b => simp
                  omega
                have hcnd2 : noWsPunct (e :: r') = true ∧
                    noFireAll (e :: r') = true := by
                  constructor
                  · exact noWsPunct_suffix ((c :: r).takeWhile pySpace) _
                      (by rw [← hcseq]; exact hWP)
                  · exact noFireAll_suffix ((c :: r).takeWhile pySpace) _
                      (by rw [← hcseq]; exact hFA)
                have hGNe : GN (e :: rstripL (A3 false r')) = true := by
                  have hh := (ih (e :: r') hlee hcnd2.1 hcnd2.2).1
                  rwa [GN_out_cons e r' he hea hep] at hh
                rw [pAP_plain e r' he hea hep,
                  show (' ' :: e :: A3 false r') = [' '] ++ e :: A3 false r'
                    from rfl,
                  rstripL_before_nonws [' '] e _ he]
                rw [show ([' '] ++ e :: rstripL (A3 false r')) =
                  ' ' :: e :: rstripL (A3 false r') from rfl,
                  GP_sp_other e _ he hea hep]
                exact hGNe
        · have hws' : pySpace c = false := by simpa using hws
          by_cases hap : c = '\''
          · subst hap
            rw [pAP_apos, rstripL_cons_nonws '\'' _ (by decide), GP_apos]
            exact (ih r hlr hWPr hFAr).2.1
          · by_cases hpipe : c = '|'
            · subst hpipe
              rw [pAP_pipe,
                show (' ' :: '|' :: APipe r) = [' '] ++ '|' :: APipe r from rfl,
                rstripL_before_nonws [' '] '|' _ (by decide)]
              rw [show ([' '] ++ '|' :: rstripL (APipe r)) =
                ' ' :: '|' :: rstripL (APipe r) from rfl, GP_sp_pipe]
              exact (ih r hlr hWPr hFAr).2.2
            · rw [pAP_plain c r hws' hap hpipe,
                show (' ' :: c :: A3 false r) = [' '] ++ c :: A3 false r
                  from rfl,
                rstripL_before_nonws [' '] c _ hws']
              rw [show ([' '] ++ c :: rstripL (A3 false r)) =
                ' ' :: c :: rstripL (A3 false r) from rfl,
                GP_sp_other c _ hws' hap hpipe]
              have hh := hN
              rwa [pA_plain false c r hws' hap hpipe,
                rstripL_cons_nonws c _ hws'] at hh

theorem rstripL_ws_cons (c : Char) (X : List Char) (hc : pySpace c = true) :
    rstripL (c :: X) = if rstripL X = [] then [] else c :: rstripL X := by
  simp only [rstripL, List.reverse_cons, List.dropWhile_append]
  by_cases hX : List.dropWhile pySpace X.reverse = []
  · rw [if_pos (by simp [hX]), if_pos (by simp [hX])]
    simp [List.dropWhile, hc]
  · rw [if_neg (by simp [hX]), if_neg (by simp [hX])]
    simp

theorem lstrip_wsrun (w : List Char) (e : Char) (B : List Char)
    (hw : w.all pySpace = true) (he : pySpace e = false) :
    (w ++ e :: B).dropWhile pySpace = e :: B := by
  rw [dropWhile_append_stop e he w B,
    List.dropWhile_eq_nil_iff.2 (fun x hx => (List.all_eq_true.1 hw) x hx)]
  rfl

/-- The two one-sided strips commute. -/
theorem lstrip_rstrip_comm : ∀ X : List Char,
    lstripL (rstripL X) = rstripL (lstripL X) := by
  intro X
  induction X with
  | nil => rfl
  | cons c X ih =>
    by_cases hc : pySpace c = true
    · rw [rstripL_ws_cons c X hc,
        show lstripL (c :: X) = lstripL X from
          List.dropWhile_cons_of_pos hc]
      by_cases hX : rstripL X = []
      · rw [if_pos hX]
        rw [hX] at ih
        rw [show lstripL ([] : List Char) = [] from rfl] at ih
        rw [ih.symm]
        rfl
      · rw [if_neg hX,
          show lstripL (c :: rstripL X) = lstripL (rstripL X) from
            List.dropWhile_cons_of_pos hc, ih]
    · have hc' : pySpace c = false := by simpa using hc
      rw [rstripL_cons_nonws c X hc',
        show lstripL (c :: rstripL X) = c :: rstripL X from
          List.dropWhile_cons_of_neg (by simp [hc']),
        show lstripL (c :: X) = c :: X from
          List.dropWhile_cons_of_neg (by simp [hc']),
        rstripL_cons_nonws c X hc']

theorem GN_pipe_false (r : List Char) : GN ('|' :: r) = false := by
  cases r with
  | nil => decide
  | cons d r2 =>
    simp [GN, show punct6 '|' = false by decide,
      show ('|' : Char) ≠ '\'' by decide, show pySpace '|' = false by decide]

theorem GTop_eq_GN (c : Char) (r : List Char) (h1 : pySpace c = false)
    (h4 : c ≠ '|') : GTop (c :: r) = GN (c :: r) := by
  simp [GTop, h1, h4]

/-- A string accepted in neutral context parses at top level once its
leading whitespace is stripped. -/
theorem GN_lstrip (T : List Char) (h : GN T = true) :
    GTop (lstripL T) = true := by
  cases T with
  | nil => exact h
  | cons c r =>
    by_cases hc : pySpace c = true
    · cases r with
      | nil =>
        simp only [GN] at h
        obtain ⟨h1, -⟩ := of_decide_eq_true h
        exact absurd hc h1
      | cons d r2 =>
        simp only [GN] at h
        rw [if_neg (by simp [ws_not_punct c hc]), if_neg (ws_ne_apos c hc),
          if_neg (ws_ne_pipe c hc), if_pos hc] at h
        by_cases hd : d = '|'
        · subst hd
          rw [if_pos rfl] at h
          obtain ⟨hc', hGP⟩ := of_decide_eq_true h
          subst hc'
          rw [show lstripL (' ' :: '|' :: r2) = '|' :: r2 from by
            rw [show (' ' :: '|' :: r2) = [' '] ++ '|' :: r2 from rfl]
            exact lstrip_wsrun [' '] '|' r2 (by decide) (by decide)]
          simp [GTop, hGP, show pySpace '|' = false by decide]
        · rw [if_neg hd] at h
          by_cases hdw : pySpace d = true
          · rw [if_pos hdw] at h
            obtain ⟨-, hGW⟩ := of_decide_eq_true h
            obtain ⟨u, e, rr, hsplit, hne, hall, hnd, he1, he2, he3, he4,
              hGNe⟩ := gw_run r2 d hdw hGW
            rw [show lstripL (c :: d :: r2) = e :: rr from by
              rw [show c :: d :: r2 = (c :: u) ++ e :: rr from by
                rw [List.cons_append, ← hsplit]]
              exact lstrip_wsrun (c :: u) e rr (by simp [hc, hall]) he1]
            rw [GTop_eq_GN e rr he1 he4]
            exact hGNe
          · rw [if_neg hdw] at h
            by_cases hdx : punct6 d = true ∨ d = '\''
            · rw [if_pos hdx] at h
              exact absurd h (by simp)
            · rw [if_neg hdx] at h
              push_neg at hdx
              have hd1 : pySpace d = false := by simpa using hdw
              rw [show lstripL (c :: d :: r2) = d :: r2 from by
                rw [show c :: d :: r2 = [c] ++ d :: r2 from rfl]
                exact lstrip_wsrun [c] d r2 (by simp [hc]) hd1]
              rw [GTop_eq_GN d r2 hd1 hd]
              exact h
    · have hc' : pySpace c = false := by simpa using hc
      rw [show lstripL (c :: r) = c :: r from
        List.dropWhile_cons_of_neg (by simp [hc'])]
      by_cases hp : c = '|'
      · subst hp
        rw [GN_pipe_false r] at h
        exact absurd h (by simp)
      · rw [GTop_eq_GN c r hc' hp]
        exact h

/-- Every pipeline output parses in the clean grammar. -/
theorem GTop_cleanContent (cs : List Char) :
    GTop (cleanContent cs) = true := by
  have hWP : noWsPunct (insSpaceAfterPunct (delWsBeforePunct cs)) = true :=
    noWsPunct_isp _ (noWsPunct_r1 cs)
  have hFA : noFireAll (insSpaceAfterPunct (delWsBeforePunct cs)) = true :=
    noFireAll_isp _
  have hGN := (cpA (insSpaceAfterPunct (delWsBeforePunct cs)).length _
    (Nat.le_refl _) hWP hFA).1
  have hcc : cleanContent cs =
      lstripL (rstripL (A3 false (insSpaceAfterPunct (delWsBeforePunct cs)))) := by
    show stripL (passAll cs) = _
    rw [show passAll cs =
      A3 false (insSpaceAfterPunct (delWsBeforePunct cs)) from rfl]
    show rstripL (lstripL _) = _
    rw [lstrip_rstrip_comm]
  rw [hcc]
  exact GN_lstrip _ hGN

/-- Idempotence of the six passes with strip on one line's content. -/
theorem cleanContent_idem (cs : List Char) :
    cleanContent (cleanContent cs) = cleanContent cs := by
  have hG := GTop_cleanContent cs
  show stripL (passAll (cleanContent cs)) = cleanContent cs
  rw [passAll_of_GTop _ hG, stripL_paddedForm _ hG]

theorem GTop_head (b : List Char) (h : GTop b = true) :
    ∀ c, b.head? = some c → pySpace c = false := by
  intro c hc
  cases b with
  | nil => cases hc
  | cons d r =>
    simp only [List.head?, Option.some.injEq] at hc
    subst hc
    by_contra hws
    have hws' : pySpace d = true := by simpa using hws
    simp only [GTop] at h
    rw [if_pos hws'] at h
    exact absurd h (by simp)

theorem takeWhile_allws_self (w : List Char) (hall : w.all pySpace = true) :
    w.takeWhile pySpace = w := by
  induction w with
  | nil => rfl
  | cons x w ih =>
    simp only [List.all_cons, Bool.and_eq_true] at hall
    rw [List.takeWhile_cons_of_pos hall.1, ih hall.2]

theorem dropWhile_allws (w : List Char) (hall : w.all pySpace = true) :
    w.dropWhile pySpace = [] :=
  List.dropWhile_eq_nil_iff.2 (fun x hx => (List.all_eq_true.1 hall) x hx)

theorem takeWhile_ws_append (w : List Char) (e : Char) (B : List Char)
    (hall : w.all pySpace = true) (he : pySpace e = false) :
    (w ++ e :: B).takeWhile pySpace = w := by
  induction w with
  | nil =>
    rw [List.nil_append, List.takeWhile_cons_of_neg (by simp [he])]
  | cons x w ih =>
    simp only [List.all_cons, Bool.and_eq_true] at hall
    rw [List.cons_append, List.takeWhile_cons_of_pos hall.1, ih hall.2]

/-- Idempotence of the per-line cleanup including the preserved
indentation. -/
theorem lineClean_idem (l : List Char) :
    lineClean (lineClean l) = lineClean l := by
  have hind := takeWhile_all_ws l
  have hG := GTop_cleanContent (l.dropWhile pySpace)
  cases hcc : cleanContent (l.dropWhile pySpace) with
  | nil =>
    simp only [lineClean, hcc, List.append_nil]
    rw [takeWhile_allws_self _ hind, dropWhile_allws _ hind]
    rw [show cleanContent [] = [] from rfl, List.append_nil]
  | cons e cc' =>
    have he : pySpace e = false := by
      refine GTop_head _ hG e ?_
      rw [hcc]; rfl
    simp only [lineClean, hcc]
    rw [takeWhile_ws_append _ e _ hind he, lstrip_wsrun _ e _ hind he, ← hcc,
      cleanContent_idem, hcc]

/-! Lifting to whole strings: newline-freedom of the cleanup and the
split/join round trip. -/

theorem mem_dwb (P : Char → Bool) :
    ∀ (cs pend : List Char) (c : Char), c ∈ delWsBeforeAux P pend cs →
      c ∈ pend ∨ c ∈ cs := by
  intro cs
  induction cs with
  | nil =>
    intro pend c hc
    rw [dwb_nil] at hc
    exact Or.inl (List.mem_reverse.1 hc)
  | cons d cs ih =>
    intro pend c hc
    by_cases hws : pySpace d = true
    · rw [dwb_ws P pend d cs hws] at hc
      rcases ih (d :: pend) c hc with h | h
      · rcases List.mem_cons.1 h with rfl | h
        · exact Or.inr (List.mem_cons_self _ _)
        · exact Or.inl h
      · exact Or.inr (List.mem_cons_of_mem d h)
    · have hws' : pySpace d = false := by simpa using hws
      by_cases hp : P d = true
      · rw [dwb_P P pend d cs hws' hp] at hc
        rcases List.mem_cons.1 hc with rfl | h
        · exact Or.inr (List.mem_cons_self _ _)
        · rcases ih [] c h with h2 | h2
          · cases h2
          · exact Or.inr (List.mem_cons_of_mem d h2)
      · rw [dwb_other P pend d cs hws' (by simpa using hp)] at hc
        rcases List.mem_append.1 hc with h | h
        · exact Or.inl (List.mem_reverse.1 h)
        · rcases List.mem_cons.1 h with rfl | h2
          · exact Or.inr (List.mem_cons_self _ _)
          · rcases ih [] c h2 with h3 | h3
            · cases h3
            · exact Or.inr (List.mem_cons_of_mem d h3)

theorem mem_isp : ∀ (cs : List Char) (c : Char),
    c ∈ insSpaceAfterPunct cs → c ∈ cs ∨ c = ' ' := by
  intro cs
  induction cs with
  | nil => intro c hc; cases hc
  | cons d cs ih =>
    intro c hc
    obtain ⟨X, hX⟩ := isp_cons_shape d cs
    have hXsub : ∀ x, x ∈ X → x ∈ insSpaceAfterPunct cs ∨ x = ' ' := by
      intro x hx
      by_cases hfi : punct6 d = true ∧ r2fires cs = true
      · rw [isp_fire d cs hfi.1 hfi.2] at hX
        injection hX with h1 h2
        rw [← h2] at hx
        rcases List.mem_cons.1 hx with rfl | hx2
        · exact Or.inr rfl
        · exact Or.inl hx2
      · have : insSpaceAfterPunct (d :: cs) = d :: insSpaceAfterPunct cs := by
          by_cases hp : punct6 d = true
          · have hf : r2fires cs = false := by
              by_contra hff
              exact hfi ⟨hp, by simpa using hff⟩
            exact isp_nofire d cs hf
          · exact isp_nopunct d cs (by simpa using hp)
        rw [this] at hX
        injection hX with h1 h2
        rw [← h2] at hx
        exact Or.inl hx
    rw [hX] at hc
    rcases List.mem_cons.1 hc with rfl | hc2
    · exact Or.inl (List.mem_cons_self _ _)
    · rcases hXsub c hc2 with h | h
      · rcases ih c h with h2 | h2
        · exact Or.inl (List.mem_cons_of_mem d h2)
        · exact Or.inr h2
      · exact Or.inr h


theorem mem_pn : ∀ (n : Nat) (cs : List Char), cs.length ≤ n →
    (∀ (pend : List Char) (c : Char), c ∈ pipeNormAux pend cs →
      c ∈ pend ∨ c ∈ cs ∨ c = ' ' ∨ c = '|') ∧
    (∀ c : Char, c ∈ pipeTail cs → c ∈ cs ∨ c = ' ' ∨ c = '|') := by
  intro n
  induction n with
  | zero =>
    intro cs hlen
    have h0 : cs = [] := List.length_eq_zero.1 (Nat.le_zero.1 hlen)
    subst h0
    constructor
    · intro pend c hc
      rw [pn_nil] at hc
      exact Or.inl (List.mem_reverse.1 hc)
    · intro c hc
      rw [pt_nil] at hc
      rcases List.mem_singleton.1 hc with rfl
      exact Or.inr (Or.inl rfl)
  | succ n ih =>
    intro cs hlen
    cases cs with
    | nil =>
      constructor
      · intro pend c hc
        rw [pn_nil] at hc
        exact Or.inl (List.mem_reverse.1 hc)
      · intro c hc
        rw [pt_nil] at hc
        rcases List.mem_singleton.1 hc with rfl
        exact Or.inr (Or.inl rfl)
    | cons d cs' =>
      have hl : cs'.length ≤ n := by
        simp only [List.length_cons] at hlen; omega
      constructor
      · intro pend c hc
        by_cases hws : pySpace d = true
        · rw [pn_ws pend d cs' hws] at hc
          rcases (ih cs' hl).1 (d :: pend) c hc with h | h | h
          · rcases List.mem_cons.1 h with rfl | h2
            · exact Or.inr (Or.inl (List.mem_cons_self _ _))
            · exact Or.inl h2
          · exact Or.inr (Or.inl (List.mem_cons_of_mem d h))
          · exact Or.inr (Or.inr h)
        · by_cases hp : d = '|'
          · subst hp
            rw [pn_pipe pend cs'] at hc
            rcases List.mem_cons.1 hc with rfl | hc2
            · exact Or.inr (Or.inr (Or.inl rfl))
            · rcases List.mem_cons.1 hc2 with rfl | hc3
              · exact Or.inr (Or.inr (Or.inr rfl))
              · rcases (ih cs' hl).2 c hc3 with h | h
                · exact Or.inr (Or.inl (List.mem_cons_of_mem _ h))
                · exact Or.inr (Or.inr h)
          · rw [pn_other pend d cs' (by simpa using hws) hp] at hc
            rcases List.mem_append.1 hc with h | h
            · exact Or.inl (List.mem_reverse.1 h)
            · rcases List.mem_cons.1 h with rfl | h2
              · exact Or.inr (Or.inl (List.mem_cons_self _ _))
              · rcases (ih cs' hl).1 [] c h2 with h3 | h3 | h3
                · cases h3
                · exact Or.inr (Or.inl (List.mem_cons_of_mem d h3))
                · exact Or.inr (Or.inr h3)
      · intro c hc
        by_cases hws : pySpace d = true
        · rw [pt_ws d cs' hws] at hc
          rcases (ih cs' hl).2 c hc with h | h
          · exact Or.inl (List.mem_cons_of_mem d h)
          · exact Or.inr h
        · by_cases hp : d = '|'
          · subst hp
            rw [pt_pipe cs'] at hc
            rcases List.mem_cons.1 hc with rfl | hc2
            · exact Or.inr (Or.inl rfl)
            · rcases List.mem_cons.1 hc2 with rfl | hc3
              · exact Or.inr (Or.inl rfl)
              · rcases List.mem_cons.1 hc3 with rfl | hc4
                · exact Or.inr (Or.inr rfl)
                · rcases (ih cs' hl).2 c hc4 with h | h
                  · exact Or.inl (List.mem_cons_of_mem _ h)
                  · exact Or.inr h
          · rw [pt_other d cs' (by simpa using hws) hp] at hc
            rcases List.mem_cons.1 hc with rfl | hc2
            · exact Or.inr (Or.inl rfl)
            · rcases List.mem_cons.1 hc2 with rfl | hc3
              · exact Or.inl (List.mem_cons_self _ _)
              · rcases (ih cs' hl).1 [] c hc3 with h3 | h3 | h3
                · cases h3
                · exact Or.inl (List.mem_cons_of_mem d h3)
                · exact Or.inr h3

theorem mem_ca : ∀ (cs : List Char) (b : Bool) (c : Char),
    c ∈ collapseAux b cs → c ∈ cs := by
  intro cs
  induction cs with
  | nil => intro b c hc; cases hc
  | cons d cs ih =>
    intro b c hc
    by_cases hd : d = ' '
    · subst hd
      cases b with
      | true =>
        rw [ca_sp_true] at hc
        exact List.mem_cons_of_mem _ (ih true c hc)
      | false =>
        rw [ca_sp_false] at hc
        rcases List.mem_cons.1 hc with rfl | h2
        · exact List.mem_cons_self _ _
        · exact List.mem_cons_of_mem _ (ih true c h2)
    · rw [ca_other b d cs hd] at hc
      rcases List.mem_cons.1 hc with rfl | h2
      · exact List.mem_cons_self _ _
      · exact List.mem_cons_of_mem _ (ih false c h2)

theorem mem_da : ∀ (cs : List Char) (b : Bool) (c : Char),
    c ∈ delWsAfterAposAux b cs → c ∈ cs := by
  intro cs
  induction cs with
  | nil => intro b c hc; cases hc
  | cons d cs ih =>
    intro b c hc
    by_cases hws : pySpace d = true
    · cases b with
      | true =>
        rw [da_skip d cs hws] at hc
        exact List.mem_cons_of_mem _ (ih true c hc)
      | false =>
        rw [da_ws_false d cs hws] at hc
        rcases List.mem_cons.1 hc with rfl | h2
        · exact List.mem_cons_self _ _
        · exact List.mem_cons_of_mem _ (ih false c h2)
    · rw [da_nonws b d cs (by simpa using hws)] at hc
      rcases List.mem_cons.1 hc with rfl | h2
      · exact List.mem_cons_self _ _
      · exact List.mem_cons_of_mem _ (ih _ c h2)

/-- The cleanup introduces no characters beyond spaces and pipes. -/
theorem mem_cleanContent (cs : List Char) (c : Char)
    (hc : c ∈ cleanContent cs) : c ∈ cs ∨ c = ' ' ∨ c = '|' := by
  have h1 := mem_stripL hc
  have h2 := mem_dwb aposP _ [] c h1
  rcases h2 with h2 | h2
  · cases h2
  · have h3 := mem_da _ false c h2
    have h4 := mem_ca _ false c h3
    rcases (mem_pn _ _ (Nat.le_refl _)).1 [] c h4 with h5 | h5 | h5 | h5
    · cases h5
    · rcases mem_isp _ c h5 with h6 | h6
      · rcases mem_dwb punct6 _ [] c h6 with h7 | h7
        · cases h7
        · exact Or.inl h7
      · exact Or.inr (Or.inl h6)
    · exact Or.inr (Or.inl h5)
    · exact Or.inr (Or.inr h5)

theorem splitNl_ne_nil : ∀ cs : List Char, splitNl cs ≠ [] := by
  intro cs
  induction cs with
  | nil => simp [splitNl]
  | cons c cs ih =>
    by_cases hc : c = '\n'
    · simp [splitNl, hc]
    · cases hsp : splitNl cs with
      | nil => simp [splitNl, hc, hsp]
      | cons h t => simp [splitNl, hc, hsp]

theorem splitNl_cons_nonl (c : Char) (cs : List Char) (hc : c ≠ '\n')
    (h : List Char) (t : List (List Char)) (hsp : splitNl cs = h :: t) :
    splitNl (c :: cs) = (c :: h) :: t := by
  simp [splitNl, hc, hsp]

theorem splitNl_append_line : ∀ l : List Char, (∀ c ∈ l, c ≠ '\n') →
    ∀ (cs h : List Char) (t : List (List Char)), splitNl cs = h :: t →
      splitNl (l ++ cs) = (l ++ h) :: t := by
  intro l
  induction l with
  | nil => intro hnl cs h t hsp; simpa using hsp
  | cons c l ih =>
    intro hnl cs h t hsp
    rw [List.cons_append,
      splitNl_cons_nonl c (l ++ cs) (hnl c (List.mem_cons_self _ _)) (l ++ h) t
        (ih (fun x hx => hnl x (List.mem_cons_of_mem c hx)) cs h t hsp),
      List.cons_append]

theorem splitNl_self (l : List Char) (hnl : ∀ c ∈ l, c ≠ '\n') :
    splitNl l = [l] := by
  have h := splitNl_append_line l hnl [] [] [] rfl
  simpa using h

theorem splitNl_intercalate : ∀ ls : List (List Char), ls ≠ [] →
    (∀ l ∈ ls, ∀ c ∈ l, c ≠ '\n') →
    splitNl (List.intercalate ['\n'] ls) = ls := by
  intro ls
  induction ls with
  | nil => intro h; exact absurd rfl h
  | cons l ls ih =>
    intro hne hnl
    cases ls with
    | nil =>
      rw [show List.intercalate ['\n'] [l] = l by simp [List.intercalate]]
      exact splitNl_self l (hnl l (List.mem_cons_self _ _))
    | cons l2 ls' =>
      have hstep : List.intercalate ['\n'] (l :: l2 :: ls') =
          l ++ '\n' :: List.intercalate ['\n'] (l2 :: ls') := by
        simp [List.intercalate]
      rw [hstep]
      have hin : splitNl ('\n' :: List.intercalate ['\n'] (l2 :: ls')) =
          [] :: (l2 :: ls') := by
        have h2 := ih (by simp) (fun x hx => hnl x (List.mem_cons_of_mem l hx))
        simp [splitNl, h2]
      have h3 := splitNl_append_line l (hnl l (List.mem_cons_self _ _)) _ _ _ hin
      rw [h3, List.append_nil]

theorem lineClean_no_nl (l : List Char) (h : ∀ c ∈ l, c ≠ '\n') :
    ∀ c ∈ lineClean l, c ≠ '\n' := by
  intro c hc
  rcases List.mem_append.1 hc with h1 | h1
  · exact h c ((List.takeWhile_sublist pySpace).subset h1)
  · rcases mem_cleanContent _ c h1 with h2 | h2 | h2
    · exact h c ((List.dropWhile_sublist pySpace).subset h2)
    · rw [h2]; decide
    · rw [h2]; decide

theorem mem_splitNl_no_nl : ∀ (cs l : List Char), l ∈ splitNl cs →
    ∀ c ∈ l, c ≠ '\n' := by
  intro cs
  induction cs with
  | nil =>
    intro l hl
    simp only [splitNl] at hl
    rcases List.mem_singleton.1 hl with rfl
    intro c hc; cases hc
  | cons d cs ih =>
    intro l hl
    by_cases hd : d = '\n'
    · rw [show splitNl (d :: cs) = [] :: splitNl cs by simp [splitNl, hd]] at hl
      rcases List.mem_cons.1 hl with rfl | hl2
      · intro c hc; cases hc
      · exact ih l hl2
    · cases hsp : splitNl cs with
      | nil => exact absurd hsp (splitNl_ne_nil cs)
      | cons h t =>
        rw [splitNl_cons_nonl d cs hd h t hsp] at hl
        rcases List.mem_cons.1 hl with rfl | hl2
        · intro c hc
          rcases List.mem_cons.1 hc with rfl | hc2
          · exact hd
          · exact ih h (by rw [hsp]; exact List.mem_cons_self _ _) c hc2
        · exact ih l (by rw [hsp]; exact List.mem_cons_of_mem h hl2)

/-- Claim C2: `clean_punctuation` is idempotent — applying it twice
gives the same result as applying it once, for every input string. -/
theorem claim2_clean_punctuation_idempotent (s : String) :
    clean_punctuation (clean_punctuation s) = clean_punctuation s := by
  have hnl : ∀ l ∈ (splitNl s.data).map lineClean, ∀ c ∈ l, c ≠ '\n' := by
    intro l hl
    obtain ⟨l0, hl0, rfl⟩ := List.mem_map.1 hl
    exact lineClean_no_nl l0 (mem_splitNl_no_nl s.data l0 hl0)
  have hne : (splitNl s.data).map lineClean ≠ [] := by
    intro h
    exact splitNl_ne_nil s.data (List.map_eq_nil.1 h)
  have hsplit : splitNl (clean_punctuation s).data =
      (splitNl s.data).map lineClean := by
    rw [show (clean_punctuation s).data =
      List.intercalate ['\n'] ((splitNl s.data).map lineClean) from rfl]
    exact splitNl_intercalate _ hne hnl
  have hmap : ((splitNl s.data).map lineClean).map lineClean =
      (splitNl s.data).map lineClean := by
    rw [List.map_map]
    refine List.map_congr_left ?_
    intro l hl
    exact lineClean_idem l
  show (⟨List.intercalate ['\n']
    ((splitNl (clean_punctuation s).data).map lineClean)⟩ : String) =
    clean_punctuation s
  rw [hsplit, hmap]
  rfl
